import Mathlib

/-!
A verification development for `cpp-search-server`.

A shallow embedding of the in-memory TF-IDF search server
(`search_server.h`, `search_server.cpp`, `string_processing.cpp`,
`concurrent_map.h`) together with theorems about it.

Modelling conventions.

* `std::string` and `std::string_view` are modelled by value as `List Char`;
  `operator<` on them is the lexicographic order on characters. A key of
  `word_to_document_freqs_` is in the source a `string_view` of the string
  that the forward entry of the document that first brought the word owns;
  the value of such a key is its word as long as that string is alive, which
  is so in every store built by `AddDocument` alone. `RemoveDocument` of a
  document with terms destroys its strings and leaves the keys, and what the
  C++ index then does is undefined; the model keeps these keys by value.
* `std::map<K, V>` is an association list (`OMap`), `std::set<K>` a list
  (`OSet`); insertion keeps ascending key order, so iteration over a container
  built by the operations below visits keys in ascending order, as in C++.
* `int` is `Int`, reduced to 32 bits where the source computes in `int`
  (`int_wrap`); `double` is an arbitrary linearly ordered field `K` (exact
  arithmetic, no rounding), and `std::log` is a parameter `ln : K → K`.
* A function that can throw returns `Except Exception _`; a mutating member
  function returns the outcome paired with the state it leaves behind.
* Parallel algorithms (`std::execution::par`) are modelled by their in-order
  sequential schedule; locks of `ConcurrentMap` are not represented.
-/

/-! ## Containers -/

/-- The `std::map<K, V>` container by value: key/value pairs, ascending by key when built with
`OMap.insert`. -/
abbrev OMap (K V : Type) := List (K × V)

namespace OMap

variable {K V : Type}

/-- Lookup `find(k)`: the value stored under `k`, if any. -/
def find? [DecidableEq K] : OMap K V → K → Option V
  | [], _ => none
  | (k', v) :: t, k => if k = k' then some v else find? t k

/-- The member `count(k)`: 1 when the key is present, 0 otherwise. -/
def count [DecidableEq K] (m : OMap K V) (k : K) : Nat :=
  if (m.find? k).isSome then 1 else 0

/-- Store `v` under `k`, replacing a present value, at the key's place in ascending order. -/
def insert [DecidableEq K] [LinearOrder K] (k : K) (v : V) : OMap K V → OMap K V
  | [] => [(k, v)]
  | (k', v') :: t =>
    if k < k' then (k, v) :: (k', v') :: t
    else if k = k' then (k, v) :: t
    else (k', v') :: insert k v t

/-- The member `erase(k)`. -/
def erase [DecidableEq K] (k : K) (m : OMap K V) : OMap K V :=
  m.filter (fun p => decide (p.1 ≠ k))

/-- The access `m[k]` (get-or-insert a value-initialised slot `init`) followed by an in-place
update `f` of the slot. -/
def upsert [DecidableEq K] [LinearOrder K] (m : OMap K V) (k : K) (init : V) (f : V → V) : OMap K V :=
  m.insert k (f ((m.find? k).getD init))

/-- The member `size()`. -/
def size (m : OMap K V) : Nat := m.length

/-- The key lookup of a map two levels deep. -/
def get2 {A B : Type} [DecidableEq A] [DecidableEq B] (m : OMap A (OMap B V)) (a : A) (b : B) :
    Option V :=
  (m.find? a).bind (fun inner => inner.find? b)

/-- The keys of a map are strictly ascending. -/
def Sorted [LT K] (m : OMap K V) : Prop :=
  (m.map Prod.fst).Pairwise (fun a b => a < b)

end OMap

/-- The `std::set<K>` container by value: elements, ascending when built with `OSet.insert`. -/
abbrev OSet (K : Type) := List K

namespace OSet

variable {K : Type}

/-- The member `count(k)`. -/
def count [DecidableEq K] (s : OSet K) (k : K) : Nat :=
  if k ∈ s then 1 else 0

/-- The member `insert(k)`: no effect when `k` is present. -/
def insert [DecidableEq K] [LinearOrder K] (k : K) : OSet K → OSet K
  | [] => [k]
  | k' :: t =>
    if k < k' then k :: k' :: t
    else if k = k' then k' :: t
    else k' :: insert k t

/-- The member `erase(k)`. -/
def erase [DecidableEq K] (k : K) (s : OSet K) : OSet K :=
  s.filter (fun x => decide (x ≠ k))

end OSet

/-! ## Strings and the tokenizer (`string_processing.cpp`) -/

/-- A `std::string` / `std::string_view`, by value. -/
abbrev Word := List Char

/-- The loop of `SplitIntoWords`: `text` has no leading space; each round cuts the run up to
the next space and then drops the spaces that follow. `fuel` bounds the number of rounds. -/
def SplitIntoWords.loop : Nat → List Char → List Word
  | 0, _ => []
  | fuel + 1, text =>
    if text.isEmpty then []
    else
      let temp := text.takeWhile (fun c => c != ' ')
      let text1 := text.drop temp.length
      let text2 := text1.dropWhile (fun c => c == ' ')
      temp :: SplitIntoWords.loop fuel text2

/-- The function `SplitIntoWords(text)`. Every round of the loop removes at least one character,
so `text.length` rounds suffice. -/
def SplitIntoWords (text : List Char) : List Word :=
  SplitIntoWords.loop text.length (text.dropWhile (fun c => c == ' '))

/-- The template `MakeUniqueNonEmptyStrings`: the set of the non-empty strings. -/
def MakeUniqueNonEmptyStrings (strings : List Word) : OSet Word :=
  strings.foldl (fun non_empty_strings str =>
    if !str.isEmpty then OSet.insert str non_empty_strings else non_empty_strings) []

/-! ## Standard algorithms -/

/-- The inner loop of insertion sort as in libstdc++ (`__unguarded_linear_insert`), on the
reversed sorted prefix: `val` moves left past every element it must precede. -/
def std_sort.linear_insert {α : Type} (comp : α → α → Bool) (val : α) : List α → List α
  | [] => [val]
  | next :: rest =>
    if comp val next then next :: std_sort.linear_insert comp val rest
    else val :: next :: rest

/-- One round of libstdc++ `__insertion_sort`: `sorted` is the prefix already sorted, `val` the
next element. When `val` precedes the first element it is moved to the front; otherwise it is
inserted from the right end. -/
def std_sort.insert_next {α : Type} (comp : α → α → Bool) (sorted : List α) (val : α) : List α :=
  match sorted with
  | [] => [val]
  | first :: _ =>
    if comp val first then val :: sorted
    else (std_sort.linear_insert comp val sorted.reverse).reverse

/-- The algorithm `std::sort(first, last, comp)`, modelled by the insertion sort of libstdc++.
This is what `std::sort` runs on ranges of at most 16 elements; on longer ranges libstdc++
first partitions the range (introsort) and then runs the same insertion pass, and the
overload for `std::execution::par` may run another algorithm, so that elements which the
comparator does not order can come out in another order than here. The theorems use of the
result only that it is a permutation of the range in which no element is followed by one that
the comparator puts before it. -/
def std_sort {α : Type} (comp : α → α → Bool) (l : List α) : List α :=
  l.foldl (std_sort.insert_next comp) []

/-- The algorithm `std::unique` followed by the `erase`/`resize` to the new end: of each run of
equal neighbours only the first stays. -/
def std_unique {α : Type} [DecidableEq α] : List α → List α
  | [] => []
  | [a] => [a]
  | a :: b :: t => if a = b then std_unique (b :: t) else a :: std_unique (b :: t)

/-! ## The search server (`search_server.h`, `search_server.cpp`) -/

/-- The exceptions the code throws: `std::invalid_argument` with its message, the
`std::out_of_range` of `std::map::at`, and the `std::terminate` that ends the program when an
exception leaves the body of a parallel algorithm. -/
inductive Exception where
  | invalid_argument (what : List Char)
  | out_of_range
  | terminate
  deriving DecidableEq

/-- Equality of outcomes is decidable. -/
instance Except.decEq {ε α : Type} [DecidableEq ε] [DecidableEq α] : DecidableEq (Except ε α)
  | .ok a, .ok b =>
    if h : a = b then isTrue (by rw [h]) else isFalse (fun h' => h (by cases h'; rfl))
  | .error a, .error b =>
    if h : a = b then isTrue (by rw [h]) else isFalse (fun h' => h (by cases h'; rfl))
  | .ok _, .error _ => isFalse (fun h' => by cases h')
  | .error _, .ok _ => isFalse (fun h' => by cases h')

/-- The enumeration `DocumentStatus`. -/
inductive DocumentStatus where
  | ACTUAL
  | IRRELEVANT
  | BANNED
  | REMOVED
  deriving DecidableEq

/-- The struct `Document`: one search result. -/
structure Document (K : Type) where
  id : Int
  relevance : K
  rating : Int
  deriving DecidableEq

/-- The struct `SearchServer::DocumentData`. -/
structure DocumentData where
  rating : Int
  status : DocumentStatus
  deriving DecidableEq

/-- The struct `SearchServer::QueryWord`. -/
structure QueryWord where
  data : Word
  is_minus : Bool
  is_stop : Bool
  deriving DecidableEq

/-- The struct `SearchServer::Query`. -/
structure Query where
  plus_words : List Word
  minus_words : List Word
  deriving DecidableEq

/-- The execution policies `std::execution::seq` and `std::execution::par`, which select the
overload of a member function. -/
inductive ExecutionPolicy where
  | seq
  | par
  deriving DecidableEq

/-- A document predicate `(document_id, status, rating) → bool`. -/
abbrev DocumentPredicate := Int → DocumentStatus → Int → Bool

/-- The constant `MAX_RESULT_DOCUMENT_COUNT`. -/
def MAX_RESULT_DOCUMENT_COUNT : Nat := 5

/-- The constant `MAX_REL_INNACURACY`, `1e-6`. -/
def MAX_REL_INNACURACY {K : Type} [LinearOrderedField K] : K := 1 / 1000000

/-- The data members of `class SearchServer`. -/
structure SearchServer (K : Type) where
  stop_words_ : OSet Word
  word_to_document_freqs_ : OMap Word (OMap Int K)
  document_to_word_freqs_ : OMap Int (OMap Word K)
  documents_ : OMap Int DocumentData
  document_ids_ : OSet Int
  deriving DecidableEq

/-- The member `at(k)` of `std::map`: throws `std::out_of_range` on an absent key. -/
def OMap.at {K V : Type} [DecidableEq K] (m : OMap K V) (k : K) : Except Exception V :=
  match m.find? k with
  | some v => .ok v
  | none => .error .out_of_range

namespace SearchServer

variable {K : Type} [LinearOrderedField K]

/-- The static member `IsValidWord`: no character with code 0..31. -/
def IsValidWord (word : Word) : Bool :=
  !(word.any (fun c => decide (0 ≤ c.toNat) && decide (c.toNat < ' '.toNat)))

/-- The constructor from a container of stop words. -/
def ofContainer (stop_words : List Word) : Except Exception (SearchServer K) :=
  let stop_words_ := MakeUniqueNonEmptyStrings stop_words
  if !(stop_words_.all IsValidWord) then
    .error (.invalid_argument "Not Valid Words at Constructor".toList)
  else
    .ok { stop_words_ := stop_words_, word_to_document_freqs_ := [],
          document_to_word_freqs_ := [], documents_ := [], document_ids_ := [] }

/-- The constructor from a stop-word text. -/
def ofText (stop_words_text : List Char) : Except Exception (SearchServer K) :=
  ofContainer (SplitIntoWords stop_words_text)

/-- The member `IsStopWord`. -/
def IsStopWord (s : SearchServer K) (word : Word) : Bool :=
  decide (OSet.count s.stop_words_ word > 0)

/-- The loop of `SplitIntoWordsNoStop` over the tokens: throws on the first invalid word,
otherwise appends the word when it is no stop word. -/
def SplitIntoWordsNoStop.loop (s : SearchServer K) :
    List Word → List Word → Except Exception (List Word)
  | [], words => .ok words
  | word :: rest, words =>
    if !IsValidWord word then
      .error (.invalid_argument ("Word ".toList ++ word ++ " is invalid".toList))
    else if !s.IsStopWord word then SplitIntoWordsNoStop.loop s rest (words ++ [word])
    else SplitIntoWordsNoStop.loop s rest words

/-- The member `SplitIntoWordsNoStop`. -/
def SplitIntoWordsNoStop (s : SearchServer K) (text : List Char) : Except Exception (List Word) :=
  SplitIntoWordsNoStop.loop s (SplitIntoWords text) []

/-- The value that a 32-bit `int` holds after an operation whose exact result is `x`: `x`
reduced modulo `2^32` into the range `-2^31 .. 2^31 - 1`. -/
def int_wrap (x : Int) : Int :=
  (x + 2147483648) % 4294967296 - 2147483648

/-- The static member `ComputeAverageRating`: `std::accumulate` adds the ratings into an
`int` that starts at 0, and the sum is divided by `static_cast<int>(ratings.size())` with the
truncating division of C++ `int`. A partial sum outside the range of `int` is undefined
behaviour in C++; the compiled program wraps at 32 bits, and so does the model. -/
def ComputeAverageRating (ratings : List Int) : Int :=
  if ratings.isEmpty then 0
  else
    let rating_sum := ratings.foldl (fun acc r => int_wrap (acc + r)) 0
    int_wrap (Int.tdiv rating_sum (int_wrap (ratings.length : Int)))

/-- The body of the loop of `AddDocument` for one word: both maps get `inv_word_count` added
under the pair of `document_id` and `word`. -/
def AddDocument.step (document_id : Int) (inv_word_count : K) (s : SearchServer K) (word : Word) :
    SearchServer K :=
  let s1 := { s with
    document_to_word_freqs_ :=
      s.document_to_word_freqs_.upsert document_id []
        (fun freqs => freqs.upsert word 0 (fun x => x + inv_word_count)) }
  { s1 with
    word_to_document_freqs_ :=
      s1.word_to_document_freqs_.upsert word []
        (fun freqs => freqs.upsert document_id 0 (fun x => x + inv_word_count)) }

/-- The member `documents_.emplace(k, v)`: no effect when the key is present. -/
def emplace (m : OMap Int DocumentData) (k : Int) (v : DocumentData) : OMap Int DocumentData :=
  if m.count k > 0 then m else m.insert k v

/-- The member `AddDocument`: the outcome and the state after the call. -/
def AddDocument (s : SearchServer K) (document_id : Int) (document : List Char)
    (status : DocumentStatus) (ratings : List Int) : Except Exception Unit × SearchServer K :=
  if document_id < 0 ∨ OSet.count s.document_ids_ document_id > 0 then
    (.error (.invalid_argument "Invalid document_id".toList), s)
  else
    match s.SplitIntoWordsNoStop document with
    | .error e => (.error e, s)
    | .ok words =>
      let inv_word_count : K := 1 / (words.length : K)
      let s1 := words.foldl (AddDocument.step document_id inv_word_count) s
      let s2 := { s1 with
        documents_ := emplace s1.documents_ document_id ⟨ComputeAverageRating ratings, status⟩ }
      (.ok (), { s2 with document_ids_ := OSet.insert document_id s2.document_ids_ })

/-- The member `GetDocumentCount`. -/
def GetDocumentCount (s : SearchServer K) : Int :=
  (s.documents_.size : Int)

/-- The iteration `begin()`..`end()` over the server: the live id set in its order. -/
def ids (s : SearchServer K) : List Int :=
  s.document_ids_

/-- The member `GetWordFrequencies`: the static empty map for an id without an entry in
`document_to_word_freqs_`, and otherwise that entry. The source returns the entry, a
`map<string, double>`, through a cast to `const map<string_view, double>&`; the model gives
the entry that the returned reference aliases, which is what a caller reads only when the
result is the empty map. -/
def GetWordFrequencies (s : SearchServer K) (document_id : Int) : OMap Word K :=
  if s.document_to_word_freqs_.count document_id = 0 then []
  else (s.document_to_word_freqs_.find? document_id).getD []

/-- The statement `word_to_document_freqs_[word].erase(document_id)` of both removals, with
the lookup of `word` among the keys by value. -/
def RemoveDocument.step (document_id : Int) (s : SearchServer K) (word : Word) : SearchServer K :=
  { s with
    word_to_document_freqs_ :=
      s.word_to_document_freqs_.upsert word [] (fun freqs => freqs.erase document_id) }

/-- The overload `RemoveDocument(std::execution::sequenced_policy, document_id)`. The erase
of the forward entry destroys the strings of the document; index keys that are views of
these strings stay in the index and are kept here by value. -/
def RemoveDocument_seq (s : SearchServer K) (document_id : Int) :
    Except Exception Unit × SearchServer K :=
  if s.documents_.count document_id = 0 then (.ok (), s)
  else
    let s1 := { s with documents_ := s.documents_.erase document_id }
    match s1.document_to_word_freqs_.at document_id with
    | .error e => (.error e, s1)
    | .ok word_freq =>
      let s2 := word_freq.foldl (fun st p => RemoveDocument.step document_id st p.1) s1
      let s3 := { s2 with
        document_to_word_freqs_ := s2.document_to_word_freqs_.erase document_id }
      (.ok (), { s3 with document_ids_ := OSet.erase document_id s3.document_ids_ })

/-- The overload `RemoveDocument(std::execution::parallel_policy, document_id)`, with the
`for_each` over the words in their order; index keys are kept by value as in the sequential
overload. -/
def RemoveDocument_par (s : SearchServer K) (document_id : Int) :
    Except Exception Unit × SearchServer K :=
  if OSet.count s.document_ids_ document_id = 0 then
    (.error (.invalid_argument "invalid document id".toList), s)
  else
    let s1 := { s with documents_ := s.documents_.erase document_id }
    match s1.document_to_word_freqs_.at document_id with
    | .error e => (.error e, s1)
    | .ok word_freq =>
      let temp := word_freq.map (fun p => p.1)
      let s2 := temp.foldl (RemoveDocument.step document_id) s1
      let s3 := { s2 with
        document_to_word_freqs_ := s2.document_to_word_freqs_.erase document_id }
      (.ok (), { s3 with document_ids_ := OSet.erase document_id s3.document_ids_ })

/-- The member `RemoveDocument`, by execution policy; the overload without a policy is the
sequential one. -/
def RemoveDocument (policy : ExecutionPolicy) (s : SearchServer K) (document_id : Int) :
    Except Exception Unit × SearchServer K :=
  match policy with
  | .seq => s.RemoveDocument_seq document_id
  | .par => s.RemoveDocument_par document_id

end SearchServer

/-! ## The sharded accumulator (`concurrent_map.h`) -/

/-- The class template `ConcurrentMap<int, V>`: one ordered map per bucket (the mutexes are
not represented). -/
structure ConcurrentMap (V : Type) where
  maps_ : List (OMap Int V)

namespace ConcurrentMap

variable {V : Type}

/-- The constructor `ConcurrentMap(bucket_count)`. -/
def ofBucketCount (bucket_count : Nat) : ConcurrentMap V :=
  ⟨List.replicate bucket_count []⟩

/-- The bucket of a key: `(uint64_t)key % maps_.size()`. -/
def index (m : ConcurrentMap V) (key : Int) : Nat :=
  (key % 2 ^ 64).toNat % m.maps_.length

/-- The access `operator[](key)` followed by an update `f` of the slot through `ref_to_value`:
the slot is value-initialised with `init` when the bucket has no such key. -/
def modify (m : ConcurrentMap V) (key : Int) (init : V) (f : V → V) : ConcurrentMap V :=
  let index := m.index key
  ⟨m.maps_.set index ((m.maps_.getD index []).upsert key init f)⟩

/-- The member `erase(key)`. -/
def erase (m : ConcurrentMap V) (key : Int) : ConcurrentMap V :=
  let index := m.index key
  ⟨m.maps_.set index ((m.maps_.getD index []).erase key)⟩

/-- The member `BuildOrdinaryMap`: every bucket in turn is copied into one `std::map`. -/
def BuildOrdinaryMap (m : ConcurrentMap V) : OMap Int V :=
  m.maps_.foldl (fun answer bucket =>
    bucket.foldl (fun answer p => OMap.insert p.1 p.2 answer) answer) []

/-- The bucket discipline, from bucket number `off` on: every bucket has ascending keys and
holds only keys that `f` sends to its number. -/
def Disciplined (f : Int → Nat) : Nat → List (OMap Int V) → Prop
  | _, [] => True
  | off, b :: rest =>
    OMap.Sorted b ∧ (∀ k ∈ b.map Prod.fst, f k = off) ∧ Disciplined f (off + 1) rest

/-- A well-formed `ConcurrentMap` of `n` buckets: `n` is positive and every key sits in the
bucket `(uint64_t)key % n`. -/
def Good (n : Nat) (m : ConcurrentMap V) : Prop :=
  m.maps_.length = n ∧ 0 < n ∧ Disciplined (fun k => (k % 2 ^ 64).toNat % n) 0 m.maps_

end ConcurrentMap

/-! ## Queries and ranking -/

namespace SearchServer

variable {K : Type} [LinearOrderedField K]

/-- The member `ParseQueryWord`. -/
def ParseQueryWord (s : SearchServer K) (text : Word) : Except Exception QueryWord :=
  if text.isEmpty then
    .error (.invalid_argument "Query word is empty".toList)
  else
    let is_minus := decide (text.head? = some '-')
    let text := if is_minus then text.drop 1 else text
    if text.isEmpty || decide (text.head? = some '-') || !IsValidWord text then
      .error (.invalid_argument ("Query word ".toList ++ text ++ " is invalid".toList))
    else
      .ok ⟨text, is_minus, s.IsStopWord text⟩

/-- The loop shared by both overloads of `ParseQuery`: every token is parsed (the first
malformed one throws) and pushed to the back of its list unless it is a stop word. -/
def ParseQuery.loop (s : SearchServer K) : List Word → Query → Except Exception Query
  | [], result => .ok result
  | word :: rest, result =>
    match s.ParseQueryWord word with
    | .error e => .error e
    | .ok query_word =>
      if !query_word.is_stop then
        if query_word.is_minus then
          ParseQuery.loop s rest { result with minus_words := result.minus_words ++ [query_word.data] }
        else
          ParseQuery.loop s rest { result with plus_words := result.plus_words ++ [query_word.data] }
      else ParseQuery.loop s rest result

/-- The comparison `operator<` of two strings, as the comparator of `std::sort`. -/
def word_less (a b : Word) : Bool := decide (a < b)

/-- The overload `ParseQuery(std::execution::sequenced_policy, text)`: both lists are sorted and
made unique. -/
def ParseQuery_seq (s : SearchServer K) (text : List Char) : Except Exception Query :=
  match ParseQuery.loop s (SplitIntoWords text) ⟨[], []⟩ with
  | .error e => .error e
  | .ok result =>
    .ok { plus_words := std_unique (std_sort word_less result.plus_words),
          minus_words := std_unique (std_sort word_less result.minus_words) }

/-- The overload `ParseQuery(std::execution::parallel_policy, text)`: the lists stay as pushed. -/
def ParseQuery_par (s : SearchServer K) (text : List Char) : Except Exception Query :=
  ParseQuery.loop s (SplitIntoWords text) ⟨[], []⟩

/-- The member `ParseQuery`, by execution policy. -/
def ParseQuery (policy : ExecutionPolicy) (s : SearchServer K) (text : List Char) :
    Except Exception Query :=
  match policy with
  | .seq => s.ParseQuery_seq text
  | .par => s.ParseQuery_par text

/-- The member `ComputeWordInverseDocumentFreq`. -/
def ComputeWordInverseDocumentFreq (ln : K → K) (s : SearchServer K) (word : Word) :
    Except Exception K :=
  match s.word_to_document_freqs_.at word with
  | .error e => .error e
  | .ok freqs => .ok (ln ((s.GetDocumentCount : K) * 1 / (freqs.size : K)))

/-- The body of the loop over the postings of a plus word in `FindAllDocuments`: the metadata
lookup `documents_.at` may throw; a document that satisfies the predicate gets
`term_freq * inverse_document_freq` added by `add`. -/
def FindAllDocuments.plus_posting {M : Type} (s : SearchServer K)
    (document_predicate : DocumentPredicate) (inverse_document_freq : K) (add : M → Int → K → M)
    (rel : M) (p : Int × K) : Except Exception M :=
  match s.documents_.at p.1 with
  | .error e => .error e
  | .ok document_data =>
    if document_predicate p.1 document_data.status document_data.rating then
      .ok (add rel p.1 (p.2 * inverse_document_freq))
    else .ok rel

/-- The body of the loop over the plus words in `FindAllDocuments`; the two overloads differ
only in the accumulator `M` and its `add`. -/
def FindAllDocuments.plus_word {M : Type} (ln : K → K) (s : SearchServer K)
    (document_predicate : DocumentPredicate) (add : M → Int → K → M) (rel : M) (word : Word) :
    Except Exception M :=
  if s.word_to_document_freqs_.count word = 0 then .ok rel
  else
    match s.ComputeWordInverseDocumentFreq ln word with
    | .error e => .error e
    | .ok inverse_document_freq =>
      match s.word_to_document_freqs_.at word with
      | .error e => .error e
      | .ok freqs =>
        freqs.foldlM
          (FindAllDocuments.plus_posting s document_predicate inverse_document_freq add) rel

/-- The body of the loop over the minus words in `FindAllDocuments`: every document of the
word's postings is erased from the accumulator. -/
def FindAllDocuments.minus_word {M : Type} (s : SearchServer K) (erase : M → Int → M)
    (rel : M) (word : Word) : Except Exception M :=
  if s.word_to_document_freqs_.count word = 0 then .ok rel
  else
    match s.word_to_document_freqs_.at word with
    | .error e => .error e
    | .ok freqs => .ok (freqs.foldl (fun rel p => erase rel p.1) rel)

/-- The body of the final loop of `FindAllDocuments`: the `push_back` of one `Document`, with
the rating from `documents_.at`. -/
def FindAllDocuments.collect_step (s : SearchServer K) (matched_documents : List (Document K))
    (p : Int × K) : Except Exception (List (Document K)) :=
  match s.documents_.at p.1 with
  | .error e => .error e
  | .ok document_data => .ok (matched_documents ++ [⟨p.1, p.2, document_data.rating⟩])

/-- The final loop of `FindAllDocuments`: one `Document` per entry of the relevance map. -/
def FindAllDocuments.collect (s : SearchServer K) (document_to_relevance : OMap Int K) :
    Except Exception (List (Document K)) :=
  document_to_relevance.foldlM (FindAllDocuments.collect_step s) []

/-- The overload `FindAllDocuments(std::execution::sequenced_policy, query, predicate)`. -/
def FindAllDocuments_seq (ln : K → K) (s : SearchServer K) (query : Query)
    (document_predicate : DocumentPredicate) : Except Exception (List (Document K)) :=
  let add := fun (rel : OMap Int K) (document_id : Int) (x : K) =>
    rel.upsert document_id 0 (fun v => v + x)
  let erase := fun (rel : OMap Int K) (document_id : Int) => OMap.erase document_id rel
  match query.plus_words.foldlM (FindAllDocuments.plus_word ln s document_predicate add) [] with
  | .error e => .error e
  | .ok rel1 =>
    match query.minus_words.foldlM (FindAllDocuments.minus_word s erase) rel1 with
    | .error e => .error e
    | .ok document_to_relevance => FindAllDocuments.collect s document_to_relevance

/-- The constant `BUCKET_COUNT` of the parallel `FindAllDocuments`. -/
def BUCKET_COUNT : Nat := 150

/-- The overload `FindAllDocuments(std::execution::parallel_policy, query, predicate)`: the
accumulator is a `ConcurrentMap`; an exception that leaves the body of a parallel `for_each`
ends the program. -/
def FindAllDocuments_par (ln : K → K) (s : SearchServer K) (query : Query)
    (document_predicate : DocumentPredicate) : Except Exception (List (Document K)) :=
  let add := fun (rel : ConcurrentMap K) (document_id : Int) (x : K) =>
    rel.modify document_id 0 (fun v => v + x)
  let erase := fun (rel : ConcurrentMap K) (document_id : Int) => rel.erase document_id
  match query.plus_words.foldlM (FindAllDocuments.plus_word ln s document_predicate add)
      (ConcurrentMap.ofBucketCount BUCKET_COUNT) with
  | .error _ => .error .terminate
  | .ok rel1 =>
    match query.minus_words.foldlM (FindAllDocuments.minus_word s erase) rel1 with
    | .error _ => .error .terminate
    | .ok document_to_relevance =>
      FindAllDocuments.collect s document_to_relevance.BuildOrdinaryMap

/-- The comparator of `FindTopDocuments`: relevances closer than `MAX_REL_INNACURACY` are
ordered by rating, others by relevance, both descending. -/
def FindTopDocuments.comp (lhs rhs : Document K) : Bool :=
  if |lhs.relevance - rhs.relevance| < MAX_REL_INNACURACY then decide (lhs.rating > rhs.rating)
  else decide (lhs.relevance > rhs.relevance)

/-- The final statements of `FindTopDocuments`: `resize` to `MAX_RESULT_DOCUMENT_COUNT` when
the vector is longer. -/
def FindTopDocuments.truncate (matched_documents : List (Document K)) : List (Document K) :=
  if matched_documents.length > MAX_RESULT_DOCUMENT_COUNT then
    matched_documents.take MAX_RESULT_DOCUMENT_COUNT
  else matched_documents

/-- The overload `FindTopDocuments(std::execution::sequenced_policy, raw_query, predicate)`. -/
def FindTopDocuments_seq (ln : K → K) (s : SearchServer K) (raw_query : List Char)
    (document_predicate : DocumentPredicate) : Except Exception (List (Document K)) :=
  match s.ParseQuery .seq raw_query with
  | .error e => .error e
  | .ok query =>
    match FindAllDocuments_seq ln s query document_predicate with
    | .error e => .error e
    | .ok matched_documents =>
      .ok (FindTopDocuments.truncate (std_sort FindTopDocuments.comp matched_documents))

/-- The overload `FindTopDocuments(std::execution::parallel_policy, raw_query, predicate)`: the
plus words are sorted and made unique here, the minus words are used as parsed. -/
def FindTopDocuments_par (ln : K → K) (s : SearchServer K) (raw_query : List Char)
    (document_predicate : DocumentPredicate) : Except Exception (List (Document K)) :=
  match s.ParseQuery .par raw_query with
  | .error e => .error e
  | .ok query =>
    let query := { query with plus_words := std_unique (std_sort word_less query.plus_words) }
    match FindAllDocuments_par ln s query document_predicate with
    | .error e => .error e
    | .ok matched_documents =>
      .ok (FindTopDocuments.truncate (std_sort FindTopDocuments.comp matched_documents))

/-- The member `FindTopDocuments(policy, raw_query, predicate)`, by execution policy; the
overload without a policy is the sequential one. -/
def FindTopDocuments (policy : ExecutionPolicy) (ln : K → K) (s : SearchServer K)
    (raw_query : List Char) (document_predicate : DocumentPredicate) :
    Except Exception (List (Document K)) :=
  match policy with
  | .seq => FindTopDocuments_seq ln s raw_query document_predicate
  | .par => FindTopDocuments_par ln s raw_query document_predicate

/-- The overload `FindTopDocuments(policy, raw_query, status)`: the predicate compares the
status of a document with `status`. -/
def FindTopDocuments_status (policy : ExecutionPolicy) (ln : K → K) (s : SearchServer K)
    (raw_query : List Char) (status : DocumentStatus) : Except Exception (List (Document K)) :=
  FindTopDocuments policy ln s raw_query
    (fun _document_id document_status _rating => decide (document_status = status))

/-- The overload `FindTopDocuments(policy, raw_query)`: status `ACTUAL`. -/
def FindTopDocuments_actual (policy : ExecutionPolicy) (ln : K → K) (s : SearchServer K)
    (raw_query : List Char) : Except Exception (List (Document K)) :=
  FindTopDocuments_status policy ln s raw_query DocumentStatus.ACTUAL

end SearchServer


/-! ## The two steps of `FindTopDocuments` -/

namespace SearchServer

variable {K : Type} [LinearOrderedField K]

/-- The query that `FindTopDocuments` hands to `FindAllDocuments`: the parsed query of the
policy, the parallel overload having sorted and made unique its plus words. -/
def FindTopDocuments.query (policy : ExecutionPolicy) (s : SearchServer K)
    (raw_query : List Char) : Except Exception Query :=
  match policy with
  | .seq => s.ParseQuery .seq raw_query
  | .par =>
    match s.ParseQuery .par raw_query with
    | .error e => .error e
    | .ok query =>
      .ok { query with plus_words := std_unique (std_sort word_less query.plus_words) }

/-- The member `FindAllDocuments`, by execution policy. -/
def FindAllDocuments (policy : ExecutionPolicy) (ln : K → K) (s : SearchServer K)
    (query : Query) (document_predicate : DocumentPredicate) :
    Except Exception (List (Document K)) :=
  match policy with
  | .seq => FindAllDocuments_seq ln s query document_predicate
  | .par => FindAllDocuments_par ln s query document_predicate

end SearchServer

/-! ## Observations and invariants of a store -/

namespace SearchServer

variable {K : Type}

/-- The frequency of term `t` in the forward map of document `d`, if `d` has the term. -/
def forward_freq (s : SearchServer K) (d : Int) (t : Word) : Option K :=
  OMap.get2 s.document_to_word_freqs_ d t

/-- The frequency of document `d` in the postings of term `t`, if the postings have it. -/
def posting_freq (s : SearchServer K) (t : Word) (d : Int) : Option K :=
  OMap.get2 s.word_to_document_freqs_ t d

/-- The part of the store invariant that speaks of the two indexes only: they hold the same
frequencies, and every map has ascending keys. -/
structure MapsInv (s : SearchServer K) : Prop where
  consistent : ∀ t d, s.forward_freq d t = s.posting_freq t d
  postings_sorted : ∀ t p, s.word_to_document_freqs_.find? t = some p → OMap.Sorted p
  forward_sorted : ∀ d m, s.document_to_word_freqs_.find? d = some m → OMap.Sorted m
  index_sorted : OMap.Sorted s.word_to_document_freqs_
  forward_index_sorted : OMap.Sorted s.document_to_word_freqs_

/-- The store invariant: the indexes agree, all containers are ascending, every document with
a forward entry has metadata, and every document with metadata is in the live id set. -/
structure Inv (s : SearchServer K) : Prop where
  maps : MapsInv s
  documents_sorted : OMap.Sorted s.documents_
  ids_sorted : s.document_ids_.Pairwise (fun a b => a < b)
  forward_has_data :
    ∀ d, (s.document_to_word_freqs_.find? d).isSome → (s.documents_.find? d).isSome
  data_is_live : ∀ d, (s.documents_.find? d).isSome → d ∈ s.document_ids_

/-- What the loop of `AddDocument` keeps: consistent ascending indexes, the other members of
the store, and forward entries only for old documents or the new one. -/
structure AddDocument.LoopInv (id : Int) (s0 s : SearchServer K) : Prop where
  maps : MapsInv s
  stop_words_eq : s.stop_words_ = s0.stop_words_
  documents_eq : s.documents_ = s0.documents_
  ids_eq : s.document_ids_ = s0.document_ids_
  forward_keys : ∀ d, (s.document_to_word_freqs_.find? d).isSome →
    (s0.document_to_word_freqs_.find? d).isSome ∨ d = id

end SearchServer

/-! ## The relevance of a document, term by term -/

namespace SearchServer

variable {K : Type}

/-- An accumulator of relevance slots: `look` reads the slot of a document, `add` and `erase`
act on the slots as a plain map does, and keep the accumulator well-formed (`G`). -/
structure Accumulator {M : Type} [LinearOrderedField K] (look : M → Int → Option K) (G : M → Prop)
    (add : M → Int → K → M) (erase : M → Int → M) : Prop where
  add_good : ∀ rel d x, G rel → G (add rel d x)
  look_add : ∀ rel d x d', G rel →
    look (add rel d x) d' = if d' = d then some ((look rel d).getD 0 + x) else look rel d'
  erase_good : ∀ rel d, G rel → G (erase rel d)
  look_erase : ∀ rel d d', G rel →
    look (erase rel d) d' = if d' = d then none else look rel d'

/-- The predicate on the stored status and rating of `d`; false for an id without metadata. -/
def satisfies (s : SearchServer K) (pred : DocumentPredicate) (d : Int) : Bool :=
  match s.documents_.find? d with
  | some data => pred d data.status data.rating
  | none => false

/-- The stored rating of `d`. -/
def rating_of (s : SearchServer K) (d : Int) : Option Int :=
  (s.documents_.find? d).map (fun data => data.rating)

/-- The search result made of an entry `(document_id, relevance)` of the relevance map and
the stored rating of the document. -/
def document_of (s : SearchServer K) (p : Int × K) : Document K :=
  ⟨p.1, p.2, (s.rating_of p.1).getD 0⟩

/-- The number of documents in the postings of `t`. -/
def document_freq (s : SearchServer K) (t : Word) : Nat :=
  ((s.word_to_document_freqs_.find? t).getD []).size

/-- The value of `ComputeWordInverseDocumentFreq` for a term of the index. -/
def idf [LinearOrderedField K] (ln : K → K) (s : SearchServer K) (t : Word) : K :=
  ln ((s.GetDocumentCount : K) * 1 / (s.document_freq t : K))

/-- What one plus word `w` does to the relevance slot `acc` of document `d`: when `d` is in the
postings of `w` and satisfies the predicate, the slot (zero when absent) grows by
`tf * idf`. -/
def score_step [LinearOrderedField K] (ln : K → K) (s : SearchServer K)
    (pred : DocumentPredicate) (d : Int) (acc : Option K) (w : Word) : Option K :=
  match s.posting_freq w d with
  | some tf => if s.satisfies pred d then some (acc.getD 0 + tf * s.idf ln w) else acc
  | none => acc

/-- The relevance slot of document `d` after all plus words and all minus words of `query`. -/
def score [LinearOrderedField K] (ln : K → K) (s : SearchServer K) (pred : DocumentPredicate)
    (query : Query) (d : Int) : Option K :=
  if query.minus_words.any (fun w => (s.posting_freq w d).isSome) then none
  else query.plus_words.foldl (score_step ln s pred d) none

/-- The relevance map in closed form: the live documents that have a score, in the order of
the live id set, each with its score. -/
def relevance_map [LinearOrderedField K] (ln : K → K) (s : SearchServer K)
    (pred : DocumentPredicate) (query : Query) : OMap Int K :=
  s.document_ids_.filterMap (fun d => (score ln s pred query d).map (fun r => (d, r)))

/-- The plus terms of a query text: the tokens that do not start with `-` and are no stop
words. -/
def plus_terms (s : SearchServer K) (raw_query : List Char) : List Word :=
  (SplitIntoWords raw_query).filter
    (fun w => !decide (w.head? = some '-') && !s.IsStopWord w)

/-- The minus terms of a query text: the tokens that start with `-`, without that character,
that are no stop words. -/
def minus_terms (s : SearchServer K) (raw_query : List Char) : List Word :=
  (((SplitIntoWords raw_query).filter (fun w => decide (w.head? = some '-'))).map
    (fun w => w.drop 1)).filter (fun w => !s.IsStopWord w)

/-- Document `d` contains term `t`: the term is a key of its word-frequency map. -/
def contains (s : SearchServer K) (d : Int) (t : Word) : Bool :=
  ((s.GetWordFrequencies d).find? t).isSome

/-- Document `d` matches the query text under the predicate: its metadata satisfies the
predicate, it contains a plus term and it contains no minus term. -/
def is_match (s : SearchServer K) (raw_query : List Char) (pred : DocumentPredicate)
    (d : Int) : Bool :=
  s.satisfies pred d && (s.plus_terms raw_query).any (fun t => s.contains d t) &&
    !(s.minus_terms raw_query).any (fun t => s.contains d t)

end SearchServer

/-! ## The reachable stores -/

/-- The stores a program can reach, as values: a server as constructed from stop words,
followed by any calls of `AddDocument` and of `RemoveDocument` under either policy, whether
they return normally or throw. The live id set, the metadata and the forward map of such a
store are those of the program; the inverted index is the one of the program as long as no
document with terms has been removed. -/
inductive Reachable {K : Type} [LinearOrderedField K] : SearchServer K → Prop where
  | init (stop_words : List Word) (s : SearchServer K)
      (h : SearchServer.ofContainer stop_words = .ok s) : Reachable s
  | add (s : SearchServer K) (document_id : Int) (document : List Char)
      (status : DocumentStatus) (ratings : List Int) (h : Reachable s) :
      Reachable (s.AddDocument document_id document status ratings).2
  | remove (policy : ExecutionPolicy) (s : SearchServer K) (document_id : Int)
      (h : Reachable s) : Reachable (SearchServer.RemoveDocument policy s document_id).2

/-! ## Sample servers -/

namespace Sample

/-- A server without stop words and without documents, over the rationals. -/
def empty : SearchServer ℚ :=
  { stop_words_ := [], word_to_document_freqs_ := [], document_to_word_freqs_ := [],
    documents_ := [], document_ids_ := [] }

/-- A stand-in for the logarithm on the rationals. -/
def ln (x : ℚ) : ℚ := x - 1

/-- The sample server after `AddDocument(7, "cat city", ACTUAL, {1})`. -/
def one : SearchServer ℚ :=
  (empty.AddDocument 7 "cat city".toList DocumentStatus.ACTUAL [1]).2

/-- The sample server `one` after `AddDocument(3, "cat dog dog", ACTUAL, {5, 4})`. -/
def two : SearchServer ℚ :=
  (one.AddDocument 3 "cat dog dog".toList DocumentStatus.ACTUAL [5, 4]).2

/-- Six documents that all contain "cat", with different frequencies and ratings. -/
def six : SearchServer ℚ :=
  let s1 := (empty.AddDocument 1 "cat".toList DocumentStatus.ACTUAL [3]).2
  let s2 := (s1.AddDocument 2 "cat dog".toList DocumentStatus.ACTUAL [9]).2
  let s3 := (s2.AddDocument 3 "cat dog emu".toList DocumentStatus.BANNED [2]).2
  let s4 := (s3.AddDocument 4 "cat cat dog".toList DocumentStatus.ACTUAL [4]).2
  let s5 := (s4.AddDocument 5 "dog cat".toList DocumentStatus.ACTUAL [7]).2
  (s5.AddDocument 6 "cat emu fox gnu".toList DocumentStatus.ACTUAL [1]).2

/-- The predicate that accepts every document. -/
def all : DocumentPredicate := fun _ _ _ => true

/-- The five results of the query "cat dog" on `six`. -/
def six_top : List (Document ℚ) :=
  [⟨2, 1 / 4, 9⟩, ⟨5, 1 / 4, 7⟩, ⟨4, 1 / 6, 4⟩, ⟨3, 1 / 6, 2⟩, ⟨1, 0, 3⟩]

end Sample

/-! ## Matching one document -/

namespace SearchServer

variable {K : Type} [LinearOrderedField K]

/-- The test of `MatchDocument` on one query word: the index has the word, and its postings
have the document (`word_to_document_freqs_.count(word) != 0 &&
word_to_document_freqs_.at(word).count(document_id)`). -/
def MatchDocument.hit (s : SearchServer K) (document_id : Int) (word : Word) : Bool :=
  if s.word_to_document_freqs_.count word = 0 then false
  else
    match s.word_to_document_freqs_.find? word with
    | some freqs => decide (freqs.count document_id ≠ 0)
    | none => false

/-- The overload `MatchDocument(raw_query, document_id)` (also the one of the sequenced
policy): a minus word that hits returns the empty list at once; otherwise the plus words that
hit are pushed and sorted. Either way the status comes from `documents_.at`. -/
def MatchDocument_seq (s : SearchServer K) (raw_query : List Char) (document_id : Int) :
    Except Exception (List Word × DocumentStatus) :=
  match s.ParseQuery .seq raw_query with
  | .error e => .error e
  | .ok query =>
    if query.minus_words.any (MatchDocument.hit s document_id) then
      match s.documents_.at document_id with
      | .error e => .error e
      | .ok document_data => .ok ([], document_data.status)
    else
      let matched_words := query.plus_words.filter (MatchDocument.hit s document_id)
      match s.documents_.at document_id with
      | .error e => .error e
      | .ok document_data => .ok (std_sort word_less matched_words, document_data.status)

/-- The overload `MatchDocument(std::execution::parallel_policy, raw_query, document_id)`:
`any_of` over the minus words, `copy_if` over the plus words, then `sort` and `unique`. -/
def MatchDocument_par (s : SearchServer K) (raw_query : List Char) (document_id : Int) :
    Except Exception (List Word × DocumentStatus) :=
  match s.ParseQuery .par raw_query with
  | .error e => .error e
  | .ok query =>
    if query.minus_words.any (MatchDocument.hit s document_id) then
      match s.documents_.at document_id with
      | .error e => .error e
      | .ok document_data => .ok ([], document_data.status)
    else
      let matched_words := query.plus_words.filter (MatchDocument.hit s document_id)
      match s.documents_.at document_id with
      | .error e => .error e
      | .ok document_data =>
        .ok (std_unique (std_sort word_less matched_words), document_data.status)

/-- The member `MatchDocument`, by execution policy. -/
def MatchDocument (policy : ExecutionPolicy) (s : SearchServer K) (raw_query : List Char)
    (document_id : Int) : Except Exception (List Word × DocumentStatus) :=
  match policy with
  | .seq => s.MatchDocument_seq raw_query document_id
  | .par => s.MatchDocument_par raw_query document_id

/-- The non-stop tokens of a document text, in their order. -/
def non_stop_tokens (s : SearchServer K) (text : List Char) : List Word :=
  (SplitIntoWords text).filter (fun w => !s.IsStopWord w)

/-- The word of a query token: the token without one leading `-`. -/
def query_word (token : Word) : Word :=
  if token.head? = some '-' then token.drop 1 else token

/-- A token on which query parsing fails: it is exactly `-`, or starts with `--`, or its word
has a character with code 0..31. -/
def malformed (token : Word) : Bool :=
  decide (token = ['-']) || decide (token.take 2 = ['-', '-']) ||
    (query_word token).any (fun c => decide (c.toNat < 32))

/-- The invariant of the forward map: the frequencies of every entry sum to one. -/
def FreqInv (s : SearchServer K) : Prop :=
  ∀ d m, s.document_to_word_freqs_.find? d = some m → (m.map Prod.snd).sum = 1

end SearchServer

namespace Sample

/-- A server with the stop words "in" and "the" and no documents. -/
def stop : SearchServer ℚ :=
  { stop_words_ := ["in".toList, "the".toList], word_to_document_freqs_ := [],
    document_to_word_freqs_ := [], documents_ := [], document_ids_ := [] }

/-- The server `stop` after `AddDocument(42, "in the", ACTUAL, {1})`: a live document without
terms. -/
def stop_only : SearchServer ℚ :=
  (stop.AddDocument 42 "in the".toList DocumentStatus.ACTUAL [1]).2

/-- The server `stop_only` after the call `RemoveDocument(42)`, which throws. -/
def after_remove : SearchServer ℚ :=
  (SearchServer.RemoveDocument .seq stop_only 42).2

/-- The server `stop` after `AddDocument(1, "cat in the city", ACTUAL, {1})` and
`AddDocument(2, "dog in the park", ACTUAL, {2})`. -/
def stop_two : SearchServer ℚ :=
  ((stop.AddDocument 1 "cat in the city".toList DocumentStatus.ACTUAL [1]).2.AddDocument 2
    "dog in the park".toList DocumentStatus.ACTUAL [2]).2

end Sample

/-! ## The tokenizer as the specification words it -/

/-- The maximal runs of non-space characters of a text, in their order: the text is cut at
every space, and the empty pieces are left out. -/
def maximal_runs (text : List Char) : List Word :=
  (text.splitOnP (fun c => c == ' ')).filter (fun w => !w.isEmpty)

/-! ## Sequences of operations on a `ConcurrentMap` -/

namespace ConcurrentMap

variable {V : Type}

/-- An operation on the accumulator: an access `operator[](key)` followed by an update of the
slot, or `erase(key)`. -/
inductive Op (V : Type) where
  | accumulate (key : Int) (update : V → V)
  | erase (key : Int)

/-- One operation on a `ConcurrentMap`; `init` is the value-initialised slot. -/
def apply (init : V) (m : ConcurrentMap V) : Op V → ConcurrentMap V
  | .accumulate key update => m.modify key init update
  | .erase key => m.erase key

/-- The same operation on a single `std::map`: `map[key]` followed by the update, or
`map.erase(key)`. -/
def Op.on_map (init : V) (m : OMap Int V) : Op V → OMap Int V
  | .accumulate key update => m.upsert key init update
  | .erase key => OMap.erase key m

end ConcurrentMap

/-! ## The request queue (`request_queue.h`, `request_queue.cpp`) -/

/-- The nested struct `RequestQueue::QueryResult`: `result` is true for a search that found
documents. -/
structure QueryResult where
  number : Int
  result : Bool
  deriving DecidableEq

/-- The class `RequestQueue`. Its reference `search_server_` is not stored: every call takes
the server in its state at the time of the call. -/
structure RequestQueue where
  requests_ : List QueryResult
  empty_results_ : Int
  deriving DecidableEq

namespace RequestQueue

variable {K : Type} [LinearOrderedField K]

/-- The constant `min_in_day_`. -/
def min_in_day_ : Nat := 1440

/-- The constructor `RequestQueue(search_server)`. -/
def ofServer : RequestQueue := ⟨[], 0⟩

/-- The statements of `AddFindRequest` that follow the search: below `min_in_day_` entries the
outcome is pushed; at `min_in_day_` entries the front is popped first and the counter of empty
results follows both the popped and the pushed entry. -/
def AddFindRequest.record (q : RequestQueue) (documents_empty : Bool) : RequestQueue :=
  if q.requests_.length < min_in_day_ then
    if documents_empty then
      { requests_ := q.requests_ ++ [⟨(q.requests_.length : Int) + 1, false⟩],
        empty_results_ := q.empty_results_ + 1 }
    else
      { requests_ := q.requests_ ++ [⟨(q.requests_.length : Int) + 1, true⟩],
        empty_results_ := q.empty_results_ }
  else
    match q.requests_ with
    | [] => q
    | front :: rest =>
      if documents_empty then
        if front.result = true then
          { requests_ := rest ++ [⟨(rest.length : Int) + 1, false⟩],
            empty_results_ := q.empty_results_ + 1 }
        else
          { requests_ := rest ++ [⟨(rest.length : Int) + 1, false⟩],
            empty_results_ := q.empty_results_ }
      else
        if front.result = true then
          { requests_ := rest ++ [⟨(rest.length : Int) + 1, true⟩],
            empty_results_ := q.empty_results_ }
        else
          { requests_ := rest ++ [⟨(rest.length : Int) + 1, true⟩],
            empty_results_ := q.empty_results_ - 1 }

/-- The template member `AddFindRequest(raw_query, document_predicate)`: the search of the
server (the overload without a policy) and then the bookkeeping; a search that throws leaves
the queue as it was. -/
def AddFindRequest (ln : K → K) (search_server_ : SearchServer K) (q : RequestQueue)
    (raw_query : List Char) (document_predicate : DocumentPredicate) :
    Except Exception (List (Document K)) × RequestQueue :=
  match SearchServer.FindTopDocuments .seq ln search_server_ raw_query document_predicate with
  | .error e => (.error e, q)
  | .ok documents => (.ok documents, AddFindRequest.record q documents.isEmpty)

/-- The overload `AddFindRequest(raw_query, status)`. -/
def AddFindRequest_status (ln : K → K) (search_server_ : SearchServer K) (q : RequestQueue)
    (raw_query : List Char) (status : DocumentStatus) :
    Except Exception (List (Document K)) × RequestQueue :=
  AddFindRequest ln search_server_ q raw_query
    (fun _document_id document_status _rating => decide (document_status = status))

/-- The overload `AddFindRequest(raw_query)`: status `ACTUAL`. -/
def AddFindRequest_actual (ln : K → K) (search_server_ : SearchServer K) (q : RequestQueue)
    (raw_query : List Char) : Except Exception (List (Document K)) × RequestQueue :=
  AddFindRequest_status ln search_server_ q raw_query DocumentStatus.ACTUAL

/-- The member `GetNoResultRequests`. -/
def GetNoResultRequests (q : RequestQueue) : Int :=
  q.empty_results_

/-- The queue after a sequence of calls of `AddFindRequest`, each given by the server at the
time of the call, the query text and the predicate. -/
def run (ln : K → K) (calls : List (SearchServer K × List Char × DocumentPredicate))
    (q : RequestQueue) : RequestQueue :=
  calls.foldl (fun q call => (AddFindRequest ln call.1 q call.2.1 call.2.2).2) q

/-- For the calls of a sequence that return, in their order: whether the result list was
empty. -/
def outcomes (ln : K → K) (calls : List (SearchServer K × List Char × DocumentPredicate)) :
    List Bool :=
  calls.filterMap (fun call =>
    match SearchServer.FindTopDocuments .seq ln call.1 call.2.1 call.2.2 with
    | .ok documents => some documents.isEmpty
    | .error _ => none)

/-- The most recent `min_in_day_` entries of a list of outcomes (all of them when there are
fewer). -/
def recent (log : List Bool) : List Bool :=
  log.drop (log.length - min_in_day_)

end RequestQueue

/-! ## Removal of duplicates (`remove_duplicates.cpp`) -/

namespace RemoveDuplicates

variable {K : Type} [LinearOrderedField K]

/-- The set of the words of a word-frequency map, built by `words.insert(word)`. -/
def words (word_freq : OMap Word K) : OSet Word :=
  word_freq.foldl (fun words p => OSet.insert p.1 words) []

/-- The body of the first loop of `RemoveDuplicates` for one document: its id is flagged when
its word set is a key of `complect_words`, and the word set is recorded otherwise. The map
`word_freq` is the copy of what `GetWordFrequencies` returns, as that member is modelled:
what the source reads for a document without terms. -/
def scan_step (search_server : SearchServer K)
    (acc : List Int × OMap (OSet Word) Int) (document_id : Int) :
    List Int × OMap (OSet Word) Int :=
  let word_freq := search_server.GetWordFrequencies document_id
  if acc.2.count (words word_freq) > 0 then (acc.1 ++ [document_id], acc.2)
  else (acc.1, acc.2.upsert (words word_freq) 0 (fun x => x + 1))

/-- The vector `id_to_delete` after the first loop over the ids of the server. -/
def id_to_delete (search_server : SearchServer K) : List Int :=
  (search_server.ids.foldl (scan_step search_server) ([], [])).1

/-- The second loop of `RemoveDuplicates`: `RemoveDocument(id)` and a line of output for each
flagged id; an exception of `RemoveDocument` ends the loop. `out` lists the ids printed. -/
def remove_loop : List Int → SearchServer K → List Int →
    Except Exception Unit × SearchServer K × List Int
  | [], search_server, out => (.ok (), search_server, out)
  | id :: rest, search_server, out =>
    match SearchServer.RemoveDocument .seq search_server id with
    | (.error e, s1) => (.error e, s1, out)
    | (.ok (), s1) => remove_loop rest s1 (out ++ [id])

end RemoveDuplicates

/-- The function `RemoveDuplicates(search_server)`: the outcome, the server afterwards and the
ids printed as duplicates. -/
def RemoveDuplicates {K : Type} [LinearOrderedField K] (search_server : SearchServer K) :
    Except Exception Unit × SearchServer K × List Int :=
  RemoveDuplicates.remove_loop (RemoveDuplicates.id_to_delete search_server) search_server []

namespace Sample

/-- The server `stop` after `AddDocument(1, "in the", ACTUAL, {1})` and
`AddDocument(2, "the in", ACTUAL, {2})`: two live documents without terms. -/
def stop_pair : SearchServer ℚ :=
  ((stop.AddDocument 1 "in the".toList DocumentStatus.ACTUAL [1]).2.AddDocument 2
    "the in".toList DocumentStatus.ACTUAL [2]).2

end Sample

namespace Sample

/-- The sample server `one` after `RemoveDocument(7)`: no documents, and the index keeps the
keys "cat" and "city" with empty postings. -/
def one_removed : SearchServer ℚ :=
  (SearchServer.RemoveDocument .seq one 7).2

/-- The sample server `two` after `RemoveDocument(3)`: document 7 is left, and the index keeps
the key "dog" with empty postings. -/
def two_removed : SearchServer ℚ :=
  (SearchServer.RemoveDocument .seq two 3).2

end Sample

/-! ## Sequences of calls of `AddDocument` -/

/-- The arguments of one call of `AddDocument`. -/
structure AddDocumentCall where
  document_id : Int
  document : List Char
  status : DocumentStatus
  ratings : List Int

namespace SearchServer

variable {K : Type} [LinearOrderedField K]

/-- The store after a sequence of calls of `AddDocument`, each on the store that the call
before it left; a call that throws leaves the store as it was. -/
def AddDocuments (s : SearchServer K) (calls : List AddDocumentCall) : SearchServer K :=
  calls.foldl (fun st call =>
    (st.AddDocument call.document_id call.document call.status call.ratings).2) s

/-- Document `d` has one of the `words`: one of them is a key of its entry in the forward map
`document_to_word_freqs_`. -/
def has_word_of (s : SearchServer K) (words : List Word) (d : Int) : Bool :=
  words.any (fun t => (s.forward_freq d t).isSome)

end SearchServer

namespace Sample

/-- A server with the one stop word "-x" and no documents. -/
def dash : SearchServer ℚ :=
  { stop_words_ := ["-x".toList], word_to_document_freqs_ := [],
    document_to_word_freqs_ := [], documents_ := [], document_ids_ := [] }

/-- A server with the one stop word "-" and no documents. -/
def hyphen : SearchServer ℚ :=
  { stop_words_ := ["-".toList], word_to_document_freqs_ := [],
    document_to_word_freqs_ := [], documents_ := [], document_ids_ := [] }

/-- The call `AddDocument(1, "cat - dog", ACTUAL, {1})`. -/
def hyphen_calls : List AddDocumentCall :=
  [⟨1, "cat - dog".toList, DocumentStatus.ACTUAL, [1]⟩]

/-- The call `AddDocument(1, "-x y", ACTUAL, {1})`. -/
def dash_calls : List AddDocumentCall :=
  [⟨1, "-x y".toList, DocumentStatus.ACTUAL, [1]⟩]

/-- The six calls of `AddDocument` that build the sample server `six`. -/
def six_calls : List AddDocumentCall :=
  [⟨1, "cat".toList, DocumentStatus.ACTUAL, [3]⟩,
   ⟨2, "cat dog".toList, DocumentStatus.ACTUAL, [9]⟩,
   ⟨3, "cat dog emu".toList, DocumentStatus.BANNED, [2]⟩,
   ⟨4, "cat cat dog".toList, DocumentStatus.ACTUAL, [4]⟩,
   ⟨5, "dog cat".toList, DocumentStatus.ACTUAL, [7]⟩,
   ⟨6, "cat emu fox gnu".toList, DocumentStatus.ACTUAL, [1]⟩]

/-- The call `AddDocument(42, "cat in the city", ACTUAL, {1, 2, 3})`. -/
def city_calls : List AddDocumentCall :=
  [⟨42, "cat in the city".toList, DocumentStatus.ACTUAL, [1, 2, 3]⟩]

end Sample

/-! ## Ordered maps: lookup after an update -/

namespace OMap

variable {K V : Type}

/-- Lookup after `insert`. -/
theorem find?_insert [DecidableEq K] [LinearOrder K] (m : OMap K V) (k k' : K) (v : V) :
    (insert k v m).find? k' = if k' = k then some v else m.find? k' := by
  induction m with
  | nil => simp [insert, find?]
  | cons p t ih =>
    obtain ⟨k₀, v₀⟩ := p
    unfold insert
    by_cases h1 : k < k₀
    · simp [h1, find?]
    · by_cases h2 : k = k₀
      · subst h2
        simp only [find?, lt_self_iff_false, if_false, if_true]
        by_cases h3 : k' = k <;> simp [h3]
      · simp only [h1, h2, if_false, find?, ih]
        by_cases h3 : k' = k₀
        · have : k' ≠ k := fun h => h2 (h ▸ h3)
          simp [h3, h2, Ne.symm h2]
        · simp [h3]

/-- Lookup after `erase`. -/
theorem find?_erase [DecidableEq K] (m : OMap K V) (k k' : K) :
    (erase k m).find? k' = if k' = k then none else m.find? k' := by
  induction m with
  | nil => simp [erase, find?]
  | cons p t ih =>
    obtain ⟨k₀, v₀⟩ := p
    unfold erase at ih ⊢
    by_cases h : k₀ = k
    · subst h
      simp only [List.filter, ne_eq, not_true_eq_false, decide_False, ih, find?]
      by_cases h3 : k' = k₀ <;> simp [h3]
    · simp only [List.filter, ne_eq, h, not_false_eq_true, decide_True, find?, ih]
      by_cases h3 : k' = k₀
      · have : k' ≠ k := fun h' => h (h3 ▸ h')
        simp [h3, h]
      · simp [h3]

/-- Lookup after `upsert`. -/
theorem find?_upsert [DecidableEq K] [LinearOrder K] (m : OMap K V) (k k' : K) (init : V)
    (f : V → V) :
    (m.upsert k init f).find? k' =
      if k' = k then some (f ((m.find? k).getD init)) else m.find? k' := by
  unfold upsert
  exact find?_insert m k k' _

/-- Two-level lookup after `m[a][b]` has been updated by `f`. -/
theorem get2_upsert_upsert {A B : Type} [DecidableEq A] [LinearOrder A] [DecidableEq B]
    [LinearOrder B] (m : OMap A (OMap B V)) (a a' : A) (b b' : B) (init : V) (f : V → V) :
    get2 (m.upsert a [] (fun inner => inner.upsert b init f)) a' b' =
      if a' = a ∧ b' = b then some (f ((get2 m a b).getD init)) else get2 m a' b' := by
  unfold get2
  rw [find?_upsert]
  by_cases ha : a' = a
  · subst ha
    simp only [if_true, Option.some_bind, find?_upsert, true_and]
    cases hm : m.find? a' with
    | none => simp [find?]
    | some inner => simp
  · simp [ha]

/-- Two-level lookup after `m[a].erase(b)`. -/
theorem get2_upsert_erase {A B : Type} [DecidableEq A] [LinearOrder A] [DecidableEq B]
    (m : OMap A (OMap B V)) (a a' : A) (b b' : B) :
    get2 (m.upsert a [] (fun inner => inner.erase b)) a' b' =
      if a' = a ∧ b' = b then none else get2 m a' b' := by
  unfold get2
  rw [find?_upsert]
  by_cases ha : a' = a
  · subst ha
    simp only [if_true, Option.some_bind, find?_erase, true_and]
    cases hm : m.find? a' with
    | none => simp [find?, erase]
    | some inner => simp
  · simp [ha]

/-- Two-level lookup after the outer `erase`. -/
theorem get2_erase {A B : Type} [DecidableEq A] [DecidableEq B]
    (m : OMap A (OMap B V)) (a a' : A) (b' : B) :
    get2 (erase a m) a' b' = if a' = a then none else get2 m a' b' := by
  unfold get2
  rw [find?_erase]
  by_cases ha : a' = a <;> simp [ha]

/-! ## Ordered maps: ascending keys -/

/-- A key is present exactly when the lookup finds a value. -/
theorem find?_isSome_iff [DecidableEq K] (m : OMap K V) (k : K) :
    (m.find? k).isSome ↔ k ∈ m.map Prod.fst := by
  induction m with
  | nil => simp [find?]
  | cons p t ih =>
    obtain ⟨k₀, v₀⟩ := p
    by_cases h : k = k₀
    · simp [find?, h]
    · simp [find?, h, ih]

/-- A lookup that fails means the key is absent. -/
theorem find?_eq_none_iff [DecidableEq K] (m : OMap K V) (k : K) :
    m.find? k = none ↔ k ∉ m.map Prod.fst := by
  rw [← find?_isSome_iff]
  cases m.find? k <;> simp

/-- A value found is stored in the map. -/
theorem mem_of_find? [DecidableEq K] (m : OMap K V) (k : K) (v : V) (h : m.find? k = some v) :
    (k, v) ∈ m := by
  induction m with
  | nil => simp [find?] at h
  | cons p t ih =>
    obtain ⟨k₀, v₀⟩ := p
    by_cases hk : k = k₀
    · subst hk
      simp only [find?, if_true, Option.some.injEq] at h
      subst h
      exact List.mem_cons_self _ _
    · simp only [find?, hk, if_false] at h
      exact List.mem_cons_of_mem _ (ih h)

/-- In a map with distinct keys a stored pair is what the lookup finds. -/
theorem find?_of_mem [DecidableEq K] (m : OMap K V) (k : K) (v : V)
    (hnd : (m.map Prod.fst).Nodup) (h : (k, v) ∈ m) : m.find? k = some v := by
  induction m with
  | nil => cases h
  | cons p t ih =>
    obtain ⟨k₀, v₀⟩ := p
    simp only [List.map_cons, List.nodup_cons] at hnd
    rcases List.mem_cons.mp h with heq | hmem
    · cases heq
      simp [find?]
    · have hk : k ≠ k₀ := by
        rintro rfl
        exact hnd.1 (List.mem_map_of_mem Prod.fst hmem)
      simp only [find?, hk, if_false]
      exact ih hnd.2 hmem

/-- Ascending keys are distinct. -/
theorem Sorted.nodup [Preorder K] {m : OMap K V} (h : Sorted m) : (m.map Prod.fst).Nodup :=
  List.Pairwise.imp (fun hab => ne_of_lt hab) h

/-- The keys after `insert`. -/
theorem mem_keys_insert [DecidableEq K] [LinearOrder K] (m : OMap K V) (k k' : K) (v : V) :
    k' ∈ (insert k v m).map Prod.fst ↔ k' = k ∨ k' ∈ m.map Prod.fst := by
  induction m with
  | nil => simp [insert]
  | cons p t ih =>
    obtain ⟨k₀, v₀⟩ := p
    unfold insert
    by_cases h1 : k < k₀
    · simp [h1]
    · by_cases h2 : k = k₀
      · subst h2
        simp
      · simp only [h1, h2, if_false, List.map_cons, List.mem_cons, ih]
        tauto

/-- The member `insert` keeps the keys ascending. -/
theorem Sorted.insert [DecidableEq K] [LinearOrder K] {m : OMap K V} (h : Sorted m) (k : K) (v : V) :
    Sorted (insert k v m) := by
  induction m with
  | nil => simp [OMap.insert, Sorted]
  | cons p t ih =>
    obtain ⟨k₀, v₀⟩ := p
    unfold Sorted at h ih ⊢
    simp only [List.map_cons, List.pairwise_cons] at h
    unfold OMap.insert
    by_cases h1 : k < k₀
    · simp only [h1, if_true, List.map_cons, List.pairwise_cons]
      refine ⟨?_, h.1, h.2⟩
      intro a ha
      rcases List.mem_cons.mp ha with rfl | ha
      · exact h1
      · exact lt_trans h1 (h.1 a ha)
    · by_cases h2 : k = k₀
      · subst h2
        simp only [lt_self_iff_false, if_false, if_true, List.map_cons, List.pairwise_cons]
        exact h
      · simp only [h1, h2, if_false, List.map_cons, List.pairwise_cons]
        refine ⟨?_, ih h.2⟩
        intro a ha
        rcases (mem_keys_insert t k a v).mp ha with rfl | ha
        · exact lt_of_le_of_ne (not_lt.mp h1) (Ne.symm h2)
        · exact h.1 a ha

/-- The member `erase` keeps the keys ascending. -/
theorem Sorted.erase [DecidableEq K] [LT K] {m : OMap K V} (h : Sorted m) (k : K) :
    Sorted (erase k m) := by
  unfold Sorted OMap.erase at *
  exact List.Pairwise.sublist (List.Sublist.map _ (List.filter_sublist _)) h

/-- The update `upsert` keeps the keys ascending. -/
theorem Sorted.upsert [DecidableEq K] [LinearOrder K] {m : OMap K V} (h : Sorted m) (k : K)
    (init : V) (f : V → V) : Sorted (m.upsert k init f) :=
  Sorted.insert h k _

/-- The empty map is ascending. -/
theorem Sorted.nil [LT K] : Sorted ([] : OMap K V) := List.Pairwise.nil

/-- Two maps with ascending keys and the same lookups are equal. -/
theorem Sorted.ext [DecidableEq K] [LinearOrder K] {m₁ m₂ : OMap K V} (h₁ : Sorted m₁)
    (h₂ : Sorted m₂) (h : ∀ k, m₁.find? k = m₂.find? k) : m₁ = m₂ := by
  induction m₁ generalizing m₂ with
  | nil =>
    cases m₂ with
    | nil => rfl
    | cons p t =>
      have := h p.1
      simp [find?] at this
  | cons p t ih =>
    obtain ⟨k₁, v₁⟩ := p
    cases m₂ with
    | nil =>
      have := h k₁
      simp [find?] at this
    | cons q u =>
      obtain ⟨k₂, v₂⟩ := q
      unfold Sorted at h₁ h₂
      simp only [List.map_cons, List.pairwise_cons] at h₁ h₂
      have hk : k₁ = k₂ := by
        by_contra hne
        rcases lt_or_gt_of_ne hne with hlt | hgt
        · have h1 := h k₁
          simp only [find?, if_true, hne, if_false] at h1
          have hmem : k₁ ∈ u.map Prod.fst :=
            (find?_isSome_iff u k₁).mp (by rw [← h1]; rfl)
          exact absurd (h₂.1 k₁ hmem) (not_lt.mpr (le_of_lt hlt))
        · have h2 := h k₂
          simp only [find?, if_true, Ne.symm hne, if_false] at h2
          have hmem : k₂ ∈ t.map Prod.fst :=
            (find?_isSome_iff t k₂).mp (by rw [h2]; rfl)
          exact absurd (h₁.1 k₂ hmem) (not_lt.mpr (le_of_lt hgt))
      subst hk
      have hv : v₁ = v₂ := by
        have := h k₁
        simpa [find?] using this
      subst hv
      congr 1
      apply ih h₁.2 h₂.2
      intro k
      by_cases hkk : k = k₁
      · subst hkk
        have e1 : find? t k = none :=
          (find?_eq_none_iff t k).mpr (fun hm => absurd (h₁.1 k hm) (lt_irrefl _))
        have e2 : find? u k = none :=
          (find?_eq_none_iff u k).mpr (fun hm => absurd (h₂.1 k hm) (lt_irrefl _))
        rw [e1, e2]
      · have := h k
        simpa [find?, hkk] using this

end OMap
/-! ## Adding a document: failure modes -/

namespace SearchServer

variable {K : Type}

/-- A word is valid exactly when none of its characters has a code below 32. -/
theorem IsValidWord_eq_true_iff (word : Word) :
    IsValidWord word = true ↔ ∀ c ∈ word, ¬ c.toNat < 32 := by
  simp [IsValidWord, List.any_eq_true]

/-- The loop of `SplitIntoWordsNoStop` returns normally on valid tokens. -/
theorem SplitIntoWordsNoStop.loop_ok (s : SearchServer K) (tokens : List Word)
    (hvalid : ∀ w ∈ tokens, IsValidWord w = true) (acc : List Word) :
    ∃ words, SplitIntoWordsNoStop.loop s tokens acc = .ok words := by
  induction tokens generalizing acc with
  | nil => exact ⟨acc, rfl⟩
  | cons w rest ih =>
    have hw : IsValidWord w = true := hvalid w (List.mem_cons_self _ _)
    have hrest : ∀ w ∈ rest, IsValidWord w = true :=
      fun x hx => hvalid x (List.mem_cons_of_mem _ hx)
    unfold SplitIntoWordsNoStop.loop
    simp only [hw, Bool.not_true, Bool.false_eq_true, if_false]
    split
    · exact ih hrest _
    · exact ih hrest _

/-- The loop of `SplitIntoWordsNoStop` throws on the first invalid token. -/
theorem SplitIntoWordsNoStop.loop_error (s : SearchServer K) (tokens : List Word)
    (hinvalid : ∃ w ∈ tokens, IsValidWord w = false) (acc : List Word) :
    ∃ w ∈ tokens, IsValidWord w = false ∧
      SplitIntoWordsNoStop.loop s tokens acc =
        .error (.invalid_argument ("Word ".toList ++ w ++ " is invalid".toList)) := by
  induction tokens generalizing acc with
  | nil => obtain ⟨w, hw, _⟩ := hinvalid; cases hw
  | cons w rest ih =>
    unfold SplitIntoWordsNoStop.loop
    by_cases hw : IsValidWord w = true
    · have hrest : ∃ x ∈ rest, IsValidWord x = false := by
        obtain ⟨x, hx, hxv⟩ := hinvalid
        rcases List.mem_cons.mp hx with rfl | hx
        · rw [hw] at hxv; cases hxv
        · exact ⟨x, hx, hxv⟩
      simp only [hw, Bool.not_true, Bool.false_eq_true, if_false]
      split
      · obtain ⟨x, hx, hxv, he⟩ := ih hrest (acc ++ [w])
        exact ⟨x, List.mem_cons_of_mem _ hx, hxv, he⟩
      · obtain ⟨x, hx, hxv, he⟩ := ih hrest acc
        exact ⟨x, List.mem_cons_of_mem _ hx, hxv, he⟩
    · have hw' : IsValidWord w = false := by simpa using hw
      exact ⟨w, List.mem_cons_self _ _, hw', by simp [hw']⟩

/-- The set member `count` is positive exactly on the elements. -/
theorem OSet_count_pos_iff (ids : OSet Int) (k : Int) : OSet.count ids k > 0 ↔ k ∈ ids := by
  unfold OSet.count
  split <;> simp_all

end SearchServer

/-- Claim C9. `AddDocument` on a text whose tokens are all valid fails with the invalid-id
error exactly when the id is negative or already in the live id set, returns normally
otherwise, and a call that fails for that reason leaves the whole store as it was. -/
theorem C9_AddDocument_invalid_id {K : Type} [LinearOrderedField K] (s : SearchServer K)
    (document_id : Int) (document : List Char) (status : DocumentStatus) (ratings : List Int)
    (hvalid : ∀ w ∈ SplitIntoWords document, SearchServer.IsValidWord w = true) :
    ((s.AddDocument document_id document status ratings).1
        = .error (.invalid_argument "Invalid document_id".toList)
      ↔ (document_id < 0 ∨ document_id ∈ s.document_ids_)) ∧
    ((s.AddDocument document_id document status ratings).1 = .ok ()
      ↔ ¬ (document_id < 0 ∨ document_id ∈ s.document_ids_)) ∧
    ((document_id < 0 ∨ document_id ∈ s.document_ids_) →
      (s.AddDocument document_id document status ratings).2 = s) := by
  obtain ⟨words, hwords⟩ := SearchServer.SplitIntoWordsNoStop.loop_ok s _ hvalid []
  by_cases hid : document_id < 0 ∨ document_id ∈ s.document_ids_
  · have hid' : document_id < 0 ∨ OSet.count s.document_ids_ document_id > 0 := by
      rw [SearchServer.OSet_count_pos_iff]; exact hid
    simp [SearchServer.AddDocument, hid', hid]
  · have hid' : ¬ (document_id < 0 ∨ OSet.count s.document_ids_ document_id > 0) := by
      rw [SearchServer.OSet_count_pos_iff]; exact hid
    simp only [SearchServer.AddDocument, if_neg hid', SearchServer.SplitIntoWordsNoStop, hwords,
      hid]
    simp

/-- Witness of C9: the text "cat city" added a second time under the live id 7. -/
theorem C9_AddDocument_invalid_id_witness :
    (∀ w ∈ SplitIntoWords "cat city".toList, SearchServer.IsValidWord w = true) ∧
    (((Sample.one.AddDocument 7 "cat city".toList DocumentStatus.ACTUAL [1]).1
        = .error (.invalid_argument "Invalid document_id".toList)
      ↔ ((7 : Int) < 0 ∨ (7 : Int) ∈ Sample.one.document_ids_)) ∧
    ((Sample.one.AddDocument 7 "cat city".toList DocumentStatus.ACTUAL [1]).1 = .ok ()
      ↔ ¬ ((7 : Int) < 0 ∨ (7 : Int) ∈ Sample.one.document_ids_)) ∧
    (((7 : Int) < 0 ∨ (7 : Int) ∈ Sample.one.document_ids_) →
      (Sample.one.AddDocument 7 "cat city".toList DocumentStatus.ACTUAL [1]).2 = Sample.one)) :=
  ⟨by decide,
    C9_AddDocument_invalid_id Sample.one 7 "cat city".toList DocumentStatus.ACTUAL [1] (by decide)⟩

/-- Claim C10. `AddDocument` with a fresh non-negative id on a text one of whose tokens has a
control character (code 0..31) throws the invalid-word error of the first such token and leaves
the store, hence also every map, the live id set and the document count, as it was. -/
theorem C10_AddDocument_invalid_word_atomic {K : Type} [LinearOrderedField K]
    (s : SearchServer K) (document_id : Int) (document : List Char) (status : DocumentStatus)
    (ratings : List Int) (hid : 0 ≤ document_id) (hfresh : document_id ∉ s.document_ids_)
    (hbad : ∃ w ∈ SplitIntoWords document, ∃ c ∈ w, c.toNat < 32) :
    (∃ w ∈ SplitIntoWords document, (∃ c ∈ w, c.toNat < 32) ∧
      (s.AddDocument document_id document status ratings).1 =
        .error (.invalid_argument ("Word ".toList ++ w ++ " is invalid".toList))) ∧
    (s.AddDocument document_id document status ratings).2 = s ∧
    (s.AddDocument document_id document status ratings).2.word_to_document_freqs_
      = s.word_to_document_freqs_ ∧
    (s.AddDocument document_id document status ratings).2.document_to_word_freqs_
      = s.document_to_word_freqs_ ∧
    (s.AddDocument document_id document status ratings).2.documents_ = s.documents_ ∧
    (s.AddDocument document_id document status ratings).2.document_ids_ = s.document_ids_ ∧
    (s.AddDocument document_id document status ratings).2.GetDocumentCount
      = s.GetDocumentCount := by
  have hinvalid : ∃ w ∈ SplitIntoWords document, SearchServer.IsValidWord w = false := by
    obtain ⟨w, hw, c, hc, hlt⟩ := hbad
    refine ⟨w, hw, ?_⟩
    by_contra hne
    have hv : SearchServer.IsValidWord w = true := by simpa using hne
    exact (SearchServer.IsValidWord_eq_true_iff w).mp hv c hc hlt
  obtain ⟨w, hw, hwv, he⟩ := SearchServer.SplitIntoWordsNoStop.loop_error s _ hinvalid []
  have hid' : ¬ (document_id < 0 ∨ OSet.count s.document_ids_ document_id > 0) := by
    rw [SearchServer.OSet_count_pos_iff]
    rintro (h | h)
    · omega
    · exact hfresh h
  have hres : s.AddDocument document_id document status ratings =
      (.error (.invalid_argument ("Word ".toList ++ w ++ " is invalid".toList)), s) := by
    simp only [SearchServer.AddDocument, if_neg hid', SearchServer.SplitIntoWordsNoStop, he]
  have hwc : ∃ c ∈ w, c.toNat < 32 := by
    by_contra hno
    have : SearchServer.IsValidWord w = true :=
      (SearchServer.IsValidWord_eq_true_iff w).mpr (fun c hc hlt => hno ⟨c, hc, hlt⟩)
    rw [this] at hwv
    cases hwv
  rw [hres]
  exact ⟨⟨w, hw, hwc, rfl⟩, rfl, rfl, rfl, rfl, rfl, rfl⟩

/-- Witness of C10: the text "dog c\x01t" (a valid token before the invalid one) added to the
sample server under the fresh id 9. -/
theorem C10_AddDocument_invalid_word_atomic_witness :
    (0 : Int) ≤ 9 ∧ (9 : Int) ∉ Sample.one.document_ids_ ∧
    (∃ w ∈ SplitIntoWords ['d', 'o', 'g', ' ', 'c', Char.ofNat 1, 't'],
      ∃ c ∈ w, c.toNat < 32) ∧
    (Sample.one.AddDocument 9 ['d', 'o', 'g', ' ', 'c', Char.ofNat 1, 't']
      DocumentStatus.ACTUAL [1]).2 = Sample.one :=
  ⟨by decide, by decide, by decide,
    (C10_AddDocument_invalid_word_atomic Sample.one 9 ['d', 'o', 'g', ' ', 'c', Char.ofNat 1, 't']
      DocumentStatus.ACTUAL [1] (by decide) (by decide) (by decide)).2.1⟩

/-! ## The sorting model -/

namespace std_sort

variable {α : Type}

/-- Inserting keeps the elements. -/
theorem linear_insert_perm (comp : α → α → Bool) (val : α) (l : List α) :
    (linear_insert comp val l).Perm (val :: l) := by
  induction l with
  | nil => exact List.Perm.refl _
  | cons next rest ih =>
    unfold linear_insert
    split
    · exact (List.Perm.cons next ih).trans (List.Perm.swap val next rest)
    · exact List.Perm.refl _

/-- One round of the sort keeps the elements. -/
theorem insert_next_perm (comp : α → α → Bool) (sorted : List α) (val : α) :
    (insert_next comp sorted val).Perm (val :: sorted) := by
  unfold insert_next
  split
  · exact List.Perm.refl _
  · split
    · exact List.Perm.refl _
    · refine (List.reverse_perm _).trans ((linear_insert_perm comp val _).trans ?_)
      exact List.Perm.cons val (List.reverse_perm _)

/-- The rounds of the sort, started from a sorted prefix, keep the elements. -/
theorem foldl_perm (comp : α → α → Bool) (l acc : List α) :
    (l.foldl (insert_next comp) acc).Perm (acc ++ l) := by
  induction l generalizing acc with
  | nil => simp
  | cons a t ih =>
    simp only [List.foldl_cons]
    refine (ih _).trans ?_
    refine (List.Perm.append_right t (insert_next_perm comp acc a)).trans ?_
    simp only [List.cons_append]
    exact (List.perm_middle).symm

/-- The first element after an insertion is the new value or the old first element. -/
theorem head?_linear_insert (comp : α → α → Bool) (val : α) (l : List α) (y : α)
    (hy : y ∈ (linear_insert comp val l).head?) : y = val ∨ y ∈ l.head? := by
  cases l with
  | nil =>
    simp [linear_insert] at hy
    exact Or.inl hy.symm
  | cons next rest =>
    unfold linear_insert at hy
    split at hy
    · right; simpa using hy
    · left; simp at hy; exact hy.symm

/-- On the reversed prefix, an insertion keeps every element of the list not preceded (under
`comp`) by its right neighbour, provided `comp` never holds in both directions. -/
theorem linear_insert_chain (comp : α → α → Bool)
    (hasymm : ∀ a b, comp a b = true → comp b a = false) (val : α) (l : List α)
    (hl : List.Chain' (fun x y => comp x y = false) l) :
    List.Chain' (fun x y => comp x y = false) (linear_insert comp val l) := by
  induction l with
  | nil => simp [linear_insert]
  | cons next rest ih =>
    unfold linear_insert
    split
    · rename_i hc
      rw [List.chain'_cons'] at hl ⊢
      refine ⟨?_, ih hl.2⟩
      intro y hy
      rcases head?_linear_insert comp val rest y hy with rfl | hy'
      · exact hasymm _ _ hc
      · exact hl.1 y hy'
    · rename_i hc
      rw [List.chain'_cons']
      refine ⟨?_, hl⟩
      intro y hy
      simp only [List.head?_cons, Option.mem_def, Option.some.injEq] at hy
      subst hy
      simpa using hc

/-- One round of the sort keeps the prefix free of neighbours in the wrong order. -/
theorem insert_next_chain (comp : α → α → Bool)
    (hasymm : ∀ a b, comp a b = true → comp b a = false) (sorted : List α) (val : α)
    (hl : List.Chain' (fun a b => comp b a = false) sorted) :
    List.Chain' (fun a b => comp b a = false) (insert_next comp sorted val) := by
  unfold insert_next
  split
  · simp
  · rename_i first rest
    split
    · rename_i hc
      rw [List.chain'_cons']
      refine ⟨?_, hl⟩
      intro y hy
      simp only [List.head?_cons, Option.mem_def, Option.some.injEq] at hy
      subst hy
      exact hasymm _ _ hc
    · rw [List.chain'_reverse]
      show List.Chain' (fun x y => comp x y = false) _
      apply linear_insert_chain comp hasymm
      rw [List.chain'_reverse]
      exact hl

/-- The rounds of the sort keep the prefix free of neighbours in the wrong order. -/
theorem foldl_chain (comp : α → α → Bool)
    (hasymm : ∀ a b, comp a b = true → comp b a = false) (l acc : List α)
    (hacc : List.Chain' (fun a b => comp b a = false) acc) :
    List.Chain' (fun a b => comp b a = false) (l.foldl (insert_next comp) acc) := by
  induction l generalizing acc with
  | nil => exact hacc
  | cons a t ih => exact ih _ (insert_next_chain comp hasymm acc a hacc)

end std_sort

/-- The sorted list is a permutation of the input. -/
theorem std_sort_perm {α : Type} (comp : α → α → Bool) (l : List α) :
    (std_sort comp l).Perm l := by
  simpa [std_sort] using std_sort.foldl_perm comp l []

/-- When `comp` never holds in both directions, no element of the sorted list is preceded
(under `comp`) by its right neighbour. -/
theorem std_sort_chain {α : Type} (comp : α → α → Bool)
    (hasymm : ∀ a b, comp a b = true → comp b a = false) (l : List α) :
    List.Chain' (fun a b => comp b a = false) (std_sort comp l) :=
  std_sort.foldl_chain comp hasymm l [] List.chain'_nil

/-! ## The shape of `FindTopDocuments` -/

namespace SearchServer

variable {K : Type}

/-- The member `FindTopDocuments` returns a list exactly when the query parses and
`FindAllDocuments` returns; the list is then the sorted and truncated list of all matched
documents. -/
theorem FindTopDocuments_ok_iff [LinearOrderedField K] (policy : ExecutionPolicy) (ln : K → K) (s : SearchServer K)
    (raw_query : List Char) (pred : DocumentPredicate) (docs : List (Document K)) :
    FindTopDocuments policy ln s raw_query pred = .ok docs ↔
      ∃ query all, FindTopDocuments.query policy s raw_query = .ok query ∧
        FindAllDocuments policy ln s query pred = .ok all ∧
        docs = FindTopDocuments.truncate (std_sort FindTopDocuments.comp all) := by
  cases policy
  · simp only [FindTopDocuments, FindTopDocuments_seq, FindTopDocuments.query, FindAllDocuments]
    cases hq : s.ParseQuery .seq raw_query with
    | error e => simp
    | ok query =>
      cases hall : FindAllDocuments_seq ln s query pred with
      | error e => simp [hall]
      | ok all => simp [hall, eq_comm]
  · simp only [FindTopDocuments, FindTopDocuments_par, FindTopDocuments.query, FindAllDocuments]
    cases hq : s.ParseQuery .par raw_query with
    | error e => simp
    | ok query =>
      cases hall : FindAllDocuments_par ln s
          { query with plus_words := std_unique (std_sort word_less query.plus_words) } pred with
      | error e => simp [hall]
      | ok all => simp [hall, eq_comm]

/-- Truncation keeps the first `min 5 n` elements. -/
theorem FindTopDocuments.truncate_eq_take (l : List (Document K)) :
    FindTopDocuments.truncate l = l.take (min 5 l.length) := by
  unfold FindTopDocuments.truncate MAX_RESULT_DOCUMENT_COUNT
  split
  · rw [min_eq_left (by omega)]
  · rw [min_eq_right (by omega), List.take_length]

/-- The comparator never orders two documents both ways. -/
theorem FindTopDocuments.comp_asymm [LinearOrderedField K] (a b : Document K) (h : FindTopDocuments.comp a b = true) :
    FindTopDocuments.comp b a = false := by
  unfold FindTopDocuments.comp at h ⊢
  rw [abs_sub_comm b.relevance a.relevance]
  split at h
  · rename_i hclose
    simp only [if_pos hclose, decide_eq_true_eq, decide_eq_false_iff_not] at h ⊢
    omega
  · rename_i hfar
    simp only [if_neg hfar, decide_eq_true_eq, decide_eq_false_iff_not] at h ⊢
    exact not_lt.mpr (le_of_lt h)

/-- When the comparator does not put `b` before `a`, `a` has the greater relevance, or a
relevance within `1e-6` of that of `b` and a rating at least that of `b`. -/
theorem FindTopDocuments.order_of_comp [LinearOrderedField K] (a b : Document K)
    (hba : FindTopDocuments.comp b a = false) :
    a.relevance > b.relevance ∨
      (|a.relevance - b.relevance| < 1 / 1000000 ∧ a.rating ≥ b.rating) := by
  unfold FindTopDocuments.comp MAX_REL_INNACURACY at hba
  rw [abs_sub_comm b.relevance a.relevance] at hba
  split at hba
  · rename_i hclose
    right
    refine ⟨hclose, ?_⟩
    simp only [decide_eq_false_iff_not] at hba
    omega
  · rename_i hfar
    left
    simp only [decide_eq_false_iff_not, not_lt] at hba
    rcases lt_or_eq_of_le hba with hlt | heq
    · exact hlt
    · exfalso
      apply hfar
      rw [heq, sub_self, abs_zero]
      norm_num

end SearchServer

/-- Claim C3. In the list returned by `FindTopDocuments` (either policy), every result `a`
immediately followed by a result `b` has a greater relevance, or a relevance within `1e-6` of
that of `b` and a rating at least that of `b`. -/
theorem C3_FindTopDocuments_adjacent_order {K : Type} [LinearOrderedField K]
    (policy : ExecutionPolicy) (ln : K → K) (s : SearchServer K) (raw_query : List Char)
    (pred : DocumentPredicate) (docs : List (Document K))
    (h : SearchServer.FindTopDocuments policy ln s raw_query pred = .ok docs) :
    List.Chain' (fun a b => a.relevance > b.relevance ∨
      (|a.relevance - b.relevance| < 1 / 1000000 ∧ a.rating ≥ b.rating)) docs := by
  obtain ⟨query, all, -, -, rfl⟩ := (SearchServer.FindTopDocuments_ok_iff _ _ _ _ _ _).mp h
  rw [SearchServer.FindTopDocuments.truncate_eq_take]
  refine List.Chain'.take ?_ _
  refine List.Chain'.imp ?_
    (std_sort_chain SearchServer.FindTopDocuments.comp SearchServer.FindTopDocuments.comp_asymm all)
  intro a b hba
  unfold SearchServer.FindTopDocuments.comp MAX_REL_INNACURACY at hba
  rw [abs_sub_comm b.relevance a.relevance] at hba
  split at hba
  · rename_i hclose
    right
    refine ⟨hclose, ?_⟩
    simp only [decide_eq_false_iff_not] at hba
    omega
  · rename_i hfar
    left
    simp only [decide_eq_false_iff_not, not_lt] at hba
    rcases lt_or_eq_of_le hba with hlt | heq
    · exact hlt
    · exfalso
      apply hfar
      rw [heq, sub_self, abs_zero]
      norm_num

/-- Witness of C3: the query "cat dog" on the six sample documents, sequential policy. -/
theorem C3_FindTopDocuments_adjacent_order_witness :
    SearchServer.FindTopDocuments .seq Sample.ln Sample.six "cat dog".toList Sample.all
      = .ok Sample.six_top ∧
    List.Chain' (fun a b => a.relevance > b.relevance ∨
      (|a.relevance - b.relevance| < 1 / 1000000 ∧ a.rating ≥ b.rating)) Sample.six_top :=
  ⟨by decide!, C3_FindTopDocuments_adjacent_order .seq Sample.ln Sample.six "cat dog".toList
    Sample.all Sample.six_top (by decide!)⟩

/-- Claim C4. Under either policy `FindTopDocuments` returns at most 5 documents: when
`FindAllDocuments` matched the `n` documents `all`, the result is the first `min 5 n` elements
of a list `sorted` that holds exactly the matched documents (it is a permutation of `all`) in
sorted order (no element is followed by one that the comparator puts before it: the earlier
one has the greater relevance, or a relevance within `1e-6` and a rating at least as great). -/
theorem C4_FindTopDocuments_at_most_five {K : Type} [LinearOrderedField K]
    (policy : ExecutionPolicy) (ln : K → K) (s : SearchServer K) (raw_query : List Char)
    (pred : DocumentPredicate) (docs : List (Document K))
    (h : SearchServer.FindTopDocuments policy ln s raw_query pred = .ok docs) :
    docs.length ≤ 5 ∧
    ∃ query all sorted, SearchServer.FindTopDocuments.query policy s raw_query = .ok query ∧
      SearchServer.FindAllDocuments policy ln s query pred = .ok all ∧
      sorted.Perm all ∧
      List.Chain' (fun a b => SearchServer.FindTopDocuments.comp b a = false) sorted ∧
      List.Chain' (fun a b => a.relevance > b.relevance ∨
        (|a.relevance - b.relevance| < 1 / 1000000 ∧ a.rating ≥ b.rating)) sorted ∧
      docs = sorted.take (min 5 all.length) ∧
      docs.length = min 5 all.length := by
  obtain ⟨query, all, hq, hall, rfl⟩ := (SearchServer.FindTopDocuments_ok_iff _ _ _ _ _ _).mp h
  have hperm := std_sort_perm SearchServer.FindTopDocuments.comp all
  have hlen : (std_sort SearchServer.FindTopDocuments.comp all).length = all.length :=
    hperm.length_eq
  have hchain := std_sort_chain SearchServer.FindTopDocuments.comp
    SearchServer.FindTopDocuments.comp_asymm all
  refine ⟨?_, query, all, std_sort SearchServer.FindTopDocuments.comp all, hq, hall, hperm,
    hchain, ?_, ?_, ?_⟩
  · rw [SearchServer.FindTopDocuments.truncate_eq_take, List.length_take]
    omega
  · exact List.Chain'.imp (fun a b hba => SearchServer.FindTopDocuments.order_of_comp a b hba)
      hchain
  · rw [SearchServer.FindTopDocuments.truncate_eq_take, hlen]
  · rw [SearchServer.FindTopDocuments.truncate_eq_take, List.length_take, hlen]
    omega

/-- Witness of C4: the query "cat dog" matches all six sample documents and five are
returned, parallel policy. -/
theorem C4_FindTopDocuments_at_most_five_witness :
    SearchServer.FindTopDocuments .par Sample.ln Sample.six "cat dog".toList Sample.all
      = .ok Sample.six_top ∧
    (Sample.six_top.length ≤ 5 ∧
    ∃ query all sorted, SearchServer.FindTopDocuments.query .par Sample.six "cat dog".toList
        = .ok query ∧
      SearchServer.FindAllDocuments .par Sample.ln Sample.six query Sample.all = .ok all ∧
      sorted.Perm all ∧
      List.Chain' (fun a b => SearchServer.FindTopDocuments.comp b a = false) sorted ∧
      List.Chain' (fun a b => a.relevance > b.relevance ∨
        (|a.relevance - b.relevance| < 1 / 1000000 ∧ a.rating ≥ b.rating)) sorted ∧
      Sample.six_top = sorted.take (min 5 all.length) ∧
      Sample.six_top.length = min 5 all.length) :=
  ⟨by decide!, C4_FindTopDocuments_at_most_five .par Sample.ln Sample.six "cat dog".toList
    Sample.all Sample.six_top (by decide!)⟩

/-! ## Ordered sets -/

namespace OSet

variable {K : Type}

/-- The elements after `insert`. -/
theorem mem_insert [DecidableEq K] [LinearOrder K] (s : OSet K) (k x : K) :
    x ∈ insert k s ↔ x = k ∨ x ∈ s := by
  induction s with
  | nil => simp [insert]
  | cons a t ih =>
    unfold insert
    by_cases h1 : k < a
    · simp [h1]
    · by_cases h2 : k = a
      · subst h2
        simp
      · simp only [h1, h2, if_false, List.mem_cons, ih]
        tauto

/-- The member `insert` keeps the elements ascending. -/
theorem insert_sorted [DecidableEq K] [LinearOrder K] (s : OSet K) (k : K)
    (h : s.Pairwise (fun a b => a < b)) : (insert k s).Pairwise (fun a b => a < b) := by
  induction s with
  | nil => simp [insert]
  | cons a t ih =>
    simp only [List.pairwise_cons] at h
    unfold insert
    by_cases h1 : k < a
    · simp only [h1, if_true, List.pairwise_cons]
      refine ⟨?_, h.1, h.2⟩
      intro x hx
      rcases List.mem_cons.mp hx with rfl | hx
      · exact h1
      · exact lt_trans h1 (h.1 x hx)
    · by_cases h2 : k = a
      · subst h2
        simp only [lt_self_iff_false, if_false, if_true, List.pairwise_cons]
        exact h
      · simp only [h1, h2, if_false, List.pairwise_cons]
        refine ⟨?_, ih h.2⟩
        intro x hx
        rcases (mem_insert t k x).mp hx with rfl | hx
        · exact lt_of_le_of_ne (not_lt.mp h1) (Ne.symm h2)
        · exact h.1 x hx

/-- The elements after `erase`. -/
theorem mem_erase [DecidableEq K] (s : OSet K) (k x : K) : x ∈ erase k s ↔ x ≠ k ∧ x ∈ s := by
  unfold erase
  simp [List.mem_filter, and_comm]

/-- The member `erase` keeps the elements ascending. -/
theorem erase_sorted [DecidableEq K] [LT K] (s : OSet K) (k : K)
    (h : s.Pairwise (fun a b => a < b)) : (erase k s).Pairwise (fun a b => a < b) :=
  List.Pairwise.sublist (List.filter_sublist _) h

end OSet

/-! ## The store invariant holds in every reachable store -/

/-- A property kept by every round of a loop holds after the loop. -/
theorem foldl_preserves {σ α : Type} (P : σ → Prop) (f : σ → α → σ)
    (hstep : ∀ s a, P s → P (f s a)) (l : List α) (s : σ) (h : P s) : P (l.foldl f s) := by
  induction l generalizing s with
  | nil => exact h
  | cons a t ih => exact ih _ (hstep s a h)

namespace SearchServer

variable {K : Type}

/-- The forward frequency after one round of the loop of `AddDocument`. -/
theorem AddDocument.step_forward_freq_add [LinearOrderedField K] (id : Int) (inv : K)
    (s : SearchServer K) (word : Word) (d : Int) (t : Word) :
    (AddDocument.step id inv s word).forward_freq d t =
      if d = id ∧ t = word then some ((s.forward_freq id word).getD 0 + inv)
      else s.forward_freq d t := by
  simp only [AddDocument.step, forward_freq]
  exact OMap.get2_upsert_upsert _ _ _ _ _ _ _

/-- The posting frequency after one round of the loop of `AddDocument`. -/
theorem AddDocument.step_posting_freq_add [LinearOrderedField K] (id : Int) (inv : K)
    (s : SearchServer K) (word : Word) (d : Int) (t : Word) :
    (AddDocument.step id inv s word).posting_freq t d =
      if t = word ∧ d = id then some ((s.posting_freq word id).getD 0 + inv)
      else s.posting_freq t d := by
  simp only [AddDocument.step, posting_freq]
  exact OMap.get2_upsert_upsert _ _ _ _ _ _ _

/-- One round of the loop of `AddDocument` keeps the indexes consistent and ascending. -/
theorem AddDocument.step_maps [LinearOrderedField K] (id : Int) (inv : K) (s : SearchServer K)
    (word : Word) (h : MapsInv s) : MapsInv (AddDocument.step id inv s word) := by
  constructor
  · intro t d
    rw [AddDocument.step_forward_freq_add, AddDocument.step_posting_freq_add, h.consistent word id]
    by_cases hd : d = id <;> by_cases ht : t = word <;> simp [hd, ht, h.consistent]
  · intro t p hp
    simp only [AddDocument.step, OMap.find?_upsert] at hp
    split at hp
    · cases hp
      apply OMap.Sorted.upsert
      cases hf : s.word_to_document_freqs_.find? word with
      | none => exact OMap.Sorted.nil
      | some p0 => exact h.postings_sorted word p0 hf
    · exact h.postings_sorted t p hp
  · intro d m hm
    simp only [AddDocument.step, OMap.find?_upsert] at hm
    split at hm
    · cases hm
      apply OMap.Sorted.upsert
      cases hf : s.document_to_word_freqs_.find? id with
      | none => exact OMap.Sorted.nil
      | some m0 => exact h.forward_sorted id m0 hf
    · exact h.forward_sorted d m hm
  · exact OMap.Sorted.upsert h.index_sorted _ _ _
  · exact OMap.Sorted.upsert h.forward_index_sorted _ _ _

/-- The loop of `AddDocument` keeps its invariant. -/
theorem AddDocument.loop_inv [LinearOrderedField K] (id : Int) (inv : K) (s0 : SearchServer K)
    (words : List Word) (h : MapsInv s0) :
    AddDocument.LoopInv id s0 (words.foldl (AddDocument.step id inv) s0) := by
  apply foldl_preserves (AddDocument.LoopInv id s0)
  · intro s word hs
    refine ⟨AddDocument.step_maps id inv s word hs.maps, hs.stop_words_eq, hs.documents_eq,
      hs.ids_eq, ?_⟩
    intro d hd
    simp only [AddDocument.step, OMap.find?_upsert] at hd
    by_cases hid : d = id
    · exact Or.inr hid
    · rw [if_neg hid] at hd
      exact hs.forward_keys d hd
  · exact ⟨h, rfl, rfl, rfl, fun d hd => Or.inl hd⟩

/-- Lookup after `emplace`. -/
theorem find?_emplace_isSome (m : OMap Int DocumentData) (k k' : Int) (v : DocumentData) :
    ((emplace m k v).find? k').isSome ↔ k' = k ∨ (m.find? k').isSome := by
  unfold emplace OMap.count
  by_cases hk : (m.find? k).isSome
  · simp only [hk, if_true, gt_iff_lt, zero_lt_one]
    constructor
    · exact Or.inr
    · rintro (rfl | h)
      · exact hk
      · exact h
  · simp only [hk, Bool.false_eq_true, if_false, gt_iff_lt, lt_self_iff_false,
      OMap.find?_insert]
    by_cases hkk : k' = k <;> simp [hkk]

/-- The member `emplace` keeps the keys ascending. -/
theorem emplace_sorted (m : OMap Int DocumentData) (k : Int) (v : DocumentData)
    (h : OMap.Sorted m) : OMap.Sorted (emplace m k v) := by
  unfold emplace
  split
  · exact h
  · exact OMap.Sorted.insert h k v

/-- The member `AddDocument` keeps the store invariant, whether it returns or throws. -/
theorem AddDocument_inv [LinearOrderedField K] (s : SearchServer K) (id : Int)
    (document : List Char) (status : DocumentStatus) (ratings : List Int) (h : Inv s) :
    Inv (s.AddDocument id document status ratings).2 := by
  unfold AddDocument
  split
  · exact h
  · cases hw : s.SplitIntoWordsNoStop document with
    | error e => exact h
    | ok words =>
      simp only
      have hl := AddDocument.loop_inv id (1 / (words.length : K)) s words h.maps
      refine ⟨⟨hl.maps.consistent, hl.maps.postings_sorted, hl.maps.forward_sorted,
        hl.maps.index_sorted, hl.maps.forward_index_sorted⟩, ?_, ?_, ?_, ?_⟩
      · simp only [hl.documents_eq]
        exact emplace_sorted _ _ _ h.documents_sorted
      · simp only [hl.ids_eq]
        exact OSet.insert_sorted _ _ h.ids_sorted
      · intro d hd
        simp only [hl.documents_eq, find?_emplace_isSome]
        rcases hl.forward_keys d hd with h0 | rfl
        · exact Or.inr (h.forward_has_data d h0)
        · exact Or.inl rfl
      · intro d hd
        simp only [hl.documents_eq, find?_emplace_isSome] at hd
        simp only [hl.ids_eq, OSet.mem_insert]
        rcases hd with rfl | hd
        · exact Or.inl rfl
        · exact Or.inr (h.data_is_live d hd)

/-- The posting frequency after one statement `word_to_document_freqs_[word].erase(id)`. -/
theorem RemoveDocument.step_posting_freq_remove (id : Int) (s : SearchServer K) (word : Word)
    (t : Word) (d : Int) :
    (RemoveDocument.step id s word).posting_freq t d =
      if t = word ∧ d = id then none else s.posting_freq t d := by
  simp only [RemoveDocument.step, posting_freq]
  exact OMap.get2_upsert_erase _ _ _ _ _

/-- The loop of `RemoveDocument` over the words `ws`: only the postings change; the pairs of a
word of `ws` with the removed document disappear, and ascending keys stay ascending. -/
theorem RemoveDocument.loop_effect (id : Int) (ws : List Word) (s : SearchServer K) :
    (ws.foldl (RemoveDocument.step id) s).document_to_word_freqs_ = s.document_to_word_freqs_ ∧
    (ws.foldl (RemoveDocument.step id) s).documents_ = s.documents_ ∧
    (ws.foldl (RemoveDocument.step id) s).document_ids_ = s.document_ids_ ∧
    (ws.foldl (RemoveDocument.step id) s).stop_words_ = s.stop_words_ ∧
    (∀ t d, (ws.foldl (RemoveDocument.step id) s).posting_freq t d =
      if d = id ∧ t ∈ ws then none else s.posting_freq t d) ∧
    ((∀ t p, s.word_to_document_freqs_.find? t = some p → OMap.Sorted p) →
      ∀ t p, (ws.foldl (RemoveDocument.step id) s).word_to_document_freqs_.find? t = some p →
        OMap.Sorted p) ∧
    (OMap.Sorted s.word_to_document_freqs_ →
      OMap.Sorted (ws.foldl (RemoveDocument.step id) s).word_to_document_freqs_) := by
  induction ws generalizing s with
  | nil => simp
  | cons w rest ih =>
    obtain ⟨h1, h2, h3, h4, h5, h6, h7⟩ := ih (RemoveDocument.step id s w)
    simp only [List.foldl_cons]
    refine ⟨h1, h2, h3, h4, ?_, ?_, ?_⟩
    · intro t d
      rw [h5, RemoveDocument.step_posting_freq_remove]
      by_cases hd : d = id
      · by_cases ht : t ∈ rest
        · simp [hd, ht]
        · by_cases htw : t = w <;> simp [hd, ht, htw]
      · simp [hd]
    · intro hs
      apply h6
      intro t p hp
      simp only [RemoveDocument.step, OMap.find?_upsert] at hp
      split at hp
      · cases hp
        apply OMap.Sorted.erase
        cases hf : s.word_to_document_freqs_.find? w with
        | none => exact OMap.Sorted.nil
        | some p0 => exact hs w p0 hf
      · exact hs t p hp
    · intro hs
      apply h7
      exact OMap.Sorted.upsert hs _ _ _

/-- The statements of `RemoveDocument` after the lookup of the forward entry `word_freq`
succeeded keep the store invariant. -/
theorem RemoveDocument.finish_inv (id : Int) (s : SearchServer K) (word_freq : OMap Word K)
    (h : Inv s) (hf : s.document_to_word_freqs_.find? id = some word_freq)
    (s2 : SearchServer K)
    (hs2 : s2 = (word_freq.map Prod.fst).foldl (RemoveDocument.step id)
      { s with documents_ := s.documents_.erase id }) :
    Inv { s2 with
      document_to_word_freqs_ := s2.document_to_word_freqs_.erase id,
      document_ids_ := OSet.erase id s2.document_ids_ } := by
  obtain ⟨h1, h2, h3, h4, h5, h6, h7⟩ :=
    RemoveDocument.loop_effect id (word_freq.map Prod.fst)
      { s with documents_ := s.documents_.erase id }
  rw [← hs2] at h1 h2 h3 h4 h5 h6 h7
  simp only at h1 h2 h3 h4 h5 h6 h7
  refine ⟨⟨?_, ?_, ?_, ?_, ?_⟩, ?_, ?_, ?_, ?_⟩
  · intro t d
    simp only [forward_freq, OMap.get2_erase, h1]
    have hp := h5 t d
    simp only [posting_freq] at hp
    simp only [posting_freq]
    rw [hp]
    by_cases hd : d = id
    · subst hd
      by_cases ht : t ∈ word_freq.map Prod.fst
      · simp [ht]
      · simp only [ht, and_false, if_false, if_true]
        have hc := h.maps.consistent t d
        simp only [forward_freq, posting_freq, OMap.get2, hf, Option.some_bind] at hc
        simp only [OMap.get2]
        rw [← hc]
        exact ((OMap.find?_eq_none_iff word_freq t).mpr ht).symm
    · simp only [hd, false_and, if_false]
      exact h.maps.consistent t d
  · exact h6 h.maps.postings_sorted
  · intro d m hm
    simp only [h1, OMap.find?_erase] at hm
    split at hm
    · cases hm
    · exact h.maps.forward_sorted d m hm
  · exact h7 h.maps.index_sorted
  · simp only [h1]
    exact OMap.Sorted.erase h.maps.forward_index_sorted _
  · simp only [h2]
    exact OMap.Sorted.erase h.documents_sorted _
  · simp only [h3]
    exact OSet.erase_sorted _ _ h.ids_sorted
  · intro d hd
    simp only [h1, OMap.find?_erase] at hd
    simp only [h2, OMap.find?_erase]
    by_cases hid : d = id
    · simp [hid] at hd
    · simp only [hid, if_false] at hd ⊢
      exact h.forward_has_data d hd
  · intro d hd
    simp only [h2, OMap.find?_erase] at hd
    simp only [h3, OSet.mem_erase]
    by_cases hid : d = id
    · simp [hid] at hd
    · simp only [hid, if_false] at hd
      exact ⟨hid, h.data_is_live d hd⟩

/-- The store that `RemoveDocument` leaves when the lookup of the forward entry throws keeps
the store invariant. -/
theorem RemoveDocument.throw_inv (id : Int) (s : SearchServer K) (h : Inv s)
    (hf : s.document_to_word_freqs_.find? id = none) :
    Inv { s with documents_ := s.documents_.erase id } := by
  refine ⟨⟨h.maps.consistent, h.maps.postings_sorted, h.maps.forward_sorted,
    h.maps.index_sorted, h.maps.forward_index_sorted⟩, ?_, h.ids_sorted, ?_, ?_⟩
  · exact OMap.Sorted.erase h.documents_sorted _
  · intro d hd
    simp only [OMap.find?_erase]
    by_cases hid : d = id
    · subst hid
      simp only at hd
      rw [hf] at hd
      cases hd
    · simp only [hid, if_false]
      exact h.forward_has_data d hd
  · intro d hd
    simp only [OMap.find?_erase] at hd
    by_cases hid : d = id
    · simp [hid] at hd
    · simp only [hid, if_false] at hd
      exact h.data_is_live d hd

/-- The member `RemoveDocument` keeps the store invariant under either policy, whether it
returns or throws. -/
theorem RemoveDocument_inv (policy : ExecutionPolicy) (s : SearchServer K) (id : Int)
    (h : Inv s) : Inv (RemoveDocument policy s id).2 := by
  cases policy
  · simp only [RemoveDocument, RemoveDocument_seq]
    split
    · exact h
    · simp only [OMap.at]
      cases hf : s.document_to_word_freqs_.find? id with
      | none => exact RemoveDocument.throw_inv id s h hf
      | some word_freq =>
        simp only
        exact RemoveDocument.finish_inv id s word_freq h hf _ (by rw [List.foldl_map])
  · simp only [RemoveDocument, RemoveDocument_par]
    split
    · exact h
    · simp only [OMap.at]
      cases hf : s.document_to_word_freqs_.find? id with
      | none => exact RemoveDocument.throw_inv id s h hf
      | some word_freq =>
        simp only
        exact RemoveDocument.finish_inv id s word_freq h hf _ rfl

/-- A server as constructed satisfies the store invariant. -/
theorem ofContainer_inv (stop_words : List Word) (s : SearchServer K)
    (h : ofContainer stop_words = .ok s) : Inv s := by
  unfold ofContainer at h
  simp only at h
  split at h
  · cases h
  · cases h
    refine ⟨⟨?_, ?_, ?_, ?_, ?_⟩, ?_, ?_, ?_, ?_⟩
    · intro t d; rfl
    · intro t p hp; simp [OMap.find?] at hp
    · intro d m hm; simp [OMap.find?] at hm
    · exact OMap.Sorted.nil
    · exact OMap.Sorted.nil
    · exact OMap.Sorted.nil
    · exact List.Pairwise.nil
    · intro d hd; simp [OMap.find?] at hd
    · intro d hd; simp [OMap.find?] at hd

end SearchServer

/-- Every reachable store satisfies the store invariant. -/
theorem Reachable.inv {K : Type} [LinearOrderedField K] {s : SearchServer K}
    (h : Reachable s) : SearchServer.Inv s := by
  induction h with
  | init stop_words s h => exact SearchServer.ofContainer_inv stop_words s h
  | add s id document status ratings _ ih =>
    exact SearchServer.AddDocument_inv s id document status ratings ih
  | remove policy s id _ ih => exact SearchServer.RemoveDocument_inv policy s id ih

/-- The sample server `two` is reachable. -/
theorem Sample.two_reachable : Reachable Sample.two :=
  Reachable.add _ _ _ _ _ (Reachable.add _ _ _ _ _ (Reachable.init [] Sample.empty rfl))

/-- The sample server `six` is reachable. -/
theorem Sample.six_reachable : Reachable Sample.six :=
  Reachable.add _ _ _ _ _ (Reachable.add _ _ _ _ _ (Reachable.add _ _ _ _ _
    (Reachable.add _ _ _ _ _ (Reachable.add _ _ _ _ _ (Reachable.add _ _ _ _ _
      (Reachable.init [] Sample.empty rfl))))))

/-! ## The loops of `FindAllDocuments` over an abstract accumulator -/

/-- A loop in `Except` whose first round returns continues with the rest. -/
theorem foldlM_cons_ok {σ α : Type} (f : σ → α → Except Exception σ) (a : α) (l : List α)
    (b b' : σ) (h : f b a = .ok b') : (a :: l).foldlM f b = l.foldlM f b' := by
  simp only [List.foldlM_cons, h]
  rfl

namespace SearchServer

variable {K : Type} {M : Type}


/-- The loop over the postings `p` of one plus word returns, and the slot of every document of
`p` that satisfies the predicate has grown by its `tf * idf`. -/
theorem FindAllDocuments.plus_postings_spec [LinearOrderedField K] (s : SearchServer K)
    (pred : DocumentPredicate) (idf : K) {look : M → Int → Option K} {G : M → Prop}
    {add : M → Int → K → M} {erase : M → Int → M} (acc : Accumulator look G add erase)
    (p : OMap Int K) (hnd : (p.map Prod.fst).Nodup)
    (hmeta : ∀ d ∈ p.map Prod.fst, (s.documents_.find? d).isSome) (rel : M) (hG : G rel) :
    ∃ rel', p.foldlM (FindAllDocuments.plus_posting s pred idf add) rel = .ok rel' ∧ G rel' ∧
      ∀ d, look rel' d =
        match OMap.find? p d with
        | some tf => if s.satisfies pred d then some ((look rel d).getD 0 + tf * idf)
                     else look rel d
        | none => look rel d := by
  induction p generalizing rel with
  | nil => exact ⟨rel, rfl, hG, fun d => by simp [OMap.find?]⟩
  | cons q rest ih =>
    obtain ⟨d0, tf0⟩ := q
    simp only [List.map_cons, List.nodup_cons] at hnd
    have hd0 : (s.documents_.find? d0).isSome := hmeta d0 (by simp)
    obtain ⟨data, hdata⟩ := Option.isSome_iff_exists.mp hd0
    have hsat : s.satisfies pred d0 = pred d0 data.status data.rating := by
      simp [satisfies, hdata]
    have hrest : ∀ d ∈ rest.map Prod.fst, (s.documents_.find? d).isSome :=
      fun d hd => hmeta d (List.mem_cons_of_mem _ hd)
    have hnone : OMap.find? rest d0 = none := (OMap.find?_eq_none_iff rest d0).mpr hnd.1
    by_cases hp : pred d0 data.status data.rating = true
    · have hstep : FindAllDocuments.plus_posting s pred idf add rel (d0, tf0)
          = .ok (add rel d0 (tf0 * idf)) := by
        simp [FindAllDocuments.plus_posting, OMap.at, hdata, hp]
      obtain ⟨rel', hrel', hG', hlook⟩ :=
        ih hnd.2 hrest (add rel d0 (tf0 * idf)) (acc.add_good rel d0 _ hG)
      refine ⟨rel', by rw [foldlM_cons_ok _ _ _ _ _ hstep]; exact hrel', hG', ?_⟩
      intro d
      rw [hlook d, acc.look_add rel d0 _ d hG]
      by_cases hd : d = d0
      · subst hd
        simp [OMap.find?, hnone, hsat, hp]
      · simp [OMap.find?, hd]
    · have hstep : FindAllDocuments.plus_posting s pred idf add rel (d0, tf0) = .ok rel := by
        simp [FindAllDocuments.plus_posting, OMap.at, hdata, hp]
      obtain ⟨rel', hrel', hG', hlook⟩ := ih hnd.2 hrest rel hG
      refine ⟨rel', by rw [foldlM_cons_ok _ _ _ _ _ hstep]; exact hrel', hG', ?_⟩
      intro d
      rw [hlook d]
      by_cases hd : d = d0
      · subst hd
        simp [OMap.find?, hnone, hsat, hp]
      · simp [OMap.find?, hd]

/-- The body of the loop over the plus words returns and acts on every slot as
`score_step`. -/
theorem FindAllDocuments.plus_word_spec [LinearOrderedField K] (ln : K → K)
    (s : SearchServer K) (pred : DocumentPredicate) {look : M → Int → Option K} {G : M → Prop}
    {add : M → Int → K → M} {erase : M → Int → M} (acc : Accumulator look G add erase)
    (hsorted : ∀ t p, s.word_to_document_freqs_.find? t = some p → OMap.Sorted p)
    (hmeta : ∀ t d, (s.posting_freq t d).isSome → (s.documents_.find? d).isSome)
    (rel : M) (hG : G rel) (word : Word) :
    ∃ rel', FindAllDocuments.plus_word ln s pred add rel word = .ok rel' ∧ G rel' ∧
      ∀ d, look rel' d = score_step ln s pred d (look rel d) word := by
  unfold FindAllDocuments.plus_word OMap.count
  cases hf : s.word_to_document_freqs_.find? word with
  | none =>
    refine ⟨rel, by simp, hG, ?_⟩
    intro d
    simp [score_step, posting_freq, OMap.get2, hf]
  | some p =>
    have hm : ∀ d ∈ p.map Prod.fst, (s.documents_.find? d).isSome := by
      intro d hd
      apply hmeta word d
      simp only [posting_freq, OMap.get2, hf, Option.some_bind]
      exact (OMap.find?_isSome_iff p d).mpr hd
    obtain ⟨rel', hrel', hG', hlook⟩ :=
      FindAllDocuments.plus_postings_spec s pred (s.idf ln word) acc p
        (hsorted word p hf).nodup hm rel hG
    refine ⟨rel', ?_, hG', ?_⟩
    · simp only [Option.isSome_some, if_true, one_ne_zero, if_false,
        ComputeWordInverseDocumentFreq, OMap.at, hf]
      simpa [idf, document_freq, hf] using hrel'
    · intro d
      rw [hlook d]
      simp only [score_step, posting_freq, OMap.get2, hf, Option.some_bind]

/-- The loop over the plus words returns and acts on every slot as the fold of
`score_step`. -/
theorem FindAllDocuments.plus_loop_spec [LinearOrderedField K] (ln : K → K)
    (s : SearchServer K) (pred : DocumentPredicate) {look : M → Int → Option K} {G : M → Prop}
    {add : M → Int → K → M} {erase : M → Int → M} (acc : Accumulator look G add erase)
    (hsorted : ∀ t p, s.word_to_document_freqs_.find? t = some p → OMap.Sorted p)
    (hmeta : ∀ t d, (s.posting_freq t d).isSome → (s.documents_.find? d).isSome)
    (words : List Word) (rel : M) (hG : G rel) :
    ∃ rel', words.foldlM (FindAllDocuments.plus_word ln s pred add) rel = .ok rel' ∧ G rel' ∧
      ∀ d, look rel' d = words.foldl (score_step ln s pred d) (look rel d) := by
  induction words generalizing rel with
  | nil => exact ⟨rel, rfl, hG, fun d => rfl⟩
  | cons w rest ih =>
    obtain ⟨rel1, h1, hG1, hl1⟩ :=
      FindAllDocuments.plus_word_spec ln s pred acc hsorted hmeta rel hG w
    obtain ⟨rel', h', hG', hl'⟩ := ih rel1 hG1
    refine ⟨rel', by rw [foldlM_cons_ok _ _ _ _ _ h1]; exact h', hG', ?_⟩
    intro d
    rw [hl' d, hl1 d]
    rfl

/-- Erasing every document of the postings `p` empties exactly their slots. -/
theorem FindAllDocuments.minus_postings_spec [LinearOrderedField K]
    {look : M → Int → Option K} {G : M → Prop}
    {add : M → Int → K → M} {erase : M → Int → M} (acc : Accumulator look G add erase)
    (p : OMap Int K) (rel : M) (hG : G rel) :
    G (p.foldl (fun rel q => erase rel q.1) rel) ∧
      ∀ d, look (p.foldl (fun rel q => erase rel q.1) rel) d =
        if (OMap.find? p d).isSome then none else look rel d := by
  induction p generalizing rel with
  | nil => exact ⟨hG, fun d => by simp [OMap.find?]⟩
  | cons q rest ih =>
    obtain ⟨d0, tf0⟩ := q
    obtain ⟨hG', hl⟩ := ih (erase rel d0) (acc.erase_good rel d0 hG)
    refine ⟨hG', ?_⟩
    intro d
    simp only [List.foldl_cons]
    rw [hl d, acc.look_erase rel d0 d hG]
    by_cases hd : d = d0
    · subst hd
      simp [OMap.find?]
    · simp [OMap.find?, hd]

/-- The body of the loop over the minus words returns and empties the slots of the documents
in the postings of the word. -/
theorem FindAllDocuments.minus_word_spec [LinearOrderedField K] (s : SearchServer K)
    {look : M → Int → Option K} {G : M → Prop}
    {add : M → Int → K → M} {erase : M → Int → M} (acc : Accumulator look G add erase)
    (rel : M) (hG : G rel) (word : Word) :
    ∃ rel', FindAllDocuments.minus_word s erase rel word = .ok rel' ∧ G rel' ∧
      ∀ d, look rel' d = if (s.posting_freq word d).isSome then none else look rel d := by
  unfold FindAllDocuments.minus_word OMap.count
  cases hf : s.word_to_document_freqs_.find? word with
  | none =>
    refine ⟨rel, by simp, hG, ?_⟩
    intro d
    simp [posting_freq, OMap.get2, hf]
  | some p =>
    obtain ⟨hG', hl⟩ := FindAllDocuments.minus_postings_spec acc p rel hG
    refine ⟨_, by simp [OMap.at, hf], hG', ?_⟩
    intro d
    rw [hl d]
    simp [posting_freq, OMap.get2, hf]

/-- The loop over the minus words returns and empties the slots of the documents that some
minus word has in its postings. -/
theorem FindAllDocuments.minus_loop_spec [LinearOrderedField K] (s : SearchServer K)
    {look : M → Int → Option K} {G : M → Prop}
    {add : M → Int → K → M} {erase : M → Int → M} (acc : Accumulator look G add erase)
    (words : List Word) (rel : M) (hG : G rel) :
    ∃ rel', words.foldlM (FindAllDocuments.minus_word s erase) rel = .ok rel' ∧ G rel' ∧
      ∀ d, look rel' d =
        if words.any (fun w => (s.posting_freq w d).isSome) then none else look rel d := by
  induction words generalizing rel with
  | nil => exact ⟨rel, rfl, hG, fun d => by simp⟩
  | cons w rest ih =>
    obtain ⟨rel1, h1, hG1, hl1⟩ := FindAllDocuments.minus_word_spec s acc rel hG w
    obtain ⟨rel', h', hG', hl'⟩ := ih rel1 hG1
    refine ⟨rel', by rw [foldlM_cons_ok _ _ _ _ _ h1]; exact h', hG', ?_⟩
    intro d
    rw [hl' d, hl1 d]
    by_cases hw : (s.posting_freq w d).isSome = true
    · simp [hw]
    · simp [hw]

/-- A plain ordered map is an accumulator. -/
theorem Accumulator_OMap [LinearOrderedField K] :
    Accumulator (fun (rel : OMap Int K) d => rel.find? d) OMap.Sorted
      (fun rel document_id x => rel.upsert document_id 0 (fun v => v + x))
      (fun rel document_id => OMap.erase document_id rel) where
  add_good := fun _ d _ h => OMap.Sorted.upsert h d 0 _
  look_add := fun rel d _ d' _ => OMap.find?_upsert rel d d' 0 _
  erase_good := fun _ d h => OMap.Sorted.erase h d
  look_erase := fun rel d d' _ => OMap.find?_erase rel d d'

/-- The final loop of `FindAllDocuments` returns one result per entry when every entry has
metadata. -/
theorem FindAllDocuments.collect_spec (s : SearchServer K) (rel : OMap Int K)
    (hmeta : ∀ d ∈ rel.map Prod.fst, (s.documents_.find? d).isSome) :
    FindAllDocuments.collect s rel = .ok (rel.map s.document_of) := by
  unfold FindAllDocuments.collect
  have hgen : ∀ acc : List (Document K),
      rel.foldlM (FindAllDocuments.collect_step s) acc = .ok (acc ++ rel.map s.document_of) := by
    induction rel with
    | nil => intro acc; simp; rfl
    | cons q rest ih =>
      intro acc
      obtain ⟨d0, r0⟩ := q
      have hd0 : (s.documents_.find? d0).isSome := hmeta d0 (by simp)
      obtain ⟨data, hdata⟩ := Option.isSome_iff_exists.mp hd0
      rw [foldlM_cons_ok _ _ _ _ (acc ++ [⟨d0, r0, data.rating⟩])
        (by simp [FindAllDocuments.collect_step, OMap.at, hdata])]
      rw [ih (fun d hd => hmeta d (List.mem_cons_of_mem _ hd))]
      simp [document_of, rating_of, hdata]
  simpa using hgen []

/-- A slot that the plus words filled belongs to a document that satisfies the predicate. -/
theorem satisfies_of_score_fold [LinearOrderedField K] (ln : K → K) (s : SearchServer K)
    (pred : DocumentPredicate) (d : Int) (words : List Word) (acc : Option K)
    (h : (words.foldl (score_step ln s pred d) acc).isSome) :
    acc.isSome ∨ s.satisfies pred d = true := by
  induction words generalizing acc with
  | nil => exact Or.inl h
  | cons w rest ih =>
    rcases ih _ h with h1 | h1
    · unfold score_step at h1
      split at h1
      · split at h1
        · rename_i hs
          exact Or.inr hs
        · exact Or.inl h1
      · exact Or.inl h1
    · exact Or.inr h1

/-- A document with a score satisfies the predicate. -/
theorem satisfies_of_score [LinearOrderedField K] (ln : K → K) (s : SearchServer K)
    (pred : DocumentPredicate) (query : Query) (d : Int)
    (h : (score ln s pred query d).isSome) : s.satisfies pred d = true := by
  unfold score at h
  split at h
  · cases h
  · rcases satisfies_of_score_fold ln s pred d _ none h with h1 | h1
    · cases h1
    · exact h1

/-- A document that satisfies a predicate has metadata. -/
theorem isSome_of_satisfies (s : SearchServer K) (pred : DocumentPredicate) (d : Int)
    (h : s.satisfies pred d = true) : (s.documents_.find? d).isSome := by
  unfold satisfies at h
  cases hf : s.documents_.find? d with
  | none => rw [hf] at h; cases h
  | some data => rfl

/-- In a store that satisfies the invariant every document of a postings list has
metadata. -/
theorem Inv.posting_has_data {s : SearchServer K} (h : Inv s) (t : Word) (d : Int)
    (hp : (s.posting_freq t d).isSome) : (s.documents_.find? d).isSome := by
  apply h.forward_has_data
  rw [← h.maps.consistent] at hp
  unfold forward_freq OMap.get2 at hp
  cases hf : s.document_to_word_freqs_.find? d with
  | none => rw [hf] at hp; cases hp
  | some m => rfl

/-- The sequential `FindAllDocuments` returns, in a store that satisfies the invariant, the
results of an ascending relevance map whose slots are given by `score`. -/
theorem FindAllDocuments_seq_spec [LinearOrderedField K] (ln : K → K) (s : SearchServer K)
    (hinv : Inv s) (query : Query) (pred : DocumentPredicate) :
    ∃ rel : OMap Int K, OMap.Sorted rel ∧ (∀ d, rel.find? d = score ln s pred query d) ∧
      FindAllDocuments_seq ln s query pred = .ok (rel.map s.document_of) := by
  obtain ⟨rel1, h1, hG1, hl1⟩ :=
    FindAllDocuments.plus_loop_spec ln s pred Accumulator_OMap hinv.maps.postings_sorted
      hinv.posting_has_data query.plus_words ([] : OMap Int K) OMap.Sorted.nil
  obtain ⟨rel2, h2, hG2, hl2⟩ :=
    FindAllDocuments.minus_loop_spec s (@Accumulator_OMap K _) query.minus_words rel1 hG1
  have hscore : ∀ d, rel2.find? d = score ln s pred query d := by
    intro d
    have e2 := hl2 d
    have e1 := hl1 d
    simp only at e1 e2
    rw [e2, e1]
    rfl
  refine ⟨rel2, hG2, hscore, ?_⟩
  have hmeta : ∀ d ∈ rel2.map Prod.fst, (s.documents_.find? d).isSome := by
    intro d hd
    apply isSome_of_satisfies s pred
    apply satisfies_of_score ln s pred query
    rw [← hscore d]
    exact (OMap.find?_isSome_iff rel2 d).mpr hd
  simp only [FindAllDocuments_seq, h1, h2]
  exact FindAllDocuments.collect_spec s rel2 hmeta

end SearchServer

/-! ## The sharded accumulator refines a plain map -/

namespace OMap

variable {K V : Type}

/-- Lookup in a concatenation: the first list wins. -/
theorem find?_append [DecidableEq K] (l₁ l₂ : OMap K V) (k : K) :
    find? (l₁ ++ l₂) k = match find? l₁ k with
      | some v => some v
      | none => find? l₂ k := by
  induction l₁ with
  | nil => simp [find?]
  | cons p t ih =>
    obtain ⟨k₀, v₀⟩ := p
    by_cases h : k = k₀
    · simp [find?, h]
    · simp only [List.cons_append, find?, h, if_false]
      exact ih

/-- Lookup after copying the pairs of `l` into `acc`, one `insert` each: the last pair of a key
wins. -/
theorem find?_foldl_insert [DecidableEq K] [LinearOrder K] (l acc : OMap K V) (k : K) :
    find? (l.foldl (fun a p => insert p.1 p.2 a) acc) k = match find? l.reverse k with
      | some v => some v
      | none => find? acc k := by
  induction l generalizing acc with
  | nil => simp [find?]
  | cons p t ih =>
    simp only [List.foldl_cons, List.reverse_cons]
    rw [ih, find?_append, find?_insert]
    cases find? t.reverse k with
    | some v => rfl
    | none =>
      by_cases h : k = p.1
      · simp [find?, h]
      · simp [find?, h]

/-- Copying pairs into an ascending map leaves it ascending. -/
theorem sorted_foldl_insert [DecidableEq K] [LinearOrder K] (l acc : OMap K V)
    (h : Sorted acc) : Sorted (l.foldl (fun a p => OMap.insert p.1 p.2 a) acc) :=
  foldl_preserves Sorted _ (fun _ p hs => Sorted.insert hs p.1 p.2) l acc h

/-- With distinct keys the lookup does not depend on the order of the pairs. -/
theorem find?_reverse [DecidableEq K] (l : OMap K V) (k : K)
    (hnd : (l.map Prod.fst).Nodup) : find? l.reverse k = find? l k := by
  cases hf : find? l k with
  | none =>
    rw [find?_eq_none_iff] at hf ⊢
    simpa [List.map_reverse] using hf
  | some v =>
    apply find?_of_mem
    · rw [List.map_reverse]
      exact List.nodup_reverse.mpr hnd
    · exact List.mem_reverse.mpr (mem_of_find? l k v hf)

/-- The keys after `erase` were keys before. -/
theorem mem_keys_erase [DecidableEq K] (m : OMap K V) (k k' : K)
    (h : k' ∈ (erase k m).map Prod.fst) : k' ∈ m.map Prod.fst := by
  unfold erase at h
  exact (List.Sublist.map _ (List.filter_sublist _)).subset h

end OMap

namespace ConcurrentMap

variable {V : Type}

/-- A bucket after `set`. -/
theorem getD_set (bs : List (OMap Int V)) (i j : Nat) (b : OMap Int V) :
    (bs.set i b).getD j [] = if i = j ∧ i < bs.length then b else bs.getD j [] := by
  induction bs generalizing i j with
  | nil => simp
  | cons b0 rest ih =>
    cases i with
    | zero =>
      cases j with
      | zero => simp
      | succ j => simp
    | succ i =>
      cases j with
      | zero => simp
      | succ j =>
        simp only [List.set_cons_succ, List.getD_cons_succ, ih, List.length_cons]
        by_cases h : i = j
        · simp [h]
        · simp [h]

/-- Every bucket of a disciplined list has ascending keys, all sent to its number. -/
theorem Disciplined.bucket (f : Int → Nat) (off : Nat) (bs : List (OMap Int V))
    (h : Disciplined f off bs) (i : Nat) :
    OMap.Sorted (bs.getD i []) ∧ ∀ k ∈ (bs.getD i []).map Prod.fst, f k = off + i := by
  induction bs generalizing off i with
  | nil => simp [OMap.Sorted]
  | cons b rest ih =>
    obtain ⟨hs, hk, hrest⟩ := h
    cases i with
    | zero => exact ⟨hs, by simpa using hk⟩
    | succ i =>
      obtain ⟨h1, h2⟩ := ih (off + 1) hrest i
      refine ⟨by simpa using h1, ?_⟩
      intro k hkm
      have := h2 k (by simpa using hkm)
      omega

/-- Replacing a bucket by one that obeys the discipline keeps the discipline. -/
theorem Disciplined.set (f : Int → Nat) (off : Nat) (bs : List (OMap Int V))
    (h : Disciplined f off bs) (i : Nat) (b : OMap Int V) (hs : OMap.Sorted b)
    (hk : ∀ k ∈ b.map Prod.fst, f k = off + i) : Disciplined f off (bs.set i b) := by
  induction bs generalizing off i with
  | nil => exact h
  | cons b0 rest ih =>
    obtain ⟨hs0, hk0, hrest⟩ := h
    cases i with
    | zero => exact ⟨hs, by simpa using hk, hrest⟩
    | succ i =>
      refine ⟨hs0, hk0, ih (off + 1) hrest i ?_⟩
      intro k hkm
      have := hk k hkm
      omega

/-- The keys of a disciplined list are sent to bucket numbers from `off` on. -/
theorem Disciplined.le_of_mem (f : Int → Nat) (off : Nat) (bs : List (OMap Int V))
    (h : Disciplined f off bs) (k : Int) (hk : k ∈ bs.flatten.map Prod.fst) : off ≤ f k := by
  induction bs generalizing off with
  | nil => simp at hk
  | cons b rest ih =>
    obtain ⟨_, hk0, hrest⟩ := h
    simp only [List.flatten_cons, List.map_append, List.mem_append] at hk
    rcases hk with hk | hk
    · exact le_of_eq (hk0 k hk).symm
    · exact le_trans (Nat.le_succ off) (ih (off + 1) hrest hk)

/-- The keys of a disciplined list are distinct. -/
theorem Disciplined.keys_nodup (f : Int → Nat) (off : Nat) (bs : List (OMap Int V))
    (h : Disciplined f off bs) : (bs.flatten.map Prod.fst).Nodup := by
  induction bs generalizing off with
  | nil => simp
  | cons b rest ih =>
    obtain ⟨hs, hk0, hrest⟩ := h
    simp only [List.flatten_cons, List.map_append]
    rw [List.nodup_append]
    refine ⟨hs.nodup, ih (off + 1) hrest, ?_⟩
    intro k hk1 hk2
    have h1 := hk0 k hk1
    have h2 := Disciplined.le_of_mem f (off + 1) rest hrest k hk2
    omega

/-- Lookup in the concatenation of a disciplined list is lookup in the bucket of the key. -/
theorem Disciplined.find?_flatten (f : Int → Nat) (off : Nat) (bs : List (OMap Int V))
    (h : Disciplined f off bs) (k : Int) :
    OMap.find? bs.flatten k = OMap.find? (bs.getD (f k - off) []) k := by
  induction bs generalizing off with
  | nil => simp [OMap.find?]
  | cons b rest ih =>
    obtain ⟨hs, hk0, hrest⟩ := h
    simp only [List.flatten_cons]
    rw [OMap.find?_append]
    by_cases hfk : f k = off
    · have hnone : OMap.find? rest.flatten k = none := by
        rw [OMap.find?_eq_none_iff]
        intro hmem
        have := Disciplined.le_of_mem f (off + 1) rest hrest k hmem
        omega
      rw [hnone, hfk, Nat.sub_self, List.getD_cons_zero]
      cases OMap.find? b k <;> rfl
    · have hb : OMap.find? b k = none := by
        rw [OMap.find?_eq_none_iff]
        intro hmem
        exact hfk (hk0 k hmem)
      rw [hb]
      simp only
      rw [ih (off + 1) hrest]
      by_cases hlt : f k < off
      · have e1 : f k - (off + 1) = 0 := by omega
        have e2 : f k - off = 0 := by omega
        rw [e2, List.getD_cons_zero, hb]
        have hnone : OMap.find? rest.flatten k = none := by
          rw [OMap.find?_eq_none_iff]
          intro hmem
          have := Disciplined.le_of_mem f (off + 1) rest hrest k hmem
          omega
        rw [← ih (off + 1) hrest, hnone]
      · have e : f k - off = (f k - (off + 1)) + 1 := by omega
        rw [e, List.getD_cons_succ]

/-- The member `BuildOrdinaryMap` copies the concatenation of the buckets. -/
theorem BuildOrdinaryMap_eq (m : ConcurrentMap V) :
    m.BuildOrdinaryMap = m.maps_.flatten.foldl (fun a p => OMap.insert p.1 p.2 a) [] := by
  unfold BuildOrdinaryMap
  rw [List.foldl_flatten]

/-- The ordinary map has ascending keys. -/
theorem BuildOrdinaryMap_sorted (m : ConcurrentMap V) : OMap.Sorted m.BuildOrdinaryMap := by
  rw [BuildOrdinaryMap_eq]
  exact OMap.sorted_foldl_insert _ _ OMap.Sorted.nil

/-- Lookup in the ordinary map of a well-formed `ConcurrentMap` is lookup in the bucket of the
key. -/
theorem find?_BuildOrdinaryMap (n : Nat) (m : ConcurrentMap V) (h : Good n m) (k : Int) :
    OMap.find? m.BuildOrdinaryMap k = OMap.find? (m.maps_.getD (m.index k) []) k := by
  obtain ⟨hlen, _, hd⟩ := h
  rw [BuildOrdinaryMap_eq, OMap.find?_foldl_insert,
    OMap.find?_reverse _ _ (Disciplined.keys_nodup _ 0 _ hd),
    Disciplined.find?_flatten _ 0 _ hd k]
  simp only [OMap.find?, Nat.sub_zero, index, hlen]
  cases OMap.find? (m.maps_.getD ((k % 2 ^ 64).toNat % n) []) k <;> rfl

/-- The constructor builds a well-formed map. -/
theorem ofBucketCount_good (n : Nat) (hn : 0 < n) : Good n (ofBucketCount n : ConcurrentMap V) := by
  refine ⟨by simp [ofBucketCount], hn, ?_⟩
  unfold ofBucketCount
  simp only
  generalize (0 : Nat) = off
  generalize (fun k : Int => (k % 2 ^ 64).toNat % n) = f
  induction n generalizing off with
  | zero => exact trivial
  | succ n ih =>
    rw [List.replicate_succ]
    refine ⟨OMap.Sorted.nil, by simp, ?_⟩
    rcases Nat.eq_zero_or_pos n with h0 | hpos
    · subst h0
      exact trivial
    · exact ih hpos (off + 1)

/-- The update through `operator[]` keeps the map well-formed. -/
theorem modify_good (n : Nat) (m : ConcurrentMap V) (h : Good n m) (key : Int) (init : V)
    (f : V → V) : Good n (m.modify key init f) := by
  obtain ⟨hlen, hn, hd⟩ := h
  refine ⟨by simp [modify, hlen], hn, ?_⟩
  unfold modify
  simp only
  obtain ⟨hs, hk⟩ := Disciplined.bucket _ 0 _ hd (m.index key)
  apply Disciplined.set _ 0 _ hd
  · exact OMap.Sorted.upsert hs _ _ _
  · intro k hkm
    unfold OMap.upsert at hkm
    rcases (OMap.mem_keys_insert _ _ _ _).mp hkm with rfl | hkm
    · simp [index, hlen]
    · exact hk k hkm

/-- The member `erase` keeps the map well-formed. -/
theorem erase_good (n : Nat) (m : ConcurrentMap V) (h : Good n m) (key : Int) :
    Good n (m.erase key) := by
  obtain ⟨hlen, hn, hd⟩ := h
  refine ⟨by simp [erase, hlen], hn, ?_⟩
  unfold erase
  simp only
  obtain ⟨hs, hk⟩ := Disciplined.bucket _ 0 _ hd (m.index key)
  apply Disciplined.set _ 0 _ hd
  · exact OMap.Sorted.erase hs _
  · intro k hkm
    exact hk k (OMap.mem_keys_erase _ _ _ hkm)

/-- The bucket number of a key is below the bucket count. -/
theorem index_lt (n : Nat) (m : ConcurrentMap V) (h : Good n m) (key : Int) :
    m.index key < m.maps_.length := by
  obtain ⟨hlen, hn, _⟩ := h
  unfold index
  rw [hlen]
  exact Nat.mod_lt _ hn

/-- Lookup in the ordinary map after an update through `operator[]`. -/
theorem find?_BuildOrdinaryMap_modify (n : Nat) (m : ConcurrentMap V) (h : Good n m)
    (key : Int) (init : V) (f : V → V) (k : Int) :
    OMap.find? (m.modify key init f).BuildOrdinaryMap k =
      if k = key then some (f ((OMap.find? m.BuildOrdinaryMap key).getD init))
      else OMap.find? m.BuildOrdinaryMap k := by
  rw [find?_BuildOrdinaryMap n _ (modify_good n m h key init f),
    find?_BuildOrdinaryMap n m h, find?_BuildOrdinaryMap n m h]
  have hidx : (m.modify key init f).index k = m.index k := by
    simp [index, modify]
  rw [hidx]
  simp only [modify, getD_set]
  by_cases hk : k = key
  · subst hk
    simp [index_lt n m h, OMap.find?_upsert]
  · by_cases hi : m.index key = m.index k
    · simp only [hi, index_lt n m h, and_self, if_true, OMap.find?_upsert, hk, if_false]
    · simp [hi, hk]

/-- Lookup in the ordinary map after `erase`. -/
theorem find?_BuildOrdinaryMap_erase (n : Nat) (m : ConcurrentMap V) (h : Good n m)
    (key : Int) (k : Int) :
    OMap.find? (m.erase key).BuildOrdinaryMap k =
      if k = key then none else OMap.find? m.BuildOrdinaryMap k := by
  rw [find?_BuildOrdinaryMap n _ (erase_good n m h key), find?_BuildOrdinaryMap n m h]
  have hidx : (m.erase key).index k = m.index k := by
    simp [index, erase]
  rw [hidx]
  simp only [erase, getD_set]
  by_cases hk : k = key
  · subst hk
    simp [index_lt n m h, OMap.find?_erase]
  · by_cases hi : m.index key = m.index k
    · simp only [hi, index_lt n m h, and_self, if_true, OMap.find?_erase, hk, if_false]
    · simp [hi, hk]

end ConcurrentMap

/-! ## Both overloads of `FindAllDocuments` compute `score` -/

namespace SearchServer

variable {K : Type}

/-- A well-formed `ConcurrentMap`, read through `BuildOrdinaryMap`, is an accumulator. -/
theorem Accumulator_ConcurrentMap [LinearOrderedField K] (n : Nat) :
    Accumulator (fun (rel : ConcurrentMap K) d => OMap.find? rel.BuildOrdinaryMap d)
      (ConcurrentMap.Good n)
      (fun rel document_id x => rel.modify document_id 0 (fun v => v + x))
      (fun rel document_id => rel.erase document_id) where
  add_good := fun rel d _ h => ConcurrentMap.modify_good n rel h d 0 _
  look_add := fun rel d _ d' h => ConcurrentMap.find?_BuildOrdinaryMap_modify n rel h d 0 _ d'
  erase_good := fun rel d h => ConcurrentMap.erase_good n rel h d
  look_erase := fun rel d d' h => ConcurrentMap.find?_BuildOrdinaryMap_erase n rel h d d'

/-- The parallel `FindAllDocuments` returns, in a store that satisfies the invariant, the
results of an ascending relevance map whose slots are given by `score`. -/
theorem FindAllDocuments_par_spec [LinearOrderedField K] (ln : K → K) (s : SearchServer K)
    (hinv : Inv s) (query : Query) (pred : DocumentPredicate) :
    ∃ rel : OMap Int K, OMap.Sorted rel ∧ (∀ d, rel.find? d = score ln s pred query d) ∧
      FindAllDocuments_par ln s query pred = .ok (rel.map s.document_of) := by
  have hacc := @Accumulator_ConcurrentMap K _ BUCKET_COUNT
  obtain ⟨rel1, h1, hG1, hl1⟩ :=
    FindAllDocuments.plus_loop_spec ln s pred hacc hinv.maps.postings_sorted
      hinv.posting_has_data query.plus_words (ConcurrentMap.ofBucketCount BUCKET_COUNT)
      (ConcurrentMap.ofBucketCount_good BUCKET_COUNT (by decide))
  obtain ⟨rel2, h2, hG2, hl2⟩ :=
    FindAllDocuments.minus_loop_spec s hacc query.minus_words rel1 hG1
  have hempty : ∀ d, OMap.find?
      (ConcurrentMap.ofBucketCount BUCKET_COUNT : ConcurrentMap K).BuildOrdinaryMap d = none := by
    intro d
    rw [ConcurrentMap.find?_BuildOrdinaryMap BUCKET_COUNT _
      (ConcurrentMap.ofBucketCount_good BUCKET_COUNT (by decide))]
    rw [OMap.find?_eq_none_iff]
    intro hmem
    have hb : ∀ i, (List.replicate BUCKET_COUNT ([] : OMap Int K)).getD i [] = [] := by
      intro i
      rw [List.getD_eq_getElem?_getD, List.getElem?_replicate]
      split <;> rfl
    simp only [ConcurrentMap.ofBucketCount, hb] at hmem
    cases hmem
  have hscore : ∀ d, OMap.find? rel2.BuildOrdinaryMap d = score ln s pred query d := by
    intro d
    have e2 := hl2 d
    have e1 := hl1 d
    simp only at e1 e2
    rw [e2, e1, hempty d]
    rfl
  refine ⟨rel2.BuildOrdinaryMap, ConcurrentMap.BuildOrdinaryMap_sorted rel2, hscore, ?_⟩
  have hmeta : ∀ d ∈ rel2.BuildOrdinaryMap.map Prod.fst, (s.documents_.find? d).isSome := by
    intro d hd
    apply isSome_of_satisfies s pred
    apply satisfies_of_score ln s pred query
    rw [← hscore d]
    exact (OMap.find?_isSome_iff _ d).mpr hd
  simp only [FindAllDocuments_par, h1, h2]
  exact FindAllDocuments.collect_spec s _ hmeta

/-- Either overload of `FindAllDocuments` returns, in a store that satisfies the invariant,
the results of an ascending relevance map whose slots are given by `score`. -/
theorem FindAllDocuments_spec [LinearOrderedField K] (policy : ExecutionPolicy) (ln : K → K)
    (s : SearchServer K) (hinv : Inv s) (query : Query) (pred : DocumentPredicate) :
    ∃ rel : OMap Int K, OMap.Sorted rel ∧ (∀ d, rel.find? d = score ln s pred query d) ∧
      FindAllDocuments policy ln s query pred = .ok (rel.map s.document_of) := by
  cases policy
  · exact FindAllDocuments_seq_spec ln s hinv query pred
  · exact FindAllDocuments_par_spec ln s hinv query pred

end SearchServer

/-! ## Parsed queries -/

/-- The algorithm `std::unique` keeps the first element. -/
theorem head?_std_unique {α : Type} [DecidableEq α] (l : List α) :
    (std_unique l).head? = l.head? := by
  induction l with
  | nil => rfl
  | cons a t ih =>
    cases t with
    | nil => rfl
    | cons b t' =>
      unfold std_unique
      split
      · rename_i hab
        rw [ih, hab]
        rfl
      · rfl

/-- The algorithm `std::unique` keeps the set of elements. -/
theorem mem_std_unique {α : Type} [DecidableEq α] (l : List α) (x : α) :
    x ∈ std_unique l ↔ x ∈ l := by
  induction l with
  | nil => simp [std_unique]
  | cons a t ih =>
    cases t with
    | nil => simp [std_unique]
    | cons b t' =>
      unfold std_unique
      split
      · rename_i hab
        rw [ih, hab]
        simp
      · rw [List.mem_cons, ih]
        simp

/-- On a list in ascending order `std::unique` leaves a strictly ascending list. -/
theorem std_unique_chain {α : Type} [DecidableEq α] [LinearOrder α] (l : List α)
    (h : List.Chain' (fun a b => a ≤ b) l) : List.Chain' (fun a b => a < b) (std_unique l) := by
  induction l with
  | nil => simp [std_unique]
  | cons a t ih =>
    cases t with
    | nil => simp [std_unique]
    | cons b t' =>
      rw [List.chain'_cons] at h
      unfold std_unique
      split
      · exact ih h.2
      · rename_i hab
        rw [List.chain'_cons']
        refine ⟨?_, ih h.2⟩
        intro y hy
        rw [head?_std_unique] at hy
        simp only [List.head?_cons, Option.mem_def, Option.some.injEq] at hy
        subst hy
        exact lt_of_le_of_ne h.1 hab

namespace SearchServer

variable {K : Type}

/-- Sorting with `operator<` and `std::unique` leave a strictly ascending list. -/
theorem sort_unique_pairwise (l : List Word) :
    (std_unique (std_sort word_less l)).Pairwise (fun a b => a < b) := by
  rw [← List.chain'_iff_pairwise]
  apply std_unique_chain
  refine List.Chain'.imp ?_ (std_sort_chain word_less ?_ l)
  · intro a b hba
    simpa [word_less] using hba
  · intro a b hab
    simp only [word_less, decide_eq_true_eq, decide_eq_false_iff_not] at hab ⊢
    exact lt_asymm hab

/-- Sorting with `operator<` and `std::unique` leave distinct words. -/
theorem sort_unique_nodup (l : List Word) : (std_unique (std_sort word_less l)).Nodup :=
  List.Pairwise.imp (fun hab => ne_of_lt hab) (sort_unique_pairwise l)

/-- Sorting and `std::unique` keep the set of words. -/
theorem mem_sort_unique (l : List Word) (x : Word) :
    x ∈ std_unique (std_sort word_less l) ↔ x ∈ l := by
  rw [mem_std_unique]
  exact (std_sort_perm word_less l).mem_iff

/-- The parts of a query word that `ParseQueryWord` returns. -/
theorem ParseQueryWord_ok (s : SearchServer K) (text : Word) (qw : QueryWord)
    (h : s.ParseQueryWord text = .ok qw) :
    qw.is_minus = decide (text.head? = some '-') ∧
    qw.data = (if text.head? = some '-' then text.drop 1 else text) ∧
    qw.is_stop = s.IsStopWord qw.data := by
  unfold ParseQueryWord at h
  by_cases he : text.isEmpty = true
  · simp [he] at h
  · by_cases hm : text.head? = some '-'
    · simp only [he, hm, decide_True, if_true, Bool.false_eq_true, if_false] at h
      split at h
      · cases h
      · cases h
        simp [hm]
    · simp only [he, hm, decide_False, if_false, Bool.false_eq_true] at h
      split at h
      · cases h
      · cases h
        simp [hm]

/-- The loop of `ParseQuery` appends the plus terms and the minus terms of the tokens. -/
theorem ParseQuery.loop_terms (s : SearchServer K) (tokens : List Word) (acc query : Query)
    (h : ParseQuery.loop s tokens acc = .ok query) :
    query.plus_words = acc.plus_words ++
      tokens.filter (fun w => !decide (w.head? = some '-') && !s.IsStopWord w) ∧
    query.minus_words = acc.minus_words ++
      ((tokens.filter (fun w => decide (w.head? = some '-'))).map
        (fun w => w.drop 1)).filter (fun w => !s.IsStopWord w) := by
  induction tokens generalizing acc with
  | nil =>
    simp only [ParseQuery.loop, Except.ok.injEq] at h
    subst h
    simp
  | cons w rest ih =>
    unfold ParseQuery.loop at h
    cases hq : s.ParseQueryWord w with
    | error e => rw [hq] at h; cases h
    | ok qw =>
      rw [hq] at h
      simp only at h
      obtain ⟨hminus, hdata, hstop⟩ := ParseQueryWord_ok s w qw hq
      by_cases hs : qw.is_stop = true
      · simp only [hs, Bool.not_true, Bool.false_eq_true, if_false] at h
        obtain ⟨h1, h2⟩ := ih acc h
        rw [h1, h2]
        rw [hstop, hdata] at hs
        by_cases hm : w.head? = some '-'
        · simp only [hm, if_true, List.drop_one] at hs
          simp [List.filter_cons, hm, hs]
        · simp only [hm, if_false] at hs
          simp [List.filter_cons, hm, hs]
      · have hs' : qw.is_stop = false := by simpa using hs
        simp only [hs', Bool.not_false, if_true] at h
        rw [hstop, hdata] at hs'
        by_cases hm : w.head? = some '-'
        · simp only [hm, if_true, List.drop_one] at hs' hdata
          have hmin : qw.is_minus = true := by simp [hminus, hm]
          simp only [hmin, if_true] at h
          obtain ⟨h1, h2⟩ := ih _ h
          rw [h1, h2]
          simp [List.filter_cons, hm, hs', hdata]
        · simp only [hm, if_false] at hs' hdata
          have hmin : qw.is_minus = false := by simp [hminus, hm]
          simp only [hmin, Bool.false_eq_true, if_false] at h
          obtain ⟨h1, h2⟩ := ih _ h
          rw [h1, h2]
          simp [List.filter_cons, hm, hs', hdata]

/-- The query that `FindTopDocuments` hands on, under either policy: the plus words are the
sorted distinct plus terms of the text; the minus words are the minus terms, sorted and
distinct under the sequential policy, as parsed under the parallel one. -/
theorem FindTopDocuments.query_spec [LinearOrderedField K] (policy : ExecutionPolicy)
    (s : SearchServer K) (raw_query : List Char) (query : Query)
    (h : FindTopDocuments.query policy s raw_query = .ok query) :
    query.plus_words = std_unique (std_sort word_less (s.plus_terms raw_query)) ∧
    (∀ t, t ∈ query.minus_words ↔ t ∈ s.minus_terms raw_query) := by
  cases policy
  · simp only [FindTopDocuments.query, ParseQuery, ParseQuery_seq] at h
    cases hl : ParseQuery.loop s (SplitIntoWords raw_query) ⟨[], []⟩ with
    | error e => rw [hl] at h; cases h
    | ok result =>
      rw [hl] at h
      simp only [Except.ok.injEq] at h
      subst h
      obtain ⟨h1, h2⟩ := ParseQuery.loop_terms s _ _ _ hl
      simp only [List.nil_append] at h1 h2
      refine ⟨by rw [h1]; rfl, ?_⟩
      intro t
      simp only
      rw [mem_sort_unique, h2]
      rfl
  · simp only [FindTopDocuments.query, ParseQuery, ParseQuery_par] at h
    cases hl : ParseQuery.loop s (SplitIntoWords raw_query) ⟨[], []⟩ with
    | error e => rw [hl] at h; cases h
    | ok result =>
      rw [hl] at h
      simp only [Except.ok.injEq] at h
      subst h
      obtain ⟨h1, h2⟩ := ParseQuery.loop_terms s _ _ _ hl
      simp only [List.nil_append] at h1 h2
      refine ⟨by simp only; rw [h1]; rfl, ?_⟩
      intro t
      simp only
      rw [h2]
      rfl

end SearchServer

/-! ## `FindTopDocuments` in closed form -/

namespace SearchServer

variable {K : Type}

/-- The pairs of the ascending ids that `g` maps to a value form an ascending map, whose
lookup is `g` on those ids. -/
theorem filterMap_ids_spec (ids : List Int) (hids : ids.Pairwise (fun a b => a < b))
    (g : Int → Option K) :
    OMap.Sorted (ids.filterMap (fun d => (g d).map (fun r => (d, r)))) ∧
    ∀ d, OMap.find? (ids.filterMap (fun d => (g d).map (fun r => (d, r)))) d =
      if d ∈ ids then g d else none := by
  induction ids with
  | nil => exact ⟨OMap.Sorted.nil, fun d => by simp [OMap.find?]⟩
  | cons a t ih =>
    rw [List.pairwise_cons] at hids
    obtain ⟨hs, hf⟩ := ih hids.2
    have hkeys : ∀ k ∈ (t.filterMap (fun d => (g d).map (fun r => (d, r)))).map Prod.fst,
        k ∈ t := by
      intro k hk
      simp only [List.mem_map, List.mem_filterMap, Option.map_eq_some'] at hk
      obtain ⟨p, ⟨d, hd, r, -, rfl⟩, rfl⟩ := hk
      exact hd
    cases hga : g a with
    | none =>
      simp only [List.filterMap_cons, hga, Option.map_none']
      refine ⟨hs, ?_⟩
      intro d
      rw [hf d]
      by_cases hda : d = a
      · subst hda
        have : d ∉ t := fun hm => lt_irrefl d (hids.1 d hm)
        simp [this, hga]
      · simp [hda]
    | some r =>
      simp only [List.filterMap_cons, hga, Option.map_some']
      constructor
      · unfold OMap.Sorted at hs ⊢
        simp only [List.map_cons, List.pairwise_cons]
        exact ⟨fun k hk => hids.1 k (hkeys k hk), hs⟩
      · intro d
        by_cases hda : d = a
        · subst hda
          simp [OMap.find?, hga]
        · simp only [OMap.find?, hda, if_false, List.mem_cons, false_or]
          exact hf d

/-- A document with a score is in the live id set of a store that satisfies the invariant. -/
theorem Inv.live_of_score [LinearOrderedField K] {s : SearchServer K} (h : Inv s)
    (ln : K → K) (pred : DocumentPredicate) (query : Query) (d : Int)
    (hs : (score ln s pred query d).isSome) : d ∈ s.document_ids_ :=
  h.data_is_live d (isSome_of_satisfies s pred d (satisfies_of_score ln s pred query d hs))

/-- The closed-form relevance map is ascending and its lookup is `score`. -/
theorem Inv.relevance_map_spec [LinearOrderedField K] {s : SearchServer K} (h : Inv s)
    (ln : K → K) (pred : DocumentPredicate) (query : Query) :
    OMap.Sorted (s.relevance_map ln pred query) ∧
    ∀ d, OMap.find? (s.relevance_map ln pred query) d = score ln s pred query d := by
  obtain ⟨hs, hf⟩ := filterMap_ids_spec s.document_ids_ h.ids_sorted (score ln s pred query)
  refine ⟨hs, ?_⟩
  intro d
  unfold relevance_map
  rw [hf d]
  by_cases hd : d ∈ s.document_ids_
  · simp [hd]
  · simp only [hd, if_false]
    cases hsc : score ln s pred query d with
    | none => rfl
    | some r => exact absurd (h.live_of_score ln pred query d (by rw [hsc]; rfl)) hd

/-- In a store that satisfies the invariant, either overload of `FindAllDocuments` returns the
results of the closed-form relevance map. -/
theorem FindAllDocuments_eq [LinearOrderedField K] (policy : ExecutionPolicy) (ln : K → K)
    (s : SearchServer K) (hinv : Inv s) (query : Query) (pred : DocumentPredicate) :
    FindAllDocuments policy ln s query pred =
      .ok ((s.relevance_map ln pred query).map s.document_of) := by
  obtain ⟨rel, hs, hf, hres⟩ := FindAllDocuments_spec policy ln s hinv query pred
  obtain ⟨hs', hf'⟩ := hinv.relevance_map_spec ln pred query
  have : rel = s.relevance_map ln pred query :=
    OMap.Sorted.ext hs hs' (fun d => by rw [hf d]; exact (hf' d).symm)
  rw [hres, this]

/-- In a store that satisfies the invariant, `FindTopDocuments` returns, for a text that
parses to `query`, the sorted and truncated results of the closed-form relevance map. -/
theorem FindTopDocuments_eq [LinearOrderedField K] (policy : ExecutionPolicy) (ln : K → K)
    (s : SearchServer K) (hinv : Inv s) (raw_query : List Char) (pred : DocumentPredicate)
    (query : Query) (hq : FindTopDocuments.query policy s raw_query = .ok query) :
    FindTopDocuments policy ln s raw_query pred =
      .ok (FindTopDocuments.truncate (std_sort FindTopDocuments.comp
        ((s.relevance_map ln pred query).map s.document_of))) := by
  rw [FindTopDocuments_ok_iff]
  exact ⟨query, _, hq, FindAllDocuments_eq policy ln s hinv query pred, rfl⟩

end SearchServer

/-! ## What the results of `FindTopDocuments` are -/

namespace SearchServer

variable {K : Type}

/-- Lookup in the map that `GetWordFrequencies` returns is the forward lookup. -/
theorem GetWordFrequencies_find? (s : SearchServer K) (d : Int) (t : Word) :
    (s.GetWordFrequencies d).find? t = s.forward_freq d t := by
  unfold GetWordFrequencies OMap.count forward_freq OMap.get2
  cases s.document_to_word_freqs_.find? d <;> simp [OMap.find?]

/-- In a store that satisfies the invariant a document contains a term exactly when the
postings of the term have the document. -/
theorem Inv.contains_iff {s : SearchServer K} (h : Inv s) (d : Int) (t : Word) :
    s.contains d t = (s.posting_freq t d).isSome := by
  unfold contains
  rw [GetWordFrequencies_find?, h.maps.consistent]

/-- The fold of `score_step` in closed form: when the document satisfies the predicate and
some word has it in its postings, the slot has grown by the sum of the contributions. -/
theorem score_fold_closed [LinearOrderedField K] (ln : K → K) (s : SearchServer K)
    (pred : DocumentPredicate) (d : Int) (words : List Word) (acc : Option K) :
    words.foldl (score_step ln s pred d) acc =
      if s.satisfies pred d = true ∧
          words.filter (fun w => (s.posting_freq w d).isSome) ≠ [] then
        some (acc.getD 0 +
          ((words.filter (fun w => (s.posting_freq w d).isSome)).map
            (fun w => (s.posting_freq w d).getD 0 * s.idf ln w)).sum)
      else acc := by
  induction words generalizing acc with
  | nil => simp
  | cons w rest ih =>
    simp only [List.foldl_cons]
    rw [ih]
    cases hp : s.posting_freq w d with
    | none => simp [score_step, hp, List.filter_cons]
    | some tf =>
      by_cases hs : s.satisfies pred d = true
      · simp only [score_step, hp, hs, if_true, List.filter_cons, Option.isSome_some,
          true_and, ne_eq, List.cons_ne_nil, not_false_eq_true, List.map_cons, List.sum_cons,
          Option.getD_some]
        by_cases hr : rest.filter (fun w => (s.posting_freq w d).isSome) = []
        · simp [hr]
        · simp [hr, add_assoc]
      · simp [score_step, hp, hs]

/-- A score is the sum of the contributions of the plus words that have the document in their
postings; there is such a word, no minus word has the document, and the document satisfies
the predicate. -/
theorem score_eq_some [LinearOrderedField K] (ln : K → K) (s : SearchServer K)
    (pred : DocumentPredicate) (query : Query) (d : Int) (r : K) :
    score ln s pred query d = some r ↔
      (s.satisfies pred d = true ∧
        (∃ t ∈ query.plus_words, (s.posting_freq t d).isSome) ∧
        (∀ t ∈ query.minus_words, s.posting_freq t d = none) ∧
        r = ((query.plus_words.filter (fun w => (s.posting_freq w d).isSome)).map
          (fun w => (s.posting_freq w d).getD 0 * s.idf ln w)).sum) := by
  unfold score
  rw [score_fold_closed]
  have hne : query.plus_words.filter (fun w => (s.posting_freq w d).isSome) ≠ [] ↔
      ∃ t ∈ query.plus_words, (s.posting_freq t d).isSome := by
    rw [ne_eq, List.filter_eq_nil_iff]
    push_neg
    simp
  have hany : query.minus_words.any (fun w => (s.posting_freq w d).isSome) = true ↔
      ¬ ∀ t ∈ query.minus_words, s.posting_freq t d = none := by
    rw [List.any_eq_true]
    push_neg
    constructor
    · rintro ⟨w, hw, hp⟩
      exact ⟨w, hw, fun hn => by rw [hn] at hp; cases hp⟩
    · rintro ⟨w, hw, hp⟩
      refine ⟨w, hw, ?_⟩
      cases hq : s.posting_freq w d with
      | none => exact absurd hq hp
      | some v => rfl
  by_cases hm : query.minus_words.any (fun w => (s.posting_freq w d).isSome) = true
  · rw [if_pos hm]
    have := hany.mp hm
    constructor
    · intro h; cases h
    · rintro ⟨-, -, h3, -⟩
      exact absurd h3 this
  · rw [if_neg hm]
    have hall : ∀ t ∈ query.minus_words, s.posting_freq t d = none := by
      by_contra hc
      exact hm (hany.mpr hc)
    by_cases hc : s.satisfies pred d = true ∧
        query.plus_words.filter (fun w => (s.posting_freq w d).isSome) ≠ []
    · rw [if_pos hc]
      simp only [Option.getD_none, zero_add, Option.some.injEq]
      constructor
      · intro h
        exact ⟨hc.1, hne.mp hc.2, hall, h.symm⟩
      · rintro ⟨-, -, -, h4⟩
        exact h4.symm
    · rw [if_neg hc]
      constructor
      · intro h; cases h
      · rintro ⟨h1, h2, -, -⟩
        exact absurd ⟨h1, hne.mpr h2⟩ hc

/-- The documents that `FindTopDocuments` returns come from the closed-form relevance map:
each has a score, which is its relevance, and carries the stored rating. -/
theorem FindTopDocuments_mem [LinearOrderedField K] (policy : ExecutionPolicy) (ln : K → K)
    (s : SearchServer K) (hinv : Inv s) (raw_query : List Char) (pred : DocumentPredicate)
    (docs : List (Document K))
    (h : FindTopDocuments policy ln s raw_query pred = .ok docs) (doc : Document K)
    (hdoc : doc ∈ docs) :
    ∃ query, FindTopDocuments.query policy s raw_query = .ok query ∧
      score ln s pred query doc.id = some doc.relevance ∧
      s.rating_of doc.id = some doc.rating := by
  obtain ⟨query, all, hq, -, -⟩ := (FindTopDocuments_ok_iff _ _ _ _ _ _).mp h
  rw [FindTopDocuments_eq policy ln s hinv raw_query pred query hq] at h
  simp only [Except.ok.injEq] at h
  subst h
  rw [FindTopDocuments.truncate_eq_take] at hdoc
  have h1 := List.mem_of_mem_take hdoc
  have h2 := (std_sort_perm _ _).mem_iff.mp h1
  obtain ⟨p, hp, rfl⟩ := List.mem_map.mp h2
  obtain ⟨hs, hf⟩ := hinv.relevance_map_spec ln pred query
  have hfind := OMap.find?_of_mem _ p.1 p.2 hs.nodup hp
  rw [hf] at hfind
  refine ⟨query, hq, hfind, ?_⟩
  have hsat := satisfies_of_score ln s pred query p.1 (by rw [hfind]; rfl)
  obtain ⟨data, hdata⟩ := Option.isSome_iff_exists.mp (isSome_of_satisfies s pred p.1 hsat)
  simp [document_of, rating_of, hdata]

end SearchServer

namespace SearchServer

variable {K : Type}

/-- The keys of the closed-form relevance map are the live ids that have a score. -/
theorem relevance_map_keys [LinearOrderedField K] (ln : K → K) (s : SearchServer K)
    (pred : DocumentPredicate) (query : Query) :
    (s.relevance_map ln pred query).map Prod.fst =
      s.document_ids_.filter (fun d => (score ln s pred query d).isSome) := by
  unfold relevance_map
  induction s.document_ids_ with
  | nil => rfl
  | cons a t ih =>
    cases hsc : score ln s pred query a with
    | none => simp [List.filterMap_cons, List.filter_cons, hsc, ih]
    | some r => simp [List.filterMap_cons, List.filter_cons, hsc, ih]

/-- In a store that satisfies the invariant the documents with a score are the documents that
match the query text. -/
theorem Inv.score_isSome_eq [LinearOrderedField K] {s : SearchServer K} (h : Inv s)
    (policy : ExecutionPolicy) (ln : K → K) (raw_query : List Char) (pred : DocumentPredicate)
    (query : Query) (hq : FindTopDocuments.query policy s raw_query = .ok query) (d : Int) :
    (score ln s pred query d).isSome = s.is_match raw_query pred d := by
  obtain ⟨hplus, hminus⟩ := FindTopDocuments.query_spec policy s raw_query query hq
  rw [Bool.eq_iff_iff, Option.isSome_iff_exists]
  simp only [score_eq_some, is_match, Bool.and_eq_true, Bool.not_eq_true', List.any_eq_true,
    List.any_eq_false, h.contains_iff]
  constructor
  · rintro ⟨r, h1, ⟨t, ht, hp⟩, h3, -⟩
    rw [hplus, mem_sort_unique] at ht
    refine ⟨⟨h1, t, ht, hp⟩, ?_⟩
    intro t' ht'
    rw [h3 t' ((hminus t').mpr ht')]
    simp
  · rintro ⟨⟨h1, t, ht, hp⟩, h3⟩
    refine ⟨_, h1, ⟨t, ?_, hp⟩, ?_, rfl⟩
    · rw [hplus, mem_sort_unique]
      exact ht
    · intro t' ht'
      have := h3 t' ((hminus t').mp ht')
      cases hpf : s.posting_freq t' d with
      | none => rfl
      | some v => rw [hpf] at this; simp at this

/-- A text that `ParseQuery` accepts gives `FindTopDocuments` a query. -/
theorem FindTopDocuments.query_of_parse [LinearOrderedField K] (policy : ExecutionPolicy)
    (s : SearchServer K) (raw_query : List Char) (parsed : Query)
    (h : s.ParseQuery policy raw_query = .ok parsed) :
    ∃ query, FindTopDocuments.query policy s raw_query = .ok query := by
  cases policy
  · exact ⟨parsed, h⟩
  · simp only [FindTopDocuments.query, h]
    exact ⟨_, rfl⟩

end SearchServer

namespace SearchServer

variable {K : Type}

/-- In a store that satisfies the invariant, for a query text that parses, `FindTopDocuments`
returns documents that match the text, each once: `min 5 n` of the `n` live documents that
match, hence all of them when `n ≤ 5`. -/
theorem FindTopDocuments_matches [LinearOrderedField K] (policy : ExecutionPolicy) (ln : K → K)
    (s : SearchServer K) (hinv : Inv s) (raw_query : List Char) (pred : DocumentPredicate)
    (parsed : Query) (hparse : s.ParseQuery policy raw_query = .ok parsed) :
    ∃ docs, FindTopDocuments policy ln s raw_query pred = .ok docs ∧
      docs.length = min 5 (s.document_ids_.filter (s.is_match raw_query pred)).length ∧
      (∀ d, d ∈ docs.map (fun doc => doc.id) →
        d ∈ s.document_ids_ ∧ s.is_match raw_query pred d = true) ∧
      (docs.map (fun doc => doc.id)).Nodup ∧
      ((s.document_ids_.filter (s.is_match raw_query pred)).length ≤ 5 →
        (docs.map (fun doc => doc.id)).Perm
          (s.document_ids_.filter (s.is_match raw_query pred))) := by
  obtain ⟨query, hq⟩ := FindTopDocuments.query_of_parse policy s raw_query parsed hparse
  have hkeys : (s.relevance_map ln pred query).map Prod.fst =
      s.document_ids_.filter (s.is_match raw_query pred) := by
    rw [relevance_map_keys]
    apply List.filter_congr
    intro d _
    exact hinv.score_isSome_eq policy ln raw_query pred query hq d
  have hperm : ((std_sort FindTopDocuments.comp
      ((s.relevance_map ln pred query).map s.document_of)).map (fun doc => doc.id)).Perm
      (s.document_ids_.filter (s.is_match raw_query pred)) := by
    rw [← hkeys]
    refine ((std_sort_perm _ _).map _).trans ?_
    rw [List.map_map]
    exact List.Perm.refl _
  have hnd : (s.document_ids_.filter (s.is_match raw_query pred)).Nodup :=
    List.Nodup.filter _ (List.Pairwise.imp (fun hab => ne_of_lt hab) hinv.ids_sorted)
  have hlen : (std_sort FindTopDocuments.comp
      ((s.relevance_map ln pred query).map s.document_of)).length =
      (s.document_ids_.filter (s.is_match raw_query pred)).length := by
    have := hperm.length_eq
    rwa [List.length_map] at this
  refine ⟨_, FindTopDocuments_eq policy ln s hinv raw_query pred query hq, ?_, ?_, ?_, ?_⟩
  · rw [FindTopDocuments.truncate_eq_take, List.length_take, hlen]
    omega
  · intro d hd
    rw [FindTopDocuments.truncate_eq_take, List.map_take] at hd
    have := hperm.mem_iff.mp (List.mem_of_mem_take hd)
    exact List.mem_filter.mp this
  · rw [FindTopDocuments.truncate_eq_take, List.map_take]
    exact (hperm.nodup_iff.mpr hnd).sublist (List.take_sublist _ _)
  · intro hfew
    rw [FindTopDocuments.truncate_eq_take, hlen, min_eq_right hfew, ← hlen, List.take_length]
    exact hperm

end SearchServer

/-! ## What `AddDocument` stores -/

namespace SearchServer

variable {K : Type}

/-- The loop of `SplitIntoWordsNoStop`, when it returns, has appended the tokens that are no
stop words, and every token was valid. -/
theorem SplitIntoWordsNoStop.loop_eq (s : SearchServer K) (tokens acc words : List Word)
    (h : SplitIntoWordsNoStop.loop s tokens acc = .ok words) :
    words = acc ++ tokens.filter (fun w => !s.IsStopWord w) ∧
      ∀ w ∈ tokens, IsValidWord w = true := by
  induction tokens generalizing acc with
  | nil =>
    simp only [SplitIntoWordsNoStop.loop, Except.ok.injEq] at h
    simp [h]
  | cons w rest ih =>
    unfold SplitIntoWordsNoStop.loop at h
    by_cases hv : IsValidWord w = true
    · simp only [hv, Bool.not_true, Bool.false_eq_true, if_false] at h
      by_cases hs : s.IsStopWord w = true
      · simp only [hs, Bool.not_true, Bool.false_eq_true, if_false] at h
        obtain ⟨h1, h2⟩ := ih acc h
        refine ⟨by simp [List.filter_cons, hs, h1], ?_⟩
        intro x hx
        rcases List.mem_cons.mp hx with rfl | hx
        · exact hv
        · exact h2 x hx
      · have hs' : s.IsStopWord w = false := by simpa using hs
        simp only [hs', Bool.not_false, if_true] at h
        obtain ⟨h1, h2⟩ := ih _ h
        refine ⟨by simp [List.filter_cons, hs', h1], ?_⟩
        intro x hx
        rcases List.mem_cons.mp hx with rfl | hx
        · exact hv
        · exact h2 x hx
    · have hv' : IsValidWord w = false := by simpa using hv
      simp [hv'] at h

/-- A call of `AddDocument` that returns normally had a fresh non-negative id and a text of
valid tokens, and leaves the store of the loop over the non-stop tokens, with the metadata
emplaced and the id inserted. -/
theorem AddDocument_ok [LinearOrderedField K] (s : SearchServer K) (id : Int)
    (text : List Char) (status : DocumentStatus) (ratings : List Int)
    (h : (s.AddDocument id text status ratings).1 = .ok ()) :
    0 ≤ id ∧ id ∉ s.document_ids_ ∧ (∀ w ∈ SplitIntoWords text, IsValidWord w = true) ∧
    (s.AddDocument id text status ratings).2 =
      { (s.non_stop_tokens text).foldl
          (AddDocument.step id (1 / ((s.non_stop_tokens text).length : K))) s with
        documents_ := emplace ((s.non_stop_tokens text).foldl
          (AddDocument.step id (1 / ((s.non_stop_tokens text).length : K))) s).documents_ id
            ⟨ComputeAverageRating ratings, status⟩,
        document_ids_ := OSet.insert id ((s.non_stop_tokens text).foldl
          (AddDocument.step id (1 / ((s.non_stop_tokens text).length : K))) s).document_ids_ } := by
  unfold AddDocument at h ⊢
  by_cases hid : id < 0 ∨ OSet.count s.document_ids_ id > 0
  · simp [hid] at h
  · rw [if_neg hid] at h ⊢
    cases hw : s.SplitIntoWordsNoStop text with
    | error e => rw [hw] at h; simp at h
    | ok words =>
      obtain ⟨hwords, hvalid⟩ := SplitIntoWordsNoStop.loop_eq s _ [] words hw
      simp only [List.nil_append] at hwords
      have hwords' : words = s.non_stop_tokens text := hwords
      subst hwords'
      rw [OSet_count_pos_iff] at hid
      push_neg at hid
      exact ⟨hid.1, hid.2, hvalid, rfl⟩

/-- The forward frequencies after the loop of `AddDocument` over the words `ws`: a word of
`ws` has gained its number of occurrences times `inv` in the new document. -/
theorem AddDocument.loop_forward_freq [LinearOrderedField K] (id : Int) (inv : K)
    (ws : List Word) (s : SearchServer K) (d : Int) (t : Word) :
    (ws.foldl (AddDocument.step id inv) s).forward_freq d t =
      if d = id ∧ t ∈ ws then some ((s.forward_freq id t).getD 0 + (ws.count t : K) * inv)
      else s.forward_freq d t := by
  induction ws generalizing s with
  | nil => simp
  | cons w rest ih =>
    simp only [List.foldl_cons]
    rw [ih, AddDocument.step_forward_freq_add, AddDocument.step_forward_freq_add]
    by_cases hd : d = id
    · subst hd
      by_cases htw : t = w
      · subst htw
        by_cases htr : t ∈ rest
        · simp only [htr, and_self, if_true, true_and, Option.getD_some, List.mem_cons,
            true_or, List.count_cons_self, Nat.cast_add, Nat.cast_one]
          congr 1
          ring
        · simp only [htr, and_false, if_false, and_self, if_true, List.mem_cons, true_or,
            List.count_cons_self, List.count_eq_zero_of_not_mem htr, Nat.cast_add,
            Nat.cast_zero, Nat.cast_one, zero_add, one_mul]
      · have hwt : ¬ w = t := fun h => htw h.symm
        simp [htw, hwt, List.count_cons]
    · simp [hd]

/-- In a store that satisfies the invariant a document outside the live id set has neither
metadata nor a forward entry. -/
theorem Inv.fresh {s : SearchServer K} (h : Inv s) (id : Int) (hid : id ∉ s.document_ids_) :
    s.documents_.find? id = none ∧ s.document_to_word_freqs_.find? id = none := by
  have h1 : s.documents_.find? id = none := by
    cases hf : s.documents_.find? id with
    | none => rfl
    | some data => exact absurd (h.data_is_live id (by rw [hf]; rfl)) hid
  refine ⟨h1, ?_⟩
  cases hf : s.document_to_word_freqs_.find? id with
  | none => rfl
  | some m =>
    have := h.forward_has_data id (by rw [hf]; rfl)
    rw [h1] at this
    cases this

/-- The word frequencies of the new document after a call of `AddDocument` that returns
normally in a store that satisfies the invariant. -/
theorem AddDocument_find? [LinearOrderedField K] (s : SearchServer K) (hinv : Inv s)
    (id : Int) (text : List Char) (status : DocumentStatus) (ratings : List Int)
    (h : (s.AddDocument id text status ratings).1 = .ok ()) (t : Word) :
    ((s.AddDocument id text status ratings).2.GetWordFrequencies id).find? t =
      if t ∈ s.non_stop_tokens text then
        some (((s.non_stop_tokens text).count t : K) / ((s.non_stop_tokens text).length : K))
      else none := by
  obtain ⟨-, hfresh, -, hstate⟩ := AddDocument_ok s id text status ratings h
  rw [GetWordFrequencies_find?, hstate]
  have hff : ∀ (s1 : SearchServer K) (docs : OMap Int DocumentData) (ids : OSet Int),
      ({ s1 with documents_ := docs, document_ids_ := ids } : SearchServer K).forward_freq id t
        = s1.forward_freq id t := fun _ _ _ => rfl
  rw [hff, AddDocument.loop_forward_freq]
  have hnone : s.forward_freq id t = none := by
    simp [forward_freq, OMap.get2, (hinv.fresh id hfresh).2]
  rw [hnone]
  by_cases ht : t ∈ s.non_stop_tokens text
  · simp only [ht, and_self, if_true, Option.getD_none, zero_add, Option.some.injEq]
    rw [mul_one_div]
  · simp [ht]

end SearchServer

/-! ## The frequencies of a document sum to one -/

namespace OMap

variable {K V : Type}

/-- Adding `x` to the slot of `k` in a map with ascending keys adds `x` to the sum of the
values. -/
theorem sum_upsert_add [DecidableEq K] [LinearOrder K] [AddCommMonoid V] (m : OMap K V)
    (h : Sorted m) (k : K) (x : V) :
    ((m.upsert k 0 (fun v => v + x)).map Prod.snd).sum = (m.map Prod.snd).sum + x := by
  unfold upsert
  induction m with
  | nil => simp [insert, find?]
  | cons p t ih =>
    obtain ⟨k₀, v₀⟩ := p
    unfold Sorted at h ih
    simp only [List.map_cons, List.pairwise_cons] at h
    unfold insert
    by_cases h1 : k < k₀
    · have hne : k ≠ k₀ := ne_of_lt h1
      have hnone : find? t k = none := by
        rw [find?_eq_none_iff]
        intro hm
        exact absurd (h.1 k hm) (not_lt.mpr (le_of_lt h1))
      simp only [h1, if_true, find?, hne, if_false, hnone, Option.getD_none, zero_add,
        List.map_cons, List.sum_cons]
      rw [add_comm]
    · by_cases h2 : k = k₀
      · subst h2
        simp only [lt_self_iff_false, if_false, if_true, find?, Option.getD_some,
          List.map_cons, List.sum_cons]
        rw [add_right_comm]
      · simp only [h1, h2, if_false, find?, List.map_cons, List.sum_cons]
        rw [ih h.2, add_assoc]

end OMap

namespace SearchServer

variable {K : Type}

/-- The forward entry of document `id`, empty when absent. -/
theorem AddDocument.step_entry [LinearOrderedField K] (id : Int) (inv : K)
    (s : SearchServer K) (word : Word) (d : Int) :
    (AddDocument.step id inv s word).document_to_word_freqs_.find? d =
      if d = id then
        some (((s.document_to_word_freqs_.find? id).getD []).upsert word 0 (fun x => x + inv))
      else s.document_to_word_freqs_.find? d := by
  simp only [AddDocument.step, OMap.find?_upsert]

/-- The loop of `AddDocument` over `ws` touches the forward entry of the new document only; the
entry keeps ascending keys and the sum of its frequencies grows by `inv` per word. -/
theorem AddDocument.loop_entry [LinearOrderedField K] (id : Int) (inv : K) (ws : List Word)
    (s : SearchServer K)
    (hsorted : OMap.Sorted ((s.document_to_word_freqs_.find? id).getD [])) :
    (∀ d, d ≠ id → (ws.foldl (AddDocument.step id inv) s).document_to_word_freqs_.find? d
      = s.document_to_word_freqs_.find? d) ∧
    ((((ws.foldl (AddDocument.step id inv) s).document_to_word_freqs_.find? id).getD []).map
      Prod.snd).sum =
      (((s.document_to_word_freqs_.find? id).getD []).map Prod.snd).sum + (ws.length : K) * inv ∧
    (ws = [] → (ws.foldl (AddDocument.step id inv) s).document_to_word_freqs_.find? id
      = s.document_to_word_freqs_.find? id) := by
  induction ws generalizing s with
  | nil => simp
  | cons w rest ih =>
    simp only [List.foldl_cons]
    have hstep := AddDocument.step_entry id inv s w
    have hsorted' : OMap.Sorted
        (((AddDocument.step id inv s w).document_to_word_freqs_.find? id).getD []) := by
      rw [hstep id, if_pos rfl]
      simp only [Option.getD_some]
      exact OMap.Sorted.upsert hsorted _ _ _
    obtain ⟨h1, h2, -⟩ := ih (AddDocument.step id inv s w) hsorted'
    refine ⟨?_, ?_, ?_⟩
    · intro d hd
      rw [h1 d hd, hstep d, if_neg hd]
    · rw [h2, hstep id, if_pos rfl]
      simp only [Option.getD_some]
      rw [OMap.sum_upsert_add _ hsorted]
      simp only [List.length_cons, Nat.cast_add, Nat.cast_one]
      ring
    · intro hnil
      cases hnil

/-- The member `AddDocument` keeps the sums of the frequencies at one, in a store that
satisfies the invariant. -/
theorem AddDocument_freq [LinearOrderedField K] (s : SearchServer K) (hinv : Inv s)
    (hfreq : FreqInv s) (id : Int) (text : List Char) (status : DocumentStatus)
    (ratings : List Int) : FreqInv (s.AddDocument id text status ratings).2 := by
  cases hres : (s.AddDocument id text status ratings).1 with
  | error e =>
    have : (s.AddDocument id text status ratings).2 = s := by
      unfold AddDocument at hres ⊢
      split
      · rfl
      · rename_i hid
        rw [if_neg hid] at hres
        cases hw : s.SplitIntoWordsNoStop text with
        | error e' => rfl
        | ok words => rw [hw] at hres; simp at hres
    rw [this]
    exact hfreq
  | ok u =>
    obtain ⟨-, hfresh, -, hstate⟩ := AddDocument_ok s id text status ratings hres
    have hnone := (hinv.fresh id hfresh).2
    have hsorted : OMap.Sorted ((s.document_to_word_freqs_.find? id).getD []) := by
      rw [hnone]
      exact OMap.Sorted.nil
    obtain ⟨h1, h2, h3⟩ := AddDocument.loop_entry id
      (1 / ((s.non_stop_tokens text).length : K)) (s.non_stop_tokens text) s hsorted
    intro d m hm
    rw [hstate] at hm
    simp only at hm
    by_cases hd : d = id
    · subst hd
      by_cases hnil : s.non_stop_tokens text = []
      · rw [h3 hnil, hnone] at hm
        cases hm
      · rw [hm, hnone] at h2
        simp only [Option.getD_some, Option.getD_none, List.map_nil, List.sum_nil, zero_add]
          at h2
        rw [h2]
        have hlen : ((s.non_stop_tokens text).length : K) ≠ 0 := by
          rw [Nat.cast_ne_zero]
          exact fun h0 => hnil (List.length_eq_zero.mp h0)
        field_simp
    · rw [h1 d hd] at hm
      exact hfreq d m hm

/-- The forward entries after `RemoveDocument` are entries of the store before. -/
theorem RemoveDocument_forward_sub (policy : ExecutionPolicy) (s : SearchServer K) (id d : Int)
    (m : OMap Word K)
    (h : (RemoveDocument policy s id).2.document_to_word_freqs_.find? d = some m) :
    s.document_to_word_freqs_.find? d = some m := by
  have key : ∀ (ws : List Word),
      (OMap.erase id (ws.foldl (RemoveDocument.step id)
        { s with documents_ := s.documents_.erase id }).document_to_word_freqs_).find? d
        = some m → s.document_to_word_freqs_.find? d = some m := by
    intro ws hm
    rw [(RemoveDocument.loop_effect id ws _).1, OMap.find?_erase] at hm
    split at hm
    · cases hm
    · exact hm
  cases policy
  · simp only [RemoveDocument, RemoveDocument_seq] at h
    split at h
    · exact h
    · simp only [OMap.at] at h
      cases hf : s.document_to_word_freqs_.find? id with
      | none => rw [hf] at h; exact h
      | some word_freq =>
        rw [hf] at h
        simp only at h
        rw [← List.foldl_map] at h
        exact key _ h
  · simp only [RemoveDocument, RemoveDocument_par] at h
    split at h
    · exact h
    · simp only [OMap.at] at h
      cases hf : s.document_to_word_freqs_.find? id with
      | none => rw [hf] at h; exact h
      | some word_freq =>
        rw [hf] at h
        exact key _ h

end SearchServer

/-- In every reachable store the frequencies of every forward entry sum to one. -/
theorem Reachable.freq {K : Type} [LinearOrderedField K] {s : SearchServer K}
    (h : Reachable s) : SearchServer.FreqInv s := by
  induction h with
  | init stop_words s h =>
    unfold SearchServer.ofContainer at h
    simp only at h
    split at h
    · cases h
    · cases h
      intro d m hm
      simp [OMap.find?] at hm
  | add s id document status ratings hs ih =>
    exact SearchServer.AddDocument_freq s hs.inv ih id document status ratings
  | remove policy s id _ ih =>
    intro d m hm
    exact ih d m (SearchServer.RemoveDocument_forward_sub policy s id d m hm)

/-- Claim C12. In every reachable store, for every live document the term frequencies of its
word-frequency map (its entry in the forward map `document_to_word_freqs_`) sum to exactly 1,
or the document has no terms at all (it has no entry). -/
theorem C12_frequencies_sum_to_one {K : Type} [LinearOrderedField K] (s : SearchServer K)
    (h : Reachable s) (d : Int) (_hd : d ∈ s.document_ids_) :
    (∃ m, s.document_to_word_freqs_.find? d = some m ∧ m ≠ [] ∧ (m.map Prod.snd).sum = 1) ∨
      s.document_to_word_freqs_.find? d = none := by
  cases hf : s.document_to_word_freqs_.find? d with
  | none => right; rfl
  | some m =>
    left
    have hsum := h.freq d m hf
    refine ⟨m, rfl, ?_, hsum⟩
    intro hm
    rw [hm] at hsum
    simp at hsum

/-- Witness of C12: document 4 ("cat cat dog") of the six sample documents. -/
theorem C12_frequencies_sum_to_one_witness :
    Reachable Sample.six ∧ (4 : Int) ∈ Sample.six.document_ids_ ∧
    Sample.six.document_to_word_freqs_.find? 4 =
      some [("cat".toList, 2 / 3), ("dog".toList, 1 / 3)] ∧
    ((∃ m, Sample.six.document_to_word_freqs_.find? 4 = some m ∧ m ≠ [] ∧
        (m.map Prod.snd).sum = 1) ∨
      Sample.six.document_to_word_freqs_.find? 4 = none) :=
  ⟨Sample.six_reachable, by decide!, by decide!,
    C12_frequencies_sum_to_one Sample.six Sample.six_reachable 4 (by decide!)⟩

/-! ## When a query text parses -/

/-- After `dropWhile` the first element, if any, fails the test. -/
theorem head?_dropWhile_not {α : Type} (p : α → Bool) (l : List α) (a : α)
    (h : (l.dropWhile p).head? = some a) : p a = false := by
  induction l with
  | nil => simp at h
  | cons b t ih =>
    by_cases hb : p b = true
    · rw [List.dropWhile_cons_of_pos hb] at h
      exact ih h
    · rw [List.dropWhile_cons_of_neg hb] at h
      simp only [List.head?_cons, Option.some.injEq] at h
      subst h
      simpa using hb

/-- The loop of `SplitIntoWords`, entered with a text that has no leading space, cuts only
non-empty tokens. -/
theorem SplitIntoWords.loop_nonempty (fuel : Nat) (text : List Char)
    (h : text.head? ≠ some ' ') : ∀ w ∈ SplitIntoWords.loop fuel text, w ≠ [] := by
  induction fuel generalizing text with
  | zero => intro w hw; simp [SplitIntoWords.loop] at hw
  | succ n ih =>
    intro w hw
    unfold SplitIntoWords.loop at hw
    cases text with
    | nil => simp at hw
    | cons c rest =>
      simp only [List.isEmpty_cons, Bool.false_eq_true, if_false, List.mem_cons] at hw
      have hc : c ≠ ' ' := by
        intro hc
        apply h
        rw [hc]
        rfl
      rcases hw with rfl | hw
      · simp [List.takeWhile_cons, hc]
      · refine ih _ ?_ w hw
        intro hhead
        have := head?_dropWhile_not _ _ _ hhead
        simp at this

/-- The tokens of `SplitIntoWords` are non-empty. -/
theorem SplitIntoWords_nonempty (text : List Char) : ∀ w ∈ SplitIntoWords text, w ≠ [] := by
  unfold SplitIntoWords
  apply SplitIntoWords.loop_nonempty
  intro hhead
  have := head?_dropWhile_not _ _ _ hhead
  simp at this

namespace SearchServer

variable {K : Type}

/-- A word is valid exactly when it has no character with a code below 32. -/
theorem IsValidWord_eq_any (word : Word) :
    IsValidWord word = !(word.any (fun c => decide (c.toNat < 32))) := by
  unfold IsValidWord
  congr 2
  funext c
  simp

/-- The member `ParseQueryWord` on a non-empty token: it throws on a malformed token and
otherwise returns the word of the token, whether the token starts with `-`, and whether the
word is a stop word. -/
theorem ParseQueryWord_eq (s : SearchServer K) (token : Word) (hne : token ≠ []) :
    s.ParseQueryWord token =
      if malformed token = true then
        .error (.invalid_argument
          ("Query word ".toList ++ query_word token ++ " is invalid".toList))
      else .ok ⟨query_word token, decide (token.head? = some '-'),
        s.IsStopWord (query_word token)⟩ := by
  cases token with
  | nil => exact absurd rfl hne
  | cons c rest =>
    have hcond : ((query_word (c :: rest)).isEmpty ||
        decide ((query_word (c :: rest)).head? = some '-') ||
        !IsValidWord (query_word (c :: rest))) = malformed (c :: rest) := by
      unfold malformed
      rw [IsValidWord_eq_any, Bool.not_not]
      congr 1
      unfold query_word
      by_cases hc : c = '-'
      · subst hc
        cases rest with
        | nil => rfl
        | cons c2 rest2 =>
          by_cases hc2 : c2 = '-' <;> simp [hc2]
      · cases rest with
        | nil => simp [hc]
        | cons c2 rest2 => simp [hc]
    have hqw : (if decide ((c :: rest).head? = some '-') = true then List.drop 1 (c :: rest)
        else c :: rest) = query_word (c :: rest) := by
      unfold query_word
      by_cases h : (c :: rest).head? = some '-' <;> simp [h]
    unfold ParseQueryWord
    simp only [List.isEmpty_cons, Bool.false_eq_true, if_false, hqw]
    rw [← hcond]

/-- On a non-empty token `ParseQueryWord` throws exactly when the token is malformed. -/
theorem ParseQueryWord_error_iff (s : SearchServer K) (token : Word) (hne : token ≠ []) :
    (∃ e, s.ParseQueryWord token = .error e) ↔ malformed token = true := by
  rw [ParseQueryWord_eq s token hne]
  by_cases hm : malformed token = true <;> simp [hm]

/-- The loop of `ParseQuery` returns exactly when `ParseQueryWord` returns on every token. -/
theorem ParseQuery.loop_ok_iff (s : SearchServer K) (tokens : List Word) (acc : Query) :
    (∃ query, ParseQuery.loop s tokens acc = .ok query) ↔
      ∀ w ∈ tokens, ∃ qw, s.ParseQueryWord w = .ok qw := by
  induction tokens generalizing acc with
  | nil => simp [ParseQuery.loop]
  | cons w rest ih =>
    unfold ParseQuery.loop
    cases hq : s.ParseQueryWord w with
    | error e => simp [hq]
    | ok qw =>
      simp only [List.mem_cons, forall_eq_or_imp, hq, Except.ok.injEq, exists_eq', true_and]
      split
      · split
        · exact ih _
        · exact ih _
      · exact ih _

/-- An outcome is an error exactly when it is no value. -/
theorem Except_error_iff_not_ok {ε α : Type} (x : Except ε α) :
    (∃ e, x = .error e) ↔ ¬ ∃ a, x = .ok a := by
  cases x <;> simp

/-- The loop of `ParseQuery` on the tokens of a text returns exactly when no token is
malformed. -/
theorem ParseQuery.loop_ok_iff_wellformed (s : SearchServer K) (raw_query : List Char)
    (acc : Query) :
    (∃ query, ParseQuery.loop s (SplitIntoWords raw_query) acc = .ok query) ↔
      ∀ w ∈ SplitIntoWords raw_query, malformed w = false := by
  rw [ParseQuery.loop_ok_iff]
  constructor
  · intro h w hw
    obtain ⟨qw, hqw⟩ := h w hw
    by_contra hm
    have hm' : malformed w = true := by simpa using hm
    obtain ⟨e, he⟩ :=
      (ParseQueryWord_error_iff s w (SplitIntoWords_nonempty raw_query w hw)).mpr hm'
    rw [he] at hqw
    cases hqw
  · intro h w hw
    have hne := SplitIntoWords_nonempty raw_query w hw
    by_contra hno
    have herr : ∃ e, s.ParseQueryWord w = .error e :=
      (Except_error_iff_not_ok _).mpr hno
    have := (ParseQueryWord_error_iff s w hne).mp herr
    rw [h w hw] at this
    cases this

/-- The member `ParseQuery` returns, under either policy, exactly when its loop returns. -/
theorem ParseQuery_ok_iff_loop (policy : ExecutionPolicy) (s : SearchServer K)
    (raw_query : List Char) :
    (∃ query, s.ParseQuery policy raw_query = .ok query) ↔
      ∃ query, ParseQuery.loop s (SplitIntoWords raw_query) ⟨[], []⟩ = .ok query := by
  cases policy
  · simp only [ParseQuery, ParseQuery_seq]
    cases ParseQuery.loop s (SplitIntoWords raw_query) ⟨[], []⟩ <;> simp
  · simp only [ParseQuery, ParseQuery_par]

end SearchServer

/-- Claim C16. Under either policy `ParseQuery` throws exactly when the text has a malformed
token (one that is exactly `-`, or starts with `--`, or whose word, the token without one
leading `-`, has a character with code 0..31) and returns a query on every other text; the
tokens of `SplitIntoWords` are never empty, so the empty-token test of `ParseQueryWord` never
holds on them. -/
theorem C16_ParseQuery_fails_iff_malformed {K : Type} (policy : ExecutionPolicy)
    (s : SearchServer K) (raw_query : List Char) :
    ((∃ e, s.ParseQuery policy raw_query = .error e) ↔
      ∃ w ∈ SplitIntoWords raw_query, SearchServer.malformed w = true) ∧
    ((∃ query, s.ParseQuery policy raw_query = .ok query) ↔
      ∀ w ∈ SplitIntoWords raw_query, SearchServer.malformed w = false) ∧
    (∀ w ∈ SplitIntoWords raw_query, w.isEmpty = false) ∧
    (∀ w, SearchServer.malformed w = true ↔
      (w = ['-'] ∨ (∃ rest, w = '-' :: '-' :: rest) ∨
        ∃ c ∈ (if w.head? = some '-' then w.drop 1 else w), c.toNat < 32)) := by
  have hok : (∃ query, s.ParseQuery policy raw_query = .ok query) ↔
      ∀ w ∈ SplitIntoWords raw_query, SearchServer.malformed w = false := by
    rw [SearchServer.ParseQuery_ok_iff_loop]
    exact SearchServer.ParseQuery.loop_ok_iff_wellformed s raw_query _
  refine ⟨?_, hok, ?_, ?_⟩
  · rw [SearchServer.Except_error_iff_not_ok, hok]
    push_neg
    constructor
    · rintro ⟨w, hw, hm⟩
      exact ⟨w, hw, by simpa using hm⟩
    · rintro ⟨w, hw, hm⟩
      exact ⟨w, hw, by simp [hm]⟩
  · intro w hw
    have := SplitIntoWords_nonempty raw_query w hw
    cases w with
    | nil => exact absurd rfl this
    | cons c rest => rfl
  · intro w
    unfold SearchServer.malformed SearchServer.query_word
    simp only [Bool.or_eq_true, decide_eq_true_eq, List.any_eq_true]
    constructor
    · rintro ((h | h) | h)
      · exact Or.inl h
      · right; left
        match w, h with
        | c1 :: c2 :: rest, h =>
          simp only [List.take_succ_cons, List.take_zero, List.cons.injEq, and_true] at h
          exact ⟨rest, by rw [h.1, h.2]⟩
      · exact Or.inr (Or.inr h)
    · rintro (h | ⟨rest, h⟩ | h)
      · exact Or.inl (Or.inl h)
      · left; right
        rw [h]
        rfl
      · exact Or.inr h

/-! ## The lists of a parsed query -/

namespace SearchServer

variable {K : Type}

/-- The sequential `ParseQuery` returns the sorted distinct plus terms and the sorted distinct
minus terms of the text. -/
theorem ParseQuery_seq_eq (s : SearchServer K) (raw_query : List Char) (query : Query)
    (h : s.ParseQuery .seq raw_query = .ok query) :
    query.plus_words = std_unique (std_sort word_less (s.plus_terms raw_query)) ∧
    query.minus_words = std_unique (std_sort word_less (s.minus_terms raw_query)) := by
  simp only [ParseQuery, ParseQuery_seq] at h
  cases hl : ParseQuery.loop s (SplitIntoWords raw_query) ⟨[], []⟩ with
  | error e => rw [hl] at h; cases h
  | ok result =>
    rw [hl] at h
    simp only [Except.ok.injEq] at h
    subst h
    obtain ⟨h1, h2⟩ := ParseQuery.loop_terms s _ _ _ hl
    simp only [List.nil_append] at h1 h2
    exact ⟨by simp only; rw [h1]; rfl, by simp only; rw [h2]; rfl⟩

/-- The parallel `ParseQuery` returns the plus terms and the minus terms of the text as they
come. -/
theorem ParseQuery_par_eq (s : SearchServer K) (raw_query : List Char) (query : Query)
    (h : s.ParseQuery .par raw_query = .ok query) :
    query.plus_words = s.plus_terms raw_query ∧
    query.minus_words = s.minus_terms raw_query := by
  simp only [ParseQuery, ParseQuery_par] at h
  obtain ⟨h1, h2⟩ := ParseQuery.loop_terms s _ _ _ h
  simp only [List.nil_append] at h1 h2
  exact ⟨h1, h2⟩

/-- The plus terms of a text: the tokens that do not start with `-` and are no stop words. -/
theorem mem_plus_terms (s : SearchServer K) (raw_query : List Char) (t : Word) :
    t ∈ s.plus_terms raw_query ↔
      (t ∈ SplitIntoWords raw_query ∧ t.head? ≠ some '-' ∧ s.IsStopWord t = false) := by
  unfold plus_terms
  simp [List.mem_filter]

/-- The minus terms of a text: the rest of the tokens that start with `-`, when it is no stop
word. -/
theorem mem_minus_terms (s : SearchServer K) (raw_query : List Char) (t : Word) :
    t ∈ s.minus_terms raw_query ↔
      ∃ w ∈ SplitIntoWords raw_query, w.head? = some '-' ∧ t = w.drop 1 ∧
        s.IsStopWord t = false := by
  unfold minus_terms
  simp only [List.mem_filter, List.mem_map, decide_eq_true_eq, Bool.not_eq_true']
  constructor
  · rintro ⟨⟨w, ⟨hw, hh⟩, rfl⟩, hs⟩
    exact ⟨w, hw, hh, rfl, hs⟩
  · rintro ⟨w, hw, hh, rfl, hs⟩
    exact ⟨⟨w, ⟨hw, hh⟩, rfl⟩, hs⟩

end SearchServer

/-- Claim C18. For every query text that parses, the sequential `ParseQuery` returns a list
of plus words and a list of minus words that are strictly increasing; the plus words are
exactly the tokens that do not start with `-` and are no stop words, the minus words exactly
the rests, when no stop words, of the tokens that start with `-`. -/
theorem C18_ParseQuery_seq_sorted_unique {K : Type} (s : SearchServer K)
    (raw_query : List Char) (query : Query)
    (h : s.ParseQuery .seq raw_query = .ok query) :
    query.plus_words.Pairwise (fun a b => a < b) ∧
    query.minus_words.Pairwise (fun a b => a < b) ∧
    (∀ t, t ∈ query.plus_words ↔
      (t ∈ SplitIntoWords raw_query ∧ t.head? ≠ some '-' ∧ s.IsStopWord t = false)) ∧
    (∀ t, t ∈ query.minus_words ↔
      ∃ w ∈ SplitIntoWords raw_query, w.head? = some '-' ∧ t = w.drop 1 ∧
        s.IsStopWord t = false) := by
  obtain ⟨a1, a2⟩ := SearchServer.ParseQuery_seq_eq s raw_query query h
  rw [a1, a2]
  refine ⟨SearchServer.sort_unique_pairwise _, SearchServer.sort_unique_pairwise _, ?_, ?_⟩
  · intro t
    rw [SearchServer.mem_sort_unique, SearchServer.mem_plus_terms]
  · intro t
    rw [SearchServer.mem_sort_unique, SearchServer.mem_minus_terms]

/-! ## Documents without terms -/

namespace SearchServer

variable {K : Type}

/-- The loop of `AddDocument` leaves the stop words alone. -/
theorem AddDocument.loop_stop_words [LinearOrderedField K] (id : Int) (inv : K)
    (words : List Word) (s : SearchServer K) :
    (words.foldl (AddDocument.step id inv) s).stop_words_ = s.stop_words_ := by
  induction words generalizing s with
  | nil => rfl
  | cons w rest ih =>
    simp only [List.foldl_cons]
    rw [ih]
    rfl

/-- The member `AddDocument` leaves the stop words alone. -/
theorem AddDocument_stop_words [LinearOrderedField K] (s : SearchServer K) (id : Int)
    (text : List Char) (status : DocumentStatus) (ratings : List Int) :
    (s.AddDocument id text status ratings).2.stop_words_ = s.stop_words_ := by
  unfold AddDocument
  split
  · rfl
  · split
    · rfl
    · exact AddDocument.loop_stop_words _ _ _ s

/-- The member `RemoveDocument` leaves the stop words alone. -/
theorem RemoveDocument_stop_words [LinearOrderedField K] (policy : ExecutionPolicy)
    (s : SearchServer K) (id : Int) :
    (RemoveDocument policy s id).2.stop_words_ = s.stop_words_ := by
  cases policy
  · simp only [RemoveDocument, RemoveDocument_seq]
    split
    · rfl
    · split
      · rfl
      · simp only
        rw [← List.foldl_map]
        exact (RemoveDocument.loop_effect id _ _).2.2.2.1
  · simp only [RemoveDocument, RemoveDocument_par]
    split
    · rfl
    · split
      · rfl
      · exact (RemoveDocument.loop_effect id _ _).2.2.2.1

/-- A word is a stop word exactly when it is in the stop-word set. -/
theorem IsStopWord_iff (s : SearchServer K) (w : Word) :
    s.IsStopWord w = true ↔ w ∈ s.stop_words_ := by
  unfold IsStopWord OSet.count
  split <;> simp_all

/-- On tokens that are all valid stop words the loop of `SplitIntoWordsNoStop` keeps what it
has. -/
theorem SplitIntoWordsNoStop.loop_all_stop (s : SearchServer K) (tokens acc : List Word)
    (hvalid : ∀ w ∈ s.stop_words_, IsValidWord w = true)
    (hstop : ∀ w ∈ tokens, s.IsStopWord w = true) :
    SplitIntoWordsNoStop.loop s tokens acc = .ok acc := by
  induction tokens with
  | nil => rfl
  | cons w rest ih =>
    have hw := hstop w (List.mem_cons_self _ _)
    have hv := hvalid w ((IsStopWord_iff s w).mp hw)
    unfold SplitIntoWordsNoStop.loop
    simp only [hv, hw, Bool.not_true, Bool.false_eq_true, if_false]
    exact ih (fun w' hw' => hstop w' (List.mem_cons_of_mem _ hw'))

/-- The call of `AddDocument` with a new id on a text of stop words only: it returns normally
and stores only the metadata and the id. -/
theorem AddDocument_all_stop [LinearOrderedField K] (s : SearchServer K) (id : Int)
    (text : List Char) (status : DocumentStatus) (ratings : List Int)
    (hvalid : ∀ w ∈ s.stop_words_, IsValidWord w = true) (hid : 0 ≤ id)
    (hnew : id ∉ s.document_ids_) (hstop : ∀ w ∈ SplitIntoWords text, s.IsStopWord w = true) :
    s.AddDocument id text status ratings =
      (.ok (), { s with
        documents_ := emplace s.documents_ id ⟨ComputeAverageRating ratings, status⟩,
        document_ids_ := OSet.insert id s.document_ids_ }) := by
  have hcond : ¬ (id < 0 ∨ OSet.count s.document_ids_ id > 0) := by
    rw [OSet_count_pos_iff]
    rintro (h | h)
    · omega
    · exact hnew h
  unfold AddDocument
  rw [if_neg hcond]
  unfold SplitIntoWordsNoStop
  rw [SplitIntoWordsNoStop.loop_all_stop s _ [] hvalid hstop]
  rfl

end SearchServer

/-- In every reachable store the stop words are valid words. -/
theorem Reachable.stop_words_valid {K : Type} [LinearOrderedField K] {s : SearchServer K}
    (h : Reachable s) : ∀ w ∈ s.stop_words_, SearchServer.IsValidWord w = true := by
  induction h with
  | init stop_words s h =>
    unfold SearchServer.ofContainer at h
    simp only at h
    split at h
    · cases h
    · rename_i hall
      cases h
      simp only [Bool.not_eq_true', Bool.not_eq_false] at hall
      exact fun w hw => List.all_eq_true.mp (by simpa using hall) w hw
  | add s id document status ratings _ ih =>
    rw [SearchServer.AddDocument_stop_words]
    exact ih
  | remove policy s id _ ih =>
    rw [SearchServer.RemoveDocument_stop_words]
    exact ih

/-! ## `MatchDocument` in closed form -/

namespace SearchServer

variable {K : Type}

/-- The test of `MatchDocument` on a word holds exactly when the postings of the word have the
document. -/
theorem MatchDocument.hit_eq [LinearOrderedField K] (s : SearchServer K) (id : Int) (w : Word) :
    MatchDocument.hit s id w = (s.posting_freq w id).isSome := by
  unfold MatchDocument.hit posting_freq OMap.get2 OMap.count
  cases h : s.word_to_document_freqs_.find? w with
  | none => simp
  | some freqs => cases h2 : freqs.find? id <;> simp [h2]

/-- Sorting distinct words with `operator<` gives a strictly ascending list. -/
theorem sort_pairwise_of_nodup (l : List Word) (h : l.Nodup) :
    (std_sort word_less l).Pairwise (fun a b => a < b) := by
  have hchain : List.Chain' (fun a b : Word => a ≤ b) (std_sort word_less l) := by
    refine List.Chain'.imp ?_ (std_sort_chain word_less ?_ l)
    · intro a b hba
      simpa [word_less] using hba
    · intro a b hab
      simp only [word_less, decide_eq_true_eq, decide_eq_false_iff_not] at hab ⊢
      exact lt_asymm hab
  have hle : (std_sort word_less l).Pairwise (fun a b => a ≤ b) :=
    List.chain'_iff_pairwise.mp hchain
  have hne : (std_sort word_less l).Nodup := (std_sort_perm word_less l).nodup_iff.mpr h
  exact List.Pairwise.imp (fun hab => lt_of_le_of_ne hab.1 hab.2) (hle.and hne)

/-- The result of `MatchDocument` for a query text that parses: the lookup of the metadata
decides between a result and `std::out_of_range`. -/
theorem MatchDocument_of_parse [LinearOrderedField K] (policy : ExecutionPolicy)
    (s : SearchServer K) (raw_query : List Char) (id : Int) (query : Query)
    (h : s.ParseQuery policy raw_query = .ok query) :
    MatchDocument policy s raw_query id =
      match s.documents_.find? id with
      | none => .error .out_of_range
      | some data =>
        .ok (if query.minus_words.any (fun w => (s.posting_freq w id).isSome) then []
          else match policy with
            | .seq => std_sort word_less
                (query.plus_words.filter (fun w => (s.posting_freq w id).isSome))
            | .par => std_unique (std_sort word_less
                (query.plus_words.filter (fun w => (s.posting_freq w id).isSome))),
          data.status) := by
  have hhit : MatchDocument.hit s id = fun w => (s.posting_freq w id).isSome :=
    funext (MatchDocument.hit_eq s id)
  cases policy
  · simp only [MatchDocument, MatchDocument_seq, h, hhit, OMap.at]
    cases s.documents_.find? id with
    | none => split <;> rfl
    | some data => split <;> rfl
  · simp only [MatchDocument, MatchDocument_par, h, hhit, OMap.at]
    cases s.documents_.find? id with
    | none => split <;> rfl
    | some data => split <;> rfl

/-- For a query text that parses, `MatchDocument` fails exactly on an id without metadata, and
then with `std::out_of_range`. -/
theorem MatchDocument_error_iff [LinearOrderedField K] (policy : ExecutionPolicy)
    (s : SearchServer K) (raw_query : List Char) (id : Int) (query : Query)
    (h : s.ParseQuery policy raw_query = .ok query) :
    ((∃ e, MatchDocument policy s raw_query id = .error e) ↔ s.documents_.find? id = none) ∧
    (s.documents_.find? id = none →
      MatchDocument policy s raw_query id = .error .out_of_range) := by
  rw [MatchDocument_of_parse policy s raw_query id query h]
  cases s.documents_.find? id with
  | none => simp
  | some data => simp

/-- For a store that satisfies the invariant, a query text that parses and a document with
metadata, `MatchDocument` returns the stored status with the empty list when the document
contains a minus term, and otherwise with the strictly ascending list of the plus terms that
the document contains. -/
theorem MatchDocument_spec [LinearOrderedField K] (policy : ExecutionPolicy)
    (s : SearchServer K) (hinv : Inv s) (raw_query : List Char) (id : Int) (query : Query)
    (h : s.ParseQuery policy raw_query = .ok query) (data : DocumentData)
    (hdata : s.documents_.find? id = some data) :
    ∃ terms, MatchDocument policy s raw_query id = .ok (terms, data.status) ∧
      ((∃ t ∈ s.minus_terms raw_query, s.contains id t = true) → terms = []) ∧
      ((¬ ∃ t ∈ s.minus_terms raw_query, s.contains id t = true) →
        terms.Pairwise (fun a b => a < b) ∧
        ∀ t, t ∈ terms ↔ (t ∈ s.plus_terms raw_query ∧ s.contains id t = true)) := by
  rw [MatchDocument_of_parse policy s raw_query id query h, hdata]
  refine ⟨_, rfl, ?_, ?_⟩
  · rintro ⟨t, ht, hc⟩
    have hany : query.minus_words.any (fun w => (s.posting_freq w id).isSome) = true := by
      rw [List.any_eq_true]
      refine ⟨t, ?_, by rw [← hinv.contains_iff]; exact hc⟩
      cases policy
      · rw [(ParseQuery_seq_eq s raw_query query h).2, mem_sort_unique]
        exact ht
      · rw [(ParseQuery_par_eq s raw_query query h).2]
        exact ht
    rw [if_pos hany]
  · intro hno
    have hany : ¬ query.minus_words.any (fun w => (s.posting_freq w id).isSome) = true := by
      rw [List.any_eq_true]
      rintro ⟨t, ht, hc⟩
      refine hno ⟨t, ?_, by rw [hinv.contains_iff]; exact hc⟩
      cases policy
      · rw [(ParseQuery_seq_eq s raw_query query h).2, mem_sort_unique] at ht
        exact ht
      · rw [(ParseQuery_par_eq s raw_query query h).2] at ht
        exact ht
    rw [if_neg hany]
    cases policy
    · simp only
      rw [(ParseQuery_seq_eq s raw_query query h).1]
      refine ⟨sort_pairwise_of_nodup _ (List.Nodup.filter _ (sort_unique_nodup _)), ?_⟩
      intro t
      rw [(std_sort_perm word_less _).mem_iff, List.mem_filter, mem_sort_unique,
        hinv.contains_iff]
    · simp only
      rw [(ParseQuery_par_eq s raw_query query h).1]
      refine ⟨sort_unique_pairwise _, ?_⟩
      intro t
      rw [mem_sort_unique, List.mem_filter, hinv.contains_iff]

end SearchServer

/-! ## Removal of absent ids and of documents without terms -/

/-- Claim C14, evaluated at a live document without terms. After
`SearchServer("in the"); AddDocument(42, "in the", ACTUAL, {1})` the id 42 is live with an
empty word-frequency map, and `RemoveDocument(42)` throws `std::out_of_range` under either
policy; after the throw the metadata are gone, the document count is 0, and 42 is still in
the live id set. -/
theorem C14_RemoveDocument_zero_terms_throws :
    Reachable Sample.stop_only ∧
    (42 : Int) ∈ Sample.stop_only.document_ids_ ∧
    Sample.stop_only.GetWordFrequencies 42 = [] ∧
    Sample.stop_only.GetDocumentCount = 1 ∧
    (SearchServer.RemoveDocument .seq Sample.stop_only 42).1 = .error .out_of_range ∧
    (SearchServer.RemoveDocument .par Sample.stop_only 42).1 = .error .out_of_range ∧
    (42 : Int) ∈ (SearchServer.RemoveDocument .seq Sample.stop_only 42).2.document_ids_ ∧
    (42 : Int) ∈ (SearchServer.RemoveDocument .par Sample.stop_only 42).2.document_ids_ ∧
    (SearchServer.RemoveDocument .seq Sample.stop_only 42).2.documents_.find? 42 = none ∧
    (SearchServer.RemoveDocument .seq Sample.stop_only 42).2.GetDocumentCount = 0 ∧
    (SearchServer.RemoveDocument .par Sample.stop_only 42).2.GetDocumentCount = 0 :=
  ⟨Reachable.add _ _ _ _ _ (Reachable.init ["in".toList, "the".toList] Sample.stop rfl),
    by decide, by decide, by decide, by decide, by decide, by decide, by decide, by decide,
    by decide, by decide⟩

/-- Both overloads of `RemoveDocument` on an id that is not live, in a reachable store: the
sequential one returns normally, the parallel one throws `invalid_argument`; both leave the
store as it was. -/
theorem SearchServer.RemoveDocument_of_absent {K : Type} [LinearOrderedField K]
    (s : SearchServer K) (hs : Reachable s) (id : Int) (hid : id ∉ s.document_ids_) :
    SearchServer.RemoveDocument .seq s id = (.ok (), s) ∧
    SearchServer.RemoveDocument .par s id =
      (.error (.invalid_argument "invalid document id".toList), s) := by
  obtain ⟨hd, -⟩ := hs.inv.fresh id hid
  have hseq : SearchServer.RemoveDocument .seq s id = (.ok (), s) := by
    simp only [SearchServer.RemoveDocument, SearchServer.RemoveDocument_seq, OMap.count, hd,
      Option.isSome_none, Bool.false_eq_true, if_false, if_true]
  have hpar : SearchServer.RemoveDocument .par s id =
      (.error (.invalid_argument "invalid document id".toList), s) := by
    simp only [SearchServer.RemoveDocument, SearchServer.RemoveDocument_par, OSet.count, hid,
      if_false, if_true]
  exact ⟨hseq, hpar⟩

/-- Claim C15, evaluated at an id that is not live. On the sample server with the one
document 7 the id 99 is not live; the sequential `RemoveDocument(99)` returns normally and
leaves the store as it was, while the parallel `RemoveDocument(99)` does not return normally:
it throws `invalid_argument`. -/
theorem C15_RemoveDocument_par_absent_throws :
    (99 : Int) ∉ Sample.one.document_ids_ ∧
    SearchServer.RemoveDocument .seq Sample.one 99 = (.ok (), Sample.one) ∧
    (SearchServer.RemoveDocument .par Sample.one 99).1 =
      .error (.invalid_argument "invalid document id".toList) ∧
    (SearchServer.RemoveDocument .par Sample.one 99).1 ≠ .ok () :=
  ⟨by decide!, by decide!, by decide!, by decide!⟩

/-! ## `MatchDocument` on a live id without metadata -/

/-- Claim C19, evaluated at a live id without metadata. After
`SearchServer("in the"); AddDocument(42, "in the", ACTUAL, {1}); RemoveDocument(42)` (the
removal throws) the id 42 is live and the query "cat" parses, and `MatchDocument("cat", 42)`
throws `std::out_of_range` instead of returning a status and a term list. -/
theorem C19_MatchDocument_live_id_throws :
    Reachable Sample.after_remove ∧
    (42 : Int) ∈ Sample.after_remove.document_ids_ ∧
    SearchServer.ParseQuery .seq Sample.after_remove "cat".toList
      = .ok ⟨["cat".toList], []⟩ ∧
    SearchServer.MatchDocument .seq Sample.after_remove "cat".toList 42
      = .error .out_of_range :=
  ⟨Reachable.remove _ _ _
      (Reachable.add _ _ _ _ _ (Reachable.init ["in".toList, "the".toList] Sample.stop rfl)),
    by decide, by decide, by decide⟩

/-- Claim C20, evaluated at a live id without metadata. In the store after
`SearchServer("in the"); AddDocument(42, "in the", ACTUAL, {1}); RemoveDocument(42)` the id
42 is in the live id set and the query "cat -dog" parses under both policies, yet
`MatchDocument` fails with `std::out_of_range` under both policies. -/
theorem C20_MatchDocument_fails_on_live_id :
    Reachable Sample.after_remove ∧
    (42 : Int) ∈ Sample.after_remove.document_ids_ ∧
    SearchServer.ParseQuery .seq Sample.after_remove "cat -dog".toList
      = .ok ⟨["cat".toList], ["dog".toList]⟩ ∧
    SearchServer.ParseQuery .par Sample.after_remove "cat -dog".toList
      = .ok ⟨["cat".toList], ["dog".toList]⟩ ∧
    SearchServer.MatchDocument .seq Sample.after_remove "cat -dog".toList 42
      = .error .out_of_range ∧
    SearchServer.MatchDocument .par Sample.after_remove "cat -dog".toList 42
      = .error .out_of_range :=
  ⟨Reachable.remove _ _ _
      (Reachable.add _ _ _ _ _ (Reachable.init ["in".toList, "the".toList] Sample.stop rfl)),
    by decide, by decide, by decide, by decide, by decide⟩

/-! ## Query parsing on a sample server with stop words -/

/-- Witness of C18: the text "dog -emu in cat dog -the -emu" on a server with the stop words
"in" and "the". -/
theorem C18_ParseQuery_seq_sorted_unique_witness :
    SearchServer.ParseQuery .seq Sample.stop_two "dog -emu in cat dog -the -emu".toList
      = .ok ⟨["cat".toList, "dog".toList], ["emu".toList]⟩ ∧
    ((⟨["cat".toList, "dog".toList], ["emu".toList]⟩ : Query).plus_words.Pairwise
      (fun a b => a < b) ∧
    (⟨["cat".toList, "dog".toList], ["emu".toList]⟩ : Query).minus_words.Pairwise
      (fun a b => a < b) ∧
    (∀ t, t ∈ (⟨["cat".toList, "dog".toList], ["emu".toList]⟩ : Query).plus_words ↔
      (t ∈ SplitIntoWords "dog -emu in cat dog -the -emu".toList ∧ t.head? ≠ some '-' ∧
        Sample.stop_two.IsStopWord t = false)) ∧
    (∀ t, t ∈ (⟨["cat".toList, "dog".toList], ["emu".toList]⟩ : Query).minus_words ↔
      ∃ w ∈ SplitIntoWords "dog -emu in cat dog -the -emu".toList, w.head? = some '-' ∧
        t = w.drop 1 ∧ Sample.stop_two.IsStopWord t = false)) :=
  ⟨by decide,
    C18_ParseQuery_seq_sorted_unique Sample.stop_two "dog -emu in cat dog -the -emu".toList
      ⟨["cat".toList, "dog".toList], ["emu".toList]⟩ (by decide)⟩

/-! ## Removal of a document that has terms -/

namespace OMap

variable {K V : Type}

/-- Erasing an absent key changes nothing. -/
theorem erase_of_absent [DecidableEq K] (m : OMap K V) (k : K) (h : k ∉ m.map Prod.fst) :
    erase k m = m := by
  unfold erase
  rw [List.filter_eq_self]
  intro p hp
  simp only [ne_eq, decide_eq_true_eq]
  intro hk
  exact h (List.mem_map.mpr ⟨p, hp, hk⟩)

/-- Erasing a present key of a map with ascending keys makes it one entry shorter. -/
theorem length_erase_of_present [DecidableEq K] [LinearOrder K] (m : OMap K V) (k : K)
    (hs : Sorted m) (h : (find? m k).isSome) : (erase k m).length + 1 = m.length := by
  induction m with
  | nil => simp [find?] at h
  | cons p t ih =>
    obtain ⟨k₀, v₀⟩ := p
    unfold Sorted at hs
    simp only [List.map_cons, List.pairwise_cons] at hs
    by_cases hk : k = k₀
    · subst hk
      have habs : k ∉ t.map Prod.fst := fun hmem => lt_irrefl k (hs.1 k hmem)
      have he : erase k ((k, v₀) :: t) = erase k t := by
        unfold erase
        simp [List.filter_cons]
      rw [he, erase_of_absent t k habs]
      rfl
    · have hk' : ¬ k₀ = k := fun e => hk e.symm
      have he : erase k ((k₀, v₀) :: t) = (k₀, v₀) :: erase k t := by
        unfold erase
        simp [List.filter_cons, hk']
      simp only [find?, hk, if_false] at h
      rw [he]
      simp only [List.length_cons]
      rw [ih hs.2 h]

end OMap

namespace SearchServer

variable {K : Type}

/-- The store after the statements of `RemoveDocument` that follow a successful lookup of the
forward entry: the document is gone from the live id set, the metadata, the forward map and
every postings list, and the document count is one less. -/
theorem RemoveDocument.finish_spec [LinearOrderedField K] (id : Int) (s : SearchServer K)
    (word_freq : OMap Word K) (h : Inv s)
    (hf : s.document_to_word_freqs_.find? id = some word_freq) (s2 : SearchServer K)
    (hs2 : s2 = (word_freq.map Prod.fst).foldl (RemoveDocument.step id)
      { s with documents_ := s.documents_.erase id }) :
    id ∉ OSet.erase id s2.document_ids_ ∧
    s2.documents_.find? id = none ∧
    GetWordFrequencies ({ s2 with
      document_to_word_freqs_ := s2.document_to_word_freqs_.erase id,
      document_ids_ := OSet.erase id s2.document_ids_ } : SearchServer K) id = [] ∧
    (∀ t, s2.posting_freq t id = none) ∧
    GetDocumentCount ({ s2 with
      document_to_word_freqs_ := s2.document_to_word_freqs_.erase id,
      document_ids_ := OSet.erase id s2.document_ids_ } : SearchServer K) + 1
        = s.GetDocumentCount := by
  have hinv := RemoveDocument.finish_inv id s word_freq h hf s2 hs2
  obtain ⟨h1, h2, -, -, -, -, -⟩ :=
    RemoveDocument.loop_effect id (word_freq.map Prod.fst)
      { s with documents_ := s.documents_.erase id }
  rw [← hs2] at h1 h2
  simp only at h1 h2
  refine ⟨?_, ?_, ?_, ?_, ?_⟩
  · rw [OSet.mem_erase]
    exact fun hc => hc.1 rfl
  · rw [h2, OMap.find?_erase, if_pos rfl]
  · simp only [GetWordFrequencies, OMap.count, OMap.find?_erase, if_true, Option.isSome_none,
      Bool.false_eq_true, if_false]
  · intro t
    have hc := hinv.maps.consistent t id
    simp only [forward_freq, posting_freq, OMap.get2, OMap.find?_erase, if_true,
      Option.none_bind] at hc
    simp only [posting_freq, OMap.get2]
    exact hc.symm
  · simp only [GetDocumentCount, OMap.size, h2]
    have hlen := OMap.length_erase_of_present s.documents_ id h.documents_sorted
      (h.forward_has_data id (by rw [hf]; rfl))
    exact_mod_cast hlen

/-- In a store that satisfies the invariant, `RemoveDocument` on a document that has a
forward entry (at least one term) returns normally under either policy; afterwards the id is
not live, has no metadata, has an empty word-frequency map and is in no postings list, and
the document count is one less. -/
theorem RemoveDocument_of_entry [LinearOrderedField K] (policy : ExecutionPolicy)
    (s : SearchServer K) (h : Inv s) (id : Int) (word_freq : OMap Word K)
    (hf : s.document_to_word_freqs_.find? id = some word_freq) :
    (RemoveDocument policy s id).1 = .ok () ∧
    id ∉ (RemoveDocument policy s id).2.document_ids_ ∧
    (RemoveDocument policy s id).2.documents_.find? id = none ∧
    (RemoveDocument policy s id).2.GetWordFrequencies id = [] ∧
    (∀ t, (RemoveDocument policy s id).2.posting_freq t id = none) ∧
    (RemoveDocument policy s id).2.GetDocumentCount + 1 = s.GetDocumentCount := by
  have hdata : (s.documents_.find? id).isSome := h.forward_has_data id (by rw [hf]; rfl)
  have hlive : id ∈ s.document_ids_ := h.data_is_live id hdata
  cases policy
  · simp only [RemoveDocument, RemoveDocument_seq, OMap.count, hdata, if_true, one_ne_zero,
      if_false, OMap.at, hf]
    exact ⟨trivial, RemoveDocument.finish_spec id s word_freq h hf _ (by rw [List.foldl_map])⟩
  · simp only [RemoveDocument, RemoveDocument_par, OSet.count, hlive, if_true, one_ne_zero,
      if_false, OMap.at, hf]
    exact ⟨trivial, RemoveDocument.finish_spec id s word_freq h hf _ rfl⟩

end SearchServer

/-! ## The two overloads of `MatchDocument` -/

namespace SearchServer

variable {K : Type}

end SearchServer

namespace SearchServer

variable {K : Type}

/-- An integer in the range of `int` is what an `int` holds. -/
theorem int_wrap_of_fits (x : Int) (h1 : -2147483648 ≤ x) (h2 : x < 2147483648) :
    int_wrap x = x := by
  unfold int_wrap
  omega

/-- The accumulation of `ComputeAverageRating` computes the sum of the ratings when every
partial sum is in the range of `int`. -/
theorem foldl_int_wrap_eq_sum (l : List Int) (a : Int)
    (h : ∀ k, k ≤ l.length →
      -2147483648 ≤ a + (l.take k).sum ∧ a + (l.take k).sum < 2147483648) :
    l.foldl (fun acc r => int_wrap (acc + r)) a = a + l.sum := by
  induction l generalizing a with
  | nil => simp
  | cons x t ih =>
    have h1 := h 1 (by simp)
    simp only [List.take_succ_cons, List.take_zero, List.sum_cons, List.sum_nil, add_zero] at h1
    simp only [List.foldl_cons, List.sum_cons]
    rw [int_wrap_of_fits _ h1.1 h1.2, ih]
    · ring
    · intro k hk
      have h2 := h (k + 1) (by simpa using hk)
      simp only [List.take_succ_cons, List.sum_cons] at h2
      constructor
      · linarith [h2.1]
      · linarith [h2.2]

/-- The truncating quotient by a positive count is no further from zero than the dividend. -/
theorem tdiv_fits (a : Int) (n : Int) (hn : 0 < n) (h1 : -2147483648 ≤ a)
    (h2 : a < 2147483648) :
    -2147483648 ≤ Int.tdiv a n ∧ Int.tdiv a n < 2147483648 := by
  rcases le_or_lt 0 a with ha | ha
  · rw [Int.tdiv_eq_ediv ha (le_of_lt hn)]
    constructor
    · have := Int.ediv_nonneg ha (le_of_lt hn)
      omega
    · have := Int.ediv_le_self n ha
      omega
  · have hneg : Int.tdiv a n = -Int.tdiv (-a) n := by
      rw [Int.neg_tdiv, neg_neg]
    have hpos : 0 ≤ -a := by omega
    rw [hneg, Int.tdiv_eq_ediv hpos (le_of_lt hn)]
    have h3 := Int.ediv_nonneg hpos (le_of_lt hn)
    have h4 := Int.ediv_le_self n hpos
    constructor <;> omega

/-- The value of `ComputeAverageRating` when there are fewer than `2^31` ratings and every
partial sum of them is in the range of `int`: the sum divided by the count with the division
of C++ `int`, which rounds toward zero. -/
theorem ComputeAverageRating_eq (ratings : List Int) (hlen : ratings.length < 2147483648)
    (hfit : ∀ k, k ≤ ratings.length →
      -2147483648 ≤ (ratings.take k).sum ∧ (ratings.take k).sum < 2147483648) :
    ComputeAverageRating ratings =
      if ratings = [] then 0 else Int.tdiv ratings.sum (ratings.length : Int) := by
  unfold ComputeAverageRating
  cases ratings with
  | nil => rfl
  | cons r rest =>
    have hsum := foldl_int_wrap_eq_sum (r :: rest) 0 (by simpa using hfit)
    have hlast := hfit (r :: rest).length (le_refl _)
    rw [List.take_length] at hlast
    have hl : int_wrap (((r :: rest).length : Nat) : Int) = (((r :: rest).length : Nat) : Int) :=
      int_wrap_of_fits _ (by omega) (by omega)
    have hpos : (0 : Int) < (((r :: rest).length : Nat) : Int) := by
      simp only [List.length_cons]
      omega
    simp only [List.isEmpty_cons, Bool.false_eq_true, if_false, reduceCtorEq]
    rw [hsum, zero_add, hl]
    exact int_wrap_of_fits _ (tdiv_fits _ _ hpos hlast.1 hlast.2).1
      (tdiv_fits _ _ hpos hlast.1 hlast.2).2

/-- The truncating quotient of a non-negative sum by a count is the floor of the quotient. -/
theorem tdiv_eq_floor (a : Int) (n : Nat) (ha : 0 ≤ a) :
    Int.tdiv a (n : Int) = Int.floor ((a : ℚ) / (n : ℚ)) := by
  rw [Rat.floor_intCast_div_natCast, Int.tdiv_eq_ediv ha (Int.natCast_nonneg n)]

/-- The truncating quotient of a non-positive sum by a count is the ceiling of the
quotient. -/
theorem tdiv_eq_ceil (a : Int) (n : Nat) (ha : a ≤ 0) :
    Int.tdiv a (n : Int) = Int.ceil ((a : ℚ) / (n : ℚ)) := by
  have h := tdiv_eq_floor (-a) n (by omega)
  rw [Int.neg_tdiv] at h
  have h2 : ((-a : Int) : ℚ) / (n : ℚ) = -((a : ℚ) / (n : ℚ)) := by
    push_cast
    ring
  rw [h2, Int.floor_neg] at h
  omega

/-- The loop of `AddDocument` leaves the metadata alone. -/
theorem AddDocument.loop_documents [LinearOrderedField K] (id : Int) (inv : K)
    (words : List Word) (s : SearchServer K) :
    (words.foldl (AddDocument.step id inv) s).documents_ = s.documents_ := by
  induction words generalizing s with
  | nil => rfl
  | cons w rest ih =>
    simp only [List.foldl_cons]
    rw [ih]
    rfl

/-- The metadata that a call of `AddDocument` stores when it returns normally in a store that
satisfies the invariant. -/
theorem AddDocument_stored [LinearOrderedField K] (s : SearchServer K) (hinv : Inv s)
    (id : Int) (text : List Char) (status : DocumentStatus) (ratings : List Int)
    (h : (s.AddDocument id text status ratings).1 = .ok ()) :
    (s.AddDocument id text status ratings).2.documents_.find? id =
      some ⟨ComputeAverageRating ratings, status⟩ := by
  obtain ⟨-, hfresh, -, hstate⟩ := AddDocument_ok s id text status ratings h
  obtain ⟨hd, -⟩ := hinv.fresh id hfresh
  rw [hstate]
  simp only [AddDocument.loop_documents, emplace, OMap.count, hd, Option.isSome_none,
    Bool.false_eq_true, if_false, gt_iff_lt, lt_self_iff_false, OMap.find?_insert, if_true]

end SearchServer

/-- Claim C22 as stated fails. For the ratings -1 and -2 the stored rating is -1, while the
floor of the arithmetic mean -3/2 is -2: the division rounds toward zero. For the ratings
2147483647 and 1 the stored rating is -1073741824, while the floor of the mean is 1073741824:
the sum wraps at 32 bits. -/
theorem C22_rating_not_floor_of_mean :
    (Sample.empty.AddDocument 1 "cat".toList DocumentStatus.ACTUAL [-1, -2]).2.documents_.find? 1
      = some ⟨-1, DocumentStatus.ACTUAL⟩ ∧
    Int.floor ((([-1, -2] : List Int).sum : ℚ) / (([-1, -2] : List Int).length : ℚ)) = -2 ∧
    (Sample.empty.AddDocument 1 "cat".toList DocumentStatus.ACTUAL
      [2147483647, 1]).2.documents_.find? 1 = some ⟨-1073741824, DocumentStatus.ACTUAL⟩ ∧
    Int.floor ((([2147483647, 1] : List Int).sum : ℚ) /
      (([2147483647, 1] : List Int).length : ℚ)) = 1073741824 := by
  refine ⟨by decide, ?_, by decide, ?_⟩
  · rw [Rat.floor_intCast_div_natCast]
    decide
  · rw [Rat.floor_intCast_div_natCast]
    decide

/-- Claim C22, amended. After a call of `AddDocument` that returns normally in a reachable
store, the rating stored for the document is `ComputeAverageRating` of the supplied ratings,
which is 0 for the empty list. When there are fewer than `2^31` ratings and every partial sum
of them (in their order) is in the range of a 32-bit `int`, it is the sum divided by the
number of ratings with the division of C++ `int`, which rounds toward zero: the floor of the
arithmetic mean when the sum is not negative, and the ceiling of the mean when the sum is not
positive. -/
theorem C22_rating_is_truncated_mean {K : Type} [LinearOrderedField K] (s : SearchServer K)
    (hs : Reachable s) (id : Int) (text : List Char) (status : DocumentStatus)
    (ratings : List Int) (h : (s.AddDocument id text status ratings).1 = .ok ())
    (hlen : ratings.length < 2147483648)
    (hfit : ∀ k, k ≤ ratings.length →
      -2147483648 ≤ (ratings.take k).sum ∧ (ratings.take k).sum < 2147483648) :
    (s.AddDocument id text status ratings).2.documents_.find? id =
      some ⟨SearchServer.ComputeAverageRating ratings, status⟩ ∧
    (ratings = [] → SearchServer.ComputeAverageRating ratings = 0) ∧
    (ratings ≠ [] →
      SearchServer.ComputeAverageRating ratings = Int.tdiv ratings.sum (ratings.length : Int)) ∧
    (ratings ≠ [] → 0 ≤ ratings.sum →
      SearchServer.ComputeAverageRating ratings =
        Int.floor ((ratings.sum : ℚ) / (ratings.length : ℚ))) ∧
    (ratings ≠ [] → ratings.sum ≤ 0 →
      SearchServer.ComputeAverageRating ratings =
        Int.ceil ((ratings.sum : ℚ) / (ratings.length : ℚ))) := by
  refine ⟨SearchServer.AddDocument_stored s hs.inv id text status ratings h, ?_, ?_, ?_, ?_⟩
  · intro he
    rw [SearchServer.ComputeAverageRating_eq ratings hlen hfit, if_pos he]
  · intro hne
    rw [SearchServer.ComputeAverageRating_eq ratings hlen hfit, if_neg hne]
  · intro hne hsum
    rw [SearchServer.ComputeAverageRating_eq ratings hlen hfit, if_neg hne]
    exact SearchServer.tdiv_eq_floor _ _ hsum
  · intro hne hsum
    rw [SearchServer.ComputeAverageRating_eq ratings hlen hfit, if_neg hne]
    exact SearchServer.tdiv_eq_ceil _ _ hsum

/-- Witness of C22 (amended): the ratings -1 and -2 for a new document 1. -/
theorem C22_rating_is_truncated_mean_witness :
    Reachable Sample.empty ∧
    (Sample.empty.AddDocument 1 "cat".toList DocumentStatus.ACTUAL [-1, -2]).1 = .ok () ∧
    ([-1, -2] : List Int).length < 2147483648 ∧
    (∀ k, k ≤ ([-1, -2] : List Int).length →
      -2147483648 ≤ (([-1, -2] : List Int).take k).sum ∧
      (([-1, -2] : List Int).take k).sum < 2147483648) ∧
    ((Sample.empty.AddDocument 1 "cat".toList DocumentStatus.ACTUAL [-1, -2]).2.documents_.find? 1
      = some ⟨SearchServer.ComputeAverageRating [-1, -2], DocumentStatus.ACTUAL⟩ ∧
    (([-1, -2] : List Int) = [] → SearchServer.ComputeAverageRating [-1, -2] = 0) ∧
    (([-1, -2] : List Int) ≠ [] →
      SearchServer.ComputeAverageRating [-1, -2] =
        Int.tdiv ([-1, -2] : List Int).sum (([-1, -2] : List Int).length : Int)) ∧
    (([-1, -2] : List Int) ≠ [] → 0 ≤ ([-1, -2] : List Int).sum →
      SearchServer.ComputeAverageRating [-1, -2] =
        Int.floor ((([-1, -2] : List Int).sum : ℚ) / (([-1, -2] : List Int).length : ℚ))) ∧
    (([-1, -2] : List Int) ≠ [] → ([-1, -2] : List Int).sum ≤ 0 →
      SearchServer.ComputeAverageRating [-1, -2] =
        Int.ceil ((([-1, -2] : List Int).sum : ℚ) / (([-1, -2] : List Int).length : ℚ)))) :=
  ⟨Reachable.init [] Sample.empty rfl, by decide, by decide, by decide,
    C22_rating_is_truncated_mean Sample.empty (Reachable.init [] Sample.empty rfl) 1
      "cat".toList DocumentStatus.ACTUAL [-1, -2] (by decide) (by decide) (by decide)⟩

/-! ## Document count, and the lists of the parallel overloads -/

/-- Claim C23, evaluated after a removal that throws. After
`SearchServer("in the"); AddDocument(42, "in the", ACTUAL, {1}); RemoveDocument(42)` (the
removal throws `std::out_of_range`) the iteration over the server yields the one id 42 while
`GetDocumentCount()` is 0. -/
theorem C23_count_differs_from_live_ids :
    Reachable Sample.after_remove ∧
    (SearchServer.RemoveDocument .seq Sample.stop_only 42).1 = .error .out_of_range ∧
    Sample.after_remove.ids = [42] ∧
    Sample.after_remove.GetDocumentCount = 0 ∧
    Sample.after_remove.GetDocumentCount ≠ (Sample.after_remove.ids.length : Int) :=
  ⟨Reachable.remove _ _ _
      (Reachable.add _ _ _ _ _ (Reachable.init ["in".toList, "the".toList] Sample.stop rfl)),
    by decide, by decide, by decide, by decide⟩

/-- Claim C28, evaluated at a text with repeated tokens. For the text "cat cat -dog -dog" the
parallel `ParseQuery`, whose lists the parallel `MatchDocument` works on, returns the plus
words cat, cat and the minus words dog, dog, and the parallel `FindTopDocuments` hands the
minus words dog, dog to `FindAllDocuments` (only its plus words are made unique). -/
theorem C28_parallel_lists_keep_repeats :
    SearchServer.ParseQuery .par Sample.six "cat cat -dog -dog".toList
      = .ok ⟨["cat".toList, "cat".toList], ["dog".toList, "dog".toList]⟩ ∧
    SearchServer.FindTopDocuments.query .par Sample.six "cat cat -dog -dog".toList
      = .ok ⟨["cat".toList], ["dog".toList, "dog".toList]⟩ ∧
    SearchServer.FindTopDocuments .par Sample.ln Sample.six "cat cat -dog -dog".toList
        Sample.all =
      (match SearchServer.FindAllDocuments_par Sample.ln Sample.six
          ⟨["cat".toList], ["dog".toList, "dog".toList]⟩ Sample.all with
        | .error e => .error e
        | .ok matched_documents =>
          .ok (SearchServer.FindTopDocuments.truncate
            (std_sort SearchServer.FindTopDocuments.comp matched_documents))) ∧
    ¬ (["cat".toList, "cat".toList] : List Word).Nodup ∧
    ¬ (["dog".toList, "dog".toList] : List Word).Nodup ∧
    SearchServer.ParseQuery .seq Sample.six "cat cat -dog -dog".toList
      = .ok ⟨["cat".toList], ["dog".toList]⟩ :=
  ⟨by decide, by decide, by decide!, by decide, by decide, by decide⟩

/-- Claim C29 as stated fails: the text "cat -cat" parses, and the term cat is both a plus
word and a minus word of the parsed query. -/
theorem C29_term_in_both_lists :
    SearchServer.ParseQuery .seq Sample.six "cat -cat".toList
      = .ok ⟨["cat".toList], ["cat".toList]⟩ ∧
    "cat".toList ∈ (⟨["cat".toList], ["cat".toList]⟩ : Query).plus_words ∧
    "cat".toList ∈ (⟨["cat".toList], ["cat".toList]⟩ : Query).minus_words :=
  ⟨by decide, by decide, by decide⟩

/-- Claim C29, amended. For every query text that parses (either policy), every token whose
word is not a stop word goes to exactly one list by its first character: to the minus words,
without the `-`, when it starts with `-`, and to the plus words otherwise. A term is in both
lists exactly when it is not a stop word and the text has both the token `t` and the token
`-t`. -/
theorem C29_token_goes_to_one_list {K : Type} (policy : ExecutionPolicy) (s : SearchServer K)
    (raw_query : List Char) (query : Query)
    (h : s.ParseQuery policy raw_query = .ok query) :
    (∀ w ∈ SplitIntoWords raw_query, s.IsStopWord (SearchServer.query_word w) = false →
      (w.head? ≠ some '-' ∧ w ∈ query.plus_words) ∨
      (w.head? = some '-' ∧ w.drop 1 ∈ query.minus_words)) ∧
    (∀ t, (t ∈ query.plus_words ∧ t ∈ query.minus_words) ↔
      (t ∈ SplitIntoWords raw_query ∧ ('-' :: t) ∈ SplitIntoWords raw_query ∧
        s.IsStopWord t = false)) := by
  have hplus : ∀ t, t ∈ query.plus_words ↔ t ∈ s.plus_terms raw_query := by
    intro t
    cases policy
    · rw [(SearchServer.ParseQuery_seq_eq s raw_query query h).1, SearchServer.mem_sort_unique]
    · rw [(SearchServer.ParseQuery_par_eq s raw_query query h).1]
  have hminus : ∀ t, t ∈ query.minus_words ↔ t ∈ s.minus_terms raw_query := by
    intro t
    cases policy
    · rw [(SearchServer.ParseQuery_seq_eq s raw_query query h).2, SearchServer.mem_sort_unique]
    · rw [(SearchServer.ParseQuery_par_eq s raw_query query h).2]
  have hwell : ∀ w ∈ SplitIntoWords raw_query, SearchServer.malformed w = false :=
    (SearchServer.ParseQuery.loop_ok_iff_wellformed s raw_query _).mp
      ((SearchServer.ParseQuery_ok_iff_loop policy s raw_query).mp ⟨query, h⟩)
  constructor
  · intro w hw hstop
    by_cases hh : w.head? = some '-'
    · right
      refine ⟨hh, (hminus _).mpr ((SearchServer.mem_minus_terms s raw_query _).mpr
        ⟨w, hw, hh, rfl, ?_⟩)⟩
      simpa [SearchServer.query_word, hh] using hstop
    · left
      refine ⟨hh, (hplus _).mpr ((SearchServer.mem_plus_terms s raw_query _).mpr
        ⟨hw, hh, ?_⟩)⟩
      simpa [SearchServer.query_word, hh] using hstop
  · intro t
    rw [hplus, hminus, SearchServer.mem_plus_terms, SearchServer.mem_minus_terms]
    constructor
    · rintro ⟨⟨ht, -, hs⟩, w, hw, hh, hdrop, -⟩
      refine ⟨ht, ?_, hs⟩
      cases w with
      | nil => simp at hh
      | cons c rest =>
        simp only [List.head?_cons, Option.some.injEq] at hh
        simp only [List.drop_succ_cons, List.drop_zero] at hdrop
        rw [hdrop, ← hh]
        exact hw
    · rintro ⟨ht, hm, hs⟩
      refine ⟨⟨ht, ?_, hs⟩, '-' :: t, hm, rfl, rfl, hs⟩
      intro hhead
      have hmal := hwell _ hm
      cases t with
      | nil => simp at hhead
      | cons c rest =>
        simp only [List.head?_cons, Option.some.injEq] at hhead
        subst hhead
        simp [SearchServer.malformed] at hmal

/-- Witness of C29 (amended): the text "cat -cat dog" on the six sample documents. -/
theorem C29_token_goes_to_one_list_witness :
    SearchServer.ParseQuery .seq Sample.six "cat -cat dog".toList
      = .ok ⟨["cat".toList, "dog".toList], ["cat".toList]⟩ ∧
    ((∀ w ∈ SplitIntoWords "cat -cat dog".toList,
      Sample.six.IsStopWord (SearchServer.query_word w) = false →
      (w.head? ≠ some '-' ∧
        w ∈ (⟨["cat".toList, "dog".toList], ["cat".toList]⟩ : Query).plus_words) ∨
      (w.head? = some '-' ∧
        w.drop 1 ∈ (⟨["cat".toList, "dog".toList], ["cat".toList]⟩ : Query).minus_words)) ∧
    (∀ t, (t ∈ (⟨["cat".toList, "dog".toList], ["cat".toList]⟩ : Query).plus_words ∧
        t ∈ (⟨["cat".toList, "dog".toList], ["cat".toList]⟩ : Query).minus_words) ↔
      (t ∈ SplitIntoWords "cat -cat dog".toList ∧
        ('-' :: t) ∈ SplitIntoWords "cat -cat dog".toList ∧
        Sample.six.IsStopWord t = false))) :=
  ⟨by decide,
    C29_token_goes_to_one_list .seq Sample.six "cat -cat dog".toList
      ⟨["cat".toList, "dog".toList], ["cat".toList]⟩ (by decide)⟩

/-! ## The tokenizer returns the maximal runs of non-space characters -/

/-- The empty text has no runs. -/
theorem maximal_runs_nil : maximal_runs [] = [] := by
  simp [maximal_runs, List.splitOnP_nil]

/-- A leading space does not change the runs. -/
theorem maximal_runs_cons_space (rest : List Char) : maximal_runs (' ' :: rest) = maximal_runs rest := by
  simp [maximal_runs, List.splitOnP_cons]

/-- Leading spaces do not change the runs. -/
theorem maximal_runs_dropWhile (text : List Char) :
    maximal_runs (text.dropWhile (fun c => c == ' ')) = maximal_runs text := by
  induction text with
  | nil => rfl
  | cons c rest ih =>
    by_cases hc : c = ' '
    · subst hc
      rw [List.dropWhile_cons_of_pos (by simp), ih, maximal_runs_cons_space]
    · rw [List.dropWhile_cons_of_neg (by simpa using hc)]

/-- A non-empty piece without a space, followed by nothing or by a space, is the first run. -/
theorem maximal_runs_run (temp rest : List Char) (hne : temp ≠ [])
    (hns : ∀ c ∈ temp, c ≠ ' ') (hrest : rest = [] ∨ ∃ r, rest = ' ' :: r) :
    maximal_runs (temp ++ rest) = temp :: maximal_runs rest := by
  have hemp : temp.isEmpty = false := by
    cases temp with
    | nil => exact absurd rfl hne
    | cons _ _ => rfl
  rcases hrest with rfl | ⟨r, rfl⟩
  · rw [List.append_nil, maximal_runs_nil]
    unfold maximal_runs
    rw [List.splitOnP_eq_single _ _ (by simpa using hns)]
    simp [hemp]
  · rw [maximal_runs_cons_space]
    unfold maximal_runs
    rw [List.splitOnP_first _ _ (by simpa using hns) ' ' (by simp)]
    simp [hemp]

/-- What is left after the characters up to the first space is empty or starts with a space. -/
theorem dropWhile_ne_shape (text : List Char) :
    text.dropWhile (fun c => c != ' ') = [] ∨
      ∃ r, text.dropWhile (fun c => c != ' ') = ' ' :: r := by
  cases h : text.dropWhile (fun c => c != ' ') with
  | nil => exact Or.inl rfl
  | cons c r =>
    right
    have hc := head?_dropWhile_not (fun c => c != ' ') text c (by rw [h]; rfl)
    have hc2 : c = ' ' := by simpa using hc
    exact ⟨r, by rw [hc2]⟩

/-- The loop of `SplitIntoWords` with enough fuel, on a text without its leading spaces: it
returns the maximal runs, every token is non-empty and has no space, and the tokens put
together are the text without its spaces. -/
theorem SplitIntoWords.loop_runs (n : Nat) : ∀ text : List Char, text.length ≤ n →
    SplitIntoWords.loop n (text.dropWhile (fun c => c == ' ')) = maximal_runs text ∧
    (∀ w ∈ SplitIntoWords.loop n (text.dropWhile (fun c => c == ' ')), w ≠ [] ∧ ' ' ∉ w) ∧
    (SplitIntoWords.loop n (text.dropWhile (fun c => c == ' '))).flatten
      = text.filter (fun c => c != ' ') := by
  induction n with
  | zero =>
    intro text h
    have : text = [] := List.length_eq_zero.mp (by omega)
    subst this
    simp [SplitIntoWords.loop, maximal_runs_nil]
  | succ m ih =>
    intro text hlen
    have hfilter : text.filter (fun c => c != ' ') =
        (text.dropWhile (fun c => c == ' ')).filter (fun c => c != ' ') := by
      clear hlen
      induction text with
      | nil => rfl
      | cons c rest ih2 =>
        by_cases hc : c = ' '
        · subst hc
          rw [List.dropWhile_cons_of_pos (by simp), ← ih2]
          simp
        · rw [List.dropWhile_cons_of_neg (by simpa using hc)]
    have hsub : (text.dropWhile (fun c => c == ' ')).length ≤ text.length :=
      (List.dropWhile_sublist _).length_le
    rw [← maximal_runs_dropWhile text, hfilter]
    generalize htext : text.dropWhile (fun c => c == ' ') = t at hsub ⊢
    have hhead : ∀ c, t.head? = some c → c ≠ ' ' := by
      intro c hc hsp
      rw [← htext] at hc
      have := head?_dropWhile_not (fun c => c == ' ') text c hc
      simp [hsp] at this
    cases t with
    | nil => simp [SplitIntoWords.loop, maximal_runs_nil]
    | cons c r =>
      have hc : c ≠ ' ' := hhead c rfl
      have hsplit := List.takeWhile_append_dropWhile (fun c => c != ' ') (c :: r)
      have htemp : (c :: r).takeWhile (fun c => c != ' ') ≠ [] := by
        rw [List.takeWhile_cons_of_pos (by simpa using hc)]
        exact List.cons_ne_nil _ _
      have hns : ∀ x ∈ (c :: r).takeWhile (fun c => c != ' '), x ≠ ' ' := by
        intro x hx
        simpa using List.mem_takeWhile_imp hx
      have hdrop : (c :: r).drop ((c :: r).takeWhile (fun c => c != ' ')).length =
          (c :: r).dropWhile (fun c => c != ' ') := by
        have h0 := List.drop_left ((c :: r).takeWhile (fun c => c != ' '))
          ((c :: r).dropWhile (fun c => c != ' '))
        rw [hsplit] at h0
        exact h0
      have hlen2 : ((c :: r).dropWhile (fun c => c != ' ')).length ≤ m := by
        have h1 := congrArg List.length hsplit
        rw [List.length_append] at h1
        have h2 : 0 < ((c :: r).takeWhile (fun c => c != ' ')).length :=
          List.length_pos.mpr htemp
        omega
      have hshape := dropWhile_ne_shape (c :: r)
      have hloop : SplitIntoWords.loop (m + 1) (c :: r) =
          (c :: r).takeWhile (fun c => c != ' ') ::
            SplitIntoWords.loop m (((c :: r).dropWhile (fun c => c != ' ')).dropWhile
              (fun c => c == ' ')) := by
        rw [SplitIntoWords.loop]
        simp only [List.isEmpty_cons, Bool.false_eq_true, if_false]
        rw [hdrop]
      rw [hloop]
      obtain ⟨i1, i2, i3⟩ := ih _ hlen2
      generalize (c :: r).takeWhile (fun c => c != ' ') = T at hsplit htemp hns i1 i2 i3 ⊢
      generalize (c :: r).dropWhile (fun c => c != ' ') = D at hsplit hshape i1 i2 i3 ⊢
      have hTf : T.filter (fun c => c != ' ') = T :=
        List.filter_eq_self.mpr (by simpa using hns)
      refine ⟨?_, ?_, ?_⟩
      · rw [i1, ← maximal_runs_run T D htemp hns hshape, hsplit]
      · intro w hw
        rcases List.mem_cons.mp hw with rfl | hw
        · exact ⟨htemp, fun hmem => hns _ hmem rfl⟩
        · exact i2 w hw
      · rw [List.flatten_cons, i3, ← hsplit, List.filter_append, hTf]

/-- Claim C25. For every text, `SplitIntoWords` returns the maximal runs of non-space
characters of the text in their order; every token is non-empty and has no space; the tokens
put together are the text with all spaces deleted; and a text that is empty or has only spaces
gives no tokens. -/
theorem C25_SplitIntoWords_maximal_runs (text : List Char) :
    SplitIntoWords text = maximal_runs text ∧
    (∀ w ∈ SplitIntoWords text, w ≠ [] ∧ ' ' ∉ w) ∧
    (SplitIntoWords text).flatten = text.filter (fun c => c != ' ') ∧
    ((∀ c ∈ text, c = ' ') → SplitIntoWords text = []) := by
  have hloop := SplitIntoWords.loop_runs text.length text (le_refl _)
  change SplitIntoWords text = maximal_runs text ∧
    (∀ w ∈ SplitIntoWords text, w ≠ [] ∧ ' ' ∉ w) ∧
    (SplitIntoWords text).flatten = text.filter (fun c => c != ' ') at hloop
  obtain ⟨h1, h2, h3⟩ := hloop
  refine ⟨h1, h2, h3, ?_⟩
  intro hall
  have hnil : (SplitIntoWords text).flatten = [] := by
    rw [h3, List.filter_eq_nil_iff]
    intro c hc
    simp [hall c hc]
  cases hs : SplitIntoWords text with
  | nil => rfl
  | cons w rest =>
    rw [hs, List.flatten_cons, List.append_eq_nil] at hnil
    exact absurd hnil.1 (h2 w (by rw [hs]; exact List.mem_cons_self _ _)).1

/-! ## `ConcurrentMap` against a single ordered map -/

namespace ConcurrentMap

variable {V : Type}

/-- One operation keeps a `ConcurrentMap` well-formed. -/
theorem apply_good (n : Nat) (init : V) (m : ConcurrentMap V) (h : Good n m) (op : Op V) :
    Good n (m.apply init op) := by
  cases op with
  | accumulate key update => exact modify_good n m h key init update
  | erase key => exact erase_good n m h key

/-- One operation on a single map keeps the keys ascending. -/
theorem on_map_sorted (init : V) (m : OMap Int V) (h : OMap.Sorted m) (op : Op V) :
    OMap.Sorted (op.on_map init m) := by
  cases op with
  | accumulate key update => exact OMap.Sorted.upsert h key init update
  | erase key => exact OMap.Sorted.erase h key

/-- One operation keeps the lookups of the ordinary map and of the single map equal. -/
theorem find?_apply (n : Nat) (init : V) (m : ConcurrentMap V) (h : Good n m)
    (om : OMap Int V) (hfind : ∀ k, OMap.find? m.BuildOrdinaryMap k = OMap.find? om k)
    (op : Op V) (k : Int) :
    OMap.find? (m.apply init op).BuildOrdinaryMap k = OMap.find? (op.on_map init om) k := by
  cases op with
  | accumulate key update =>
    simp only [apply, Op.on_map]
    rw [find?_BuildOrdinaryMap_modify n m h, OMap.find?_upsert, hfind key, hfind k]
  | erase key =>
    simp only [apply, Op.on_map]
    rw [find?_BuildOrdinaryMap_erase n m h, OMap.find?_erase, hfind k]

/-- A sequence of operations keeps a `ConcurrentMap` well-formed and its ordinary map in step
with the single map. -/
theorem foldl_apply (n : Nat) (init : V) (ops : List (Op V)) (m : ConcurrentMap V)
    (h : Good n m) (om : OMap Int V) (hs : OMap.Sorted om)
    (hfind : ∀ k, OMap.find? m.BuildOrdinaryMap k = OMap.find? om k) :
    Good n (ops.foldl (apply init) m) ∧
    OMap.Sorted (ops.foldl (Op.on_map init) om) ∧
    ∀ k, OMap.find? (ops.foldl (apply init) m).BuildOrdinaryMap k =
      OMap.find? (ops.foldl (Op.on_map init) om) k := by
  induction ops generalizing m om with
  | nil => exact ⟨h, hs, hfind⟩
  | cons op rest ih =>
    simp only [List.foldl_cons]
    exact ih (m.apply init op) (apply_good n init m h op) (op.on_map init om)
      (on_map_sorted init om hs op) (find?_apply n init m h om hfind op)

end ConcurrentMap

/-- Claim C24. For every bucket count `S ≥ 1`, every value-initialised slot and every
sequence of operations (an access `operator[]` followed by an update, or `erase`), the map
that `BuildOrdinaryMap` returns after the operations on a new `ConcurrentMap` is exactly the
`std::map` that the same operations build from the empty map; its keys are ascending, so
every key is present once. -/
theorem C24_ConcurrentMap_refines_map {V : Type} (S : Nat) (hS : 1 ≤ S) (init : V)
    (ops : List (ConcurrentMap.Op V)) :
    (ops.foldl (ConcurrentMap.apply init) (ConcurrentMap.ofBucketCount S)).BuildOrdinaryMap
      = ops.foldl (ConcurrentMap.Op.on_map init) [] ∧
    ((ops.foldl (ConcurrentMap.apply init)
      (ConcurrentMap.ofBucketCount S)).BuildOrdinaryMap.map Prod.fst).Nodup ∧
    OMap.Sorted
      (ops.foldl (ConcurrentMap.apply init) (ConcurrentMap.ofBucketCount S)).BuildOrdinaryMap := by
  have hgood : ConcurrentMap.Good S (ConcurrentMap.ofBucketCount S : ConcurrentMap V) :=
    ConcurrentMap.ofBucketCount_good S hS
  have hfind0 : ∀ k, OMap.find? (ConcurrentMap.ofBucketCount S :
      ConcurrentMap V).BuildOrdinaryMap k = OMap.find? ([] : OMap Int V) k := by
    intro k
    rw [ConcurrentMap.find?_BuildOrdinaryMap S _ hgood]
    have hb : ∀ i : Nat, (List.replicate S ([] : OMap Int V)).getD i [] = [] := by
      intro i
      rw [List.getD_eq_getElem?_getD, List.getElem?_replicate]
      split <;> rfl
    simp only [ConcurrentMap.ofBucketCount, hb]
  obtain ⟨-, hsorted, hfind⟩ :=
    ConcurrentMap.foldl_apply S init ops _ hgood [] OMap.Sorted.nil hfind0
  have hs := ConcurrentMap.BuildOrdinaryMap_sorted
    (ops.foldl (ConcurrentMap.apply init) (ConcurrentMap.ofBucketCount S))
  exact ⟨OMap.Sorted.ext hs hsorted hfind, hs.nodup, hs⟩

/-- Witness of C24: three buckets, the keys 5, -1 and 8, with an update of a present slot and
an erase. -/
theorem C24_ConcurrentMap_refines_map_witness :
    (1 : Nat) ≤ 3 ∧
    ([ConcurrentMap.Op.accumulate 5 (fun x => x + 2), .accumulate (-1) (fun x => x + 1),
      .accumulate 8 (fun x => x + 4), .accumulate 5 (fun x => x + 3),
      .erase 8].foldl (ConcurrentMap.apply (0 : Int))
        (ConcurrentMap.ofBucketCount 3)).BuildOrdinaryMap = [(-1, 1), (5, 5)] ∧
    (([ConcurrentMap.Op.accumulate 5 (fun x => x + 2), .accumulate (-1) (fun x => x + 1),
      .accumulate 8 (fun x => x + 4), .accumulate 5 (fun x => x + 3),
      .erase 8].foldl (ConcurrentMap.apply (0 : Int))
        (ConcurrentMap.ofBucketCount 3)).BuildOrdinaryMap
      = [ConcurrentMap.Op.accumulate 5 (fun x => x + 2), .accumulate (-1) (fun x => x + 1),
        .accumulate 8 (fun x => x + 4), .accumulate 5 (fun x => x + 3),
        .erase 8].foldl (ConcurrentMap.Op.on_map (0 : Int)) [] ∧
    (([ConcurrentMap.Op.accumulate 5 (fun x => x + 2), .accumulate (-1) (fun x => x + 1),
      .accumulate 8 (fun x => x + 4), .accumulate 5 (fun x => x + 3),
      .erase 8].foldl (ConcurrentMap.apply (0 : Int))
        (ConcurrentMap.ofBucketCount 3)).BuildOrdinaryMap.map Prod.fst).Nodup ∧
    OMap.Sorted
      ([ConcurrentMap.Op.accumulate 5 (fun x => x + 2), .accumulate (-1) (fun x => x + 1),
        .accumulate 8 (fun x => x + 4), .accumulate 5 (fun x => x + 3),
        .erase 8].foldl (ConcurrentMap.apply (0 : Int))
          (ConcurrentMap.ofBucketCount 3)).BuildOrdinaryMap) :=
  ⟨by decide, by decide,
    C24_ConcurrentMap_refines_map 3 (by decide) (0 : Int)
      [ConcurrentMap.Op.accumulate 5 (fun x => x + 2), .accumulate (-1) (fun x => x + 1),
        .accumulate 8 (fun x => x + 4), .accumulate 5 (fun x => x + 3), .erase 8]⟩

/-! ## The request queue keeps a sliding window -/

namespace RequestQueue

variable {K : Type}

/-- One round of bookkeeping on a queue that mirrors the window `w` of outcomes: the new window
is `w` with the outcome appended, without its oldest entry when `w` was full. -/
theorem AddFindRequest.record_window (q : RequestQueue) (w : List Bool) (e : Bool)
    (h1 : q.requests_.map (fun r => r.result) = w.map (fun b => !b))
    (h2 : q.empty_results_ = (w.count true : Int)) :
    (AddFindRequest.record q e).requests_.map (fun r => r.result) =
      (if w.length < min_in_day_ then w ++ [e] else w.tail ++ [e]).map (fun b => !b) ∧
    (AddFindRequest.record q e).empty_results_ =
      ((if w.length < min_in_day_ then w ++ [e] else w.tail ++ [e]).count true : Int) := by
  have hlen : q.requests_.length = w.length := by
    have := congrArg List.length h1
    simpa using this
  unfold AddFindRequest.record
  rw [hlen]
  by_cases hlt : w.length < min_in_day_
  · rw [if_pos hlt, if_pos hlt]
    cases e
    · simp [h1, h2]
    · simp [h1, h2, List.count_append]
  · rw [if_neg hlt, if_neg hlt]
    cases hq : q.requests_ with
    | nil =>
      rw [hq] at hlen
      simp only [List.length_nil] at hlen
      rw [← hlen] at hlt
      exact absurd (by decide : 0 < min_in_day_) hlt
    | cons front rest =>
      cases w with
      | nil => rw [hq] at hlen; simp at hlen
      | cons f w1 =>
        rw [hq] at h1
        simp only [List.map_cons, List.cons.injEq] at h1
        obtain ⟨hf, hrest⟩ := h1
        simp only [List.tail_cons]
        cases e <;> cases f <;>
          simp [hf, hrest, h2, List.count_append, List.count_cons]

/-- The most recent outcomes after one more outcome. -/
theorem recent_append (log : List Bool) (e : Bool) :
    recent (log ++ [e]) =
      if (recent log).length < min_in_day_ then recent log ++ [e]
      else (recent log).tail ++ [e] := by
  unfold recent min_in_day_
  simp only [List.length_append, List.length_singleton, List.length_drop, List.tail_drop]
  by_cases hl : log.length < 1440
  · have h0 : log.length - 1440 = 0 := by omega
    have h1 : log.length + 1 - 1440 = 0 := by omega
    rw [h0, h1, if_pos (by omega)]
    rfl
  · have h1 : log.length + 1 - 1440 = log.length - 1440 + 1 := by omega
    rw [if_neg (by omega), h1, List.drop_append_of_le_length (by omega)]

/-- The queue after the bookkeeping of a list of outcomes mirrors the most recent ones. -/
theorem foldl_record (log : List Bool) :
    (log.foldl AddFindRequest.record ofServer).requests_.map (fun r => r.result) =
      (recent log).map (fun b => !b) ∧
    (log.foldl AddFindRequest.record ofServer).empty_results_ =
      ((recent log).count true : Int) := by
  induction log using List.reverseRecOn with
  | nil => exact ⟨rfl, rfl⟩
  | append_singleton l e ih =>
    rw [List.foldl_append, List.foldl_cons, List.foldl_nil, recent_append]
    exact AddFindRequest.record_window _ _ e ih.1 ih.2

/-- The queue after a sequence of calls is the bookkeeping of the outcomes of the calls that
returned. -/
theorem run_eq [LinearOrderedField K] (ln : K → K)
    (calls : List (SearchServer K × List Char × DocumentPredicate)) (q : RequestQueue) :
    run ln calls q = (outcomes ln calls).foldl AddFindRequest.record q := by
  induction calls generalizing q with
  | nil => rfl
  | cons call rest ih =>
    unfold run outcomes at ih ⊢
    simp only [List.foldl_cons, List.filterMap_cons, AddFindRequest]
    cases SearchServer.FindTopDocuments .seq ln call.1 call.2.1 call.2.2 with
    | error e => exact ih q
    | ok documents =>
      simp only [List.foldl_cons]
      exact ih _

end RequestQueue

/-- Claim C26 as stated fails when a call throws. The one call `AddFindRequest("-")` on a new
queue throws `invalid_argument` before the bookkeeping: after this sequence of `n = 1` calls
the queue holds 0 entries, not `min(1, 1440) = 1`. -/
theorem C26_throwing_call_not_recorded :
    (RequestQueue.AddFindRequest Sample.ln Sample.one RequestQueue.ofServer "-".toList
      Sample.all).1 = .error (.invalid_argument "Query word  is invalid".toList) ∧
    ([(Sample.one, "-".toList, Sample.all)] :
      List (SearchServer ℚ × List Char × DocumentPredicate)).length = 1 ∧
    (RequestQueue.run Sample.ln [(Sample.one, "-".toList, Sample.all)]
      RequestQueue.ofServer).requests_.length = 0 ∧
    (RequestQueue.run Sample.ln [(Sample.one, "-".toList, Sample.all)]
      RequestQueue.ofServer).requests_.length ≠ min 1 1440 :=
  ⟨by decide!, by decide, by decide!, by decide!⟩

/-- Claim C26, amended. After any sequence of calls of `AddFindRequest` on a new
`RequestQueue`, with `n` the number of calls that returned (a call whose search throws
records nothing), the queue
holds `min(n, 1440)` entries, never more than 1440, and `GetNoResultRequests()` is the number
of empty result lists among the most recent `min(n, 1440)` calls that returned; the entries
are the outcomes of exactly those calls, oldest first. -/
theorem C26_RequestQueue_sliding_window {K : Type} [LinearOrderedField K] (ln : K → K)
    (calls : List (SearchServer K × List Char × DocumentPredicate)) :
    (RequestQueue.run ln calls RequestQueue.ofServer).requests_.length =
      min (RequestQueue.outcomes ln calls).length 1440 ∧
    (RequestQueue.run ln calls RequestQueue.ofServer).requests_.length ≤ 1440 ∧
    (RequestQueue.run ln calls RequestQueue.ofServer).GetNoResultRequests =
      ((((RequestQueue.outcomes ln calls).drop ((RequestQueue.outcomes ln calls).length -
        min (RequestQueue.outcomes ln calls).length 1440)).count true : Nat) : Int) ∧
    (RequestQueue.run ln calls RequestQueue.ofServer).requests_.map (fun r => r.result) =
      ((RequestQueue.outcomes ln calls).drop ((RequestQueue.outcomes ln calls).length -
        min (RequestQueue.outcomes ln calls).length 1440)).map (fun b => !b) := by
  obtain ⟨h1, h2⟩ := RequestQueue.foldl_record (RequestQueue.outcomes ln calls)
  rw [← RequestQueue.run_eq] at h1 h2
  have hdrop : (RequestQueue.outcomes ln calls).length -
      min (RequestQueue.outcomes ln calls).length 1440 =
      (RequestQueue.outcomes ln calls).length - RequestQueue.min_in_day_ := by
    unfold RequestQueue.min_in_day_
    omega
  have hlen : (RequestQueue.run ln calls RequestQueue.ofServer).requests_.length =
      min (RequestQueue.outcomes ln calls).length 1440 := by
    have := congrArg List.length h1
    simp only [List.length_map, RequestQueue.recent, List.length_drop,
      RequestQueue.min_in_day_] at this
    omega
  refine ⟨hlen, by omega, ?_, ?_⟩
  · rw [hdrop]
    exact h2
  · rw [hdrop]
    exact h1

/-! ## Removal of duplicates among documents without terms -/

/-- Claim C27, evaluated at two documents without terms. After
`SearchServer("in the"); AddDocument(1, "in the", ACTUAL, {1});
AddDocument(2, "the in", ACTUAL, {2})` both documents are live with the same (empty) set of
words, so `RemoveDuplicates` flags the id 2; its call `RemoveDocument(2)` throws
`std::out_of_range`, so `RemoveDuplicates` does not complete, prints nothing, and leaves the
id 2 in the live id set, without metadata. -/
theorem C27_RemoveDuplicates_zero_terms_throws :
    Reachable Sample.stop_pair ∧
    Sample.stop_pair.ids = [1, 2] ∧
    Sample.stop_pair.GetWordFrequencies 1 = [] ∧
    Sample.stop_pair.GetWordFrequencies 2 = [] ∧
    RemoveDuplicates.id_to_delete Sample.stop_pair = [2] ∧
    (RemoveDuplicates Sample.stop_pair).1 = .error .out_of_range ∧
    (RemoveDuplicates Sample.stop_pair).2.1.ids = [1, 2] ∧
    (RemoveDuplicates Sample.stop_pair).2.1.documents_.find? 2 = none ∧
    (RemoveDuplicates Sample.stop_pair).2.2 = [] :=
  ⟨Reachable.add _ _ _ _ _ (Reachable.add _ _ _ _ _
      (Reachable.init ["in".toList, "the".toList] Sample.stop rfl)),
    by decide, by decide, by decide, by decide, by decide, by decide, by decide, by decide⟩

/-! ## Stop words are not indexed -/

namespace SearchServer

variable {K : Type}

/-- The loop of `AddDocument` over `ws` leaves the index entry of a word outside `ws` alone. -/
theorem AddDocument.loop_index_other [LinearOrderedField K] (id : Int) (inv : K)
    (ws : List Word) (s : SearchServer K) (w : Word) (hw : w ∉ ws) :
    (ws.foldl (AddDocument.step id inv) s).word_to_document_freqs_.find? w =
      s.word_to_document_freqs_.find? w := by
  induction ws generalizing s with
  | nil => rfl
  | cons t rest ih =>
    simp only [List.foldl_cons]
    rw [ih _ (fun h => hw (List.mem_cons_of_mem _ h))]
    simp only [AddDocument.step, OMap.find?_upsert]
    rw [if_neg (fun h => hw (by rw [h]; exact List.mem_cons_self _ _))]

/-- The loop of `RemoveDocument` over `ws` leaves the index entry of a word outside `ws`
alone. -/
theorem RemoveDocument.loop_index_untouched (id : Int) (ws : List Word) (s : SearchServer K)
    (w : Word) (hw : w ∉ ws) :
    (ws.foldl (RemoveDocument.step id) s).word_to_document_freqs_.find? w =
      s.word_to_document_freqs_.find? w := by
  induction ws generalizing s with
  | nil => rfl
  | cons t rest ih =>
    simp only [List.foldl_cons]
    rw [ih _ (fun h => hw (List.mem_cons_of_mem _ h))]
    simp only [RemoveDocument.step, OMap.find?_upsert]
    rw [if_neg (fun h => hw (by rw [h]; exact List.mem_cons_self _ _))]

/-- The member `RemoveDocument` leaves the index entry of a word alone that the removed
document does not have. -/
theorem RemoveDocument_index_other [LinearOrderedField K] (policy : ExecutionPolicy)
    (s : SearchServer K) (id : Int) (w : Word) (hw : s.forward_freq id w = none) :
    (RemoveDocument policy s id).2.word_to_document_freqs_.find? w =
      s.word_to_document_freqs_.find? w := by
  have key : ∀ word_freq : OMap Word K, s.document_to_word_freqs_.find? id = some word_freq →
      ((word_freq.map Prod.fst).foldl (RemoveDocument.step id)
        { s with documents_ := s.documents_.erase id }).word_to_document_freqs_.find? w
        = s.word_to_document_freqs_.find? w := by
    intro word_freq hf
    rw [RemoveDocument.loop_index_untouched]
    rw [← OMap.find?_eq_none_iff]
    simpa [forward_freq, OMap.get2, hf] using hw
  cases policy
  · simp only [RemoveDocument, RemoveDocument_seq]
    split
    · rfl
    · simp only [OMap.at]
      cases hf : s.document_to_word_freqs_.find? id with
      | none => rfl
      | some word_freq =>
        simp only
        rw [← List.foldl_map]
        exact key word_freq hf
  · simp only [RemoveDocument, RemoveDocument_par]
    split
    · rfl
    · simp only [OMap.at]
      cases hf : s.document_to_word_freqs_.find? id with
      | none => rfl
      | some word_freq => exact key word_freq hf

/-- A call of `AddDocument` that does not return normally leaves the store as it was. -/
theorem AddDocument_error_state [LinearOrderedField K] (s : SearchServer K) (id : Int)
    (text : List Char) (status : DocumentStatus) (ratings : List Int)
    (h : (s.AddDocument id text status ratings).1 ≠ .ok ()) :
    (s.AddDocument id text status ratings).2 = s := by
  unfold AddDocument at h ⊢
  split
  · rfl
  · rename_i hcond
    rw [if_neg hcond] at h
    split
    · rfl
    · rename_i words hwords
      rw [hwords] at h
      exact absurd rfl h

end SearchServer

/-- In every reachable store no stop word is a key of the inverted index or of the
word-frequency map of a document. -/
theorem Reachable.no_stop_word_indexed {K : Type} [LinearOrderedField K] {s : SearchServer K}
    (h : Reachable s) (w : Word) (hw : s.IsStopWord w = true) :
    s.word_to_document_freqs_.find? w = none ∧ ∀ d, s.forward_freq d w = none := by
  induction h with
  | init stop_words s h =>
    unfold SearchServer.ofContainer at h
    simp only at h
    split at h
    · cases h
    · cases h
      exact ⟨rfl, fun d => rfl⟩
  | add s id text status ratings hs ih =>
    have hw0 : s.IsStopWord w = true := by
      simpa only [SearchServer.IsStopWord, SearchServer.AddDocument_stop_words] using hw
    obtain ⟨i1, i2⟩ := ih hw0
    by_cases hok : (s.AddDocument id text status ratings).1 = .ok ()
    · obtain ⟨-, -, -, hstate⟩ := SearchServer.AddDocument_ok s id text status ratings hok
      have hnot : w ∉ s.non_stop_tokens text := by
        intro hmem
        have := (List.mem_filter.mp hmem).2
        simp [hw0] at this
      rw [hstate]
      constructor
      · simp only
        rw [SearchServer.AddDocument.loop_index_other _ _ _ _ _ hnot]
        exact i1
      · intro d
        have hff : ∀ (s1 : SearchServer K) (docs : OMap Int DocumentData) (ids : OSet Int),
            ({ s1 with documents_ := docs, document_ids_ := ids } : SearchServer K).forward_freq
              d w = s1.forward_freq d w := fun _ _ _ => rfl
        rw [hff, SearchServer.AddDocument.loop_forward_freq,
          if_neg (fun hc => hnot hc.2)]
        exact i2 d
    · rw [SearchServer.AddDocument_error_state s id text status ratings hok]
      exact ⟨i1, i2⟩
  | remove policy s id hs ih =>
    have hw0 : s.IsStopWord w = true := by
      simpa only [SearchServer.IsStopWord, SearchServer.RemoveDocument_stop_words] using hw
    obtain ⟨i1, i2⟩ := ih hw0
    constructor
    · rw [SearchServer.RemoveDocument_index_other policy s id w (i2 id)]
      exact i1
    · intro d
      simp only [SearchServer.forward_freq, OMap.get2]
      cases hf : (SearchServer.RemoveDocument policy s id).2.document_to_word_freqs_.find? d with
      | none => rfl
      | some m =>
        have hsub := SearchServer.RemoveDocument_forward_sub policy s id d m hf
        have := i2 d
        simp only [SearchServer.forward_freq, OMap.get2, hsub, Option.some_bind] at this
        simpa using this

/-! ## Queries of stop words, with and without a stop-word set -/

namespace SearchServer

variable {K : Type}

/-- A valid token that does not start with `-` is not malformed. -/
theorem malformed_of_plain (w : Word) (hhead : w.head? ≠ some '-')
    (hvalid : IsValidWord w = true) : malformed w = false := by
  have hany : w.any (fun c => decide (c.toNat < 32)) = false := by
    rw [IsValidWord_eq_any] at hvalid
    simpa using hvalid
  cases w with
  | nil => simp [malformed, query_word]
  | cons c rest =>
    have hc : c ≠ '-' := by simpa using hhead
    have hc2 : ¬ '-' = c := fun h => hc h.symm
    cases rest with
    | nil =>
      simp only [malformed, query_word, List.head?_cons, Option.some.injEq, hc, if_false,
        hany, Bool.or_false, List.cons.injEq, and_true, decide_False, List.take]
      simp [hc]
    | cons c2 rest2 =>
      simp only [malformed, query_word, List.head?_cons, Option.some.injEq, hc, if_false,
        hany, Bool.or_false]
      simp [hc]

/-- A query text whose tokens are all stop words, when it parses, has no results. -/
theorem FindTopDocuments_stop_query [LinearOrderedField K] (policy : ExecutionPolicy)
    (ln : K → K) (s : SearchServer K) (hinv : Inv s) (raw_query : List Char)
    (pred : DocumentPredicate) (parsed : Query)
    (hparse : s.ParseQuery policy raw_query = .ok parsed)
    (hstop : ∀ t ∈ SplitIntoWords raw_query, s.IsStopWord t = true) :
    FindTopDocuments policy ln s raw_query pred = .ok [] := by
  obtain ⟨query, hq⟩ := FindTopDocuments.query_of_parse policy s raw_query parsed hparse
  have hplus : s.plus_terms raw_query = [] := by
    unfold plus_terms
    rw [List.filter_eq_nil_iff]
    intro t ht
    simp [hstop t ht]
  have hwords : query.plus_words = [] := by
    rw [(FindTopDocuments.query_spec policy s raw_query query hq).1, hplus]
    rfl
  have hrel : s.relevance_map ln pred query = [] := by
    unfold relevance_map
    rw [List.filterMap_eq_nil_iff]
    intro d _
    unfold score
    rw [hwords]
    split <;> rfl
  rw [FindTopDocuments_eq policy ln s hinv raw_query pred query hq, hrel]
  rfl

end SearchServer

/-! ## The bucket of a key -/

/-- Claim C31. For every bucket count `S ≥ 1` and every sequence of operations on a new
`ConcurrentMap`: the map keeps its `S` buckets; the bucket of a key `k`, negative keys
included, is `(uint64_t)k % S`, which is below `S`; `operator[]` followed by an update and
`erase` change the bucket of their key in the way of `std::map` and leave every other bucket
as it was; a key stored in bucket `i` has `i` as its bucket; and the keys of all buckets
together are distinct, so no key is held by two buckets. -/
theorem C31_ConcurrentMap_shard_discipline {V : Type} (S : Nat) (hS : 1 ≤ S) (init : V)
    (ops : List (ConcurrentMap.Op V)) :
    (ops.foldl (ConcurrentMap.apply init) (ConcurrentMap.ofBucketCount S)).maps_.length = S ∧
    (∀ key : Int,
      (ops.foldl (ConcurrentMap.apply init) (ConcurrentMap.ofBucketCount S)).index key =
        (key % 2 ^ 64).toNat % S ∧
      (ops.foldl (ConcurrentMap.apply init) (ConcurrentMap.ofBucketCount S)).index key < S) ∧
    (∀ (key : Int) (update : V → V) (j : Nat),
      ((ops.foldl (ConcurrentMap.apply init) (ConcurrentMap.ofBucketCount S)).modify key init
          update).maps_.getD j [] =
        if j = (key % 2 ^ 64).toNat % S then
          ((ops.foldl (ConcurrentMap.apply init) (ConcurrentMap.ofBucketCount S)).maps_.getD j
            []).upsert key init update
        else
          (ops.foldl (ConcurrentMap.apply init) (ConcurrentMap.ofBucketCount S)).maps_.getD j
            []) ∧
    (∀ (key : Int) (j : Nat),
      ((ops.foldl (ConcurrentMap.apply init) (ConcurrentMap.ofBucketCount S)).erase
          key).maps_.getD j [] =
        if j = (key % 2 ^ 64).toNat % S then
          OMap.erase key
            ((ops.foldl (ConcurrentMap.apply init) (ConcurrentMap.ofBucketCount S)).maps_.getD j
              [])
        else
          (ops.foldl (ConcurrentMap.apply init) (ConcurrentMap.ofBucketCount S)).maps_.getD j
            []) ∧
    (∀ (i : Nat) (key : Int),
      key ∈ ((ops.foldl (ConcurrentMap.apply init)
        (ConcurrentMap.ofBucketCount S)).maps_.getD i []).map Prod.fst →
      i = (key % 2 ^ 64).toNat % S) ∧
    ((ops.foldl (ConcurrentMap.apply init)
      (ConcurrentMap.ofBucketCount S)).maps_.flatten.map Prod.fst).Nodup := by
  have hgood0 : ConcurrentMap.Good S (ConcurrentMap.ofBucketCount S : ConcurrentMap V) :=
    ConcurrentMap.ofBucketCount_good S hS
  have hgood : ConcurrentMap.Good S
      (ops.foldl (ConcurrentMap.apply init) (ConcurrentMap.ofBucketCount S)) :=
    foldl_preserves (ConcurrentMap.Good S) _
      (fun m op hm => ConcurrentMap.apply_good S init m hm op) ops _ hgood0
  generalize ops.foldl (ConcurrentMap.apply init) (ConcurrentMap.ofBucketCount S) = m at hgood ⊢
  obtain ⟨hlen, hpos, hdisc⟩ := hgood
  have hidx : ∀ key : Int, m.index key = (key % 2 ^ 64).toNat % S := by
    intro key
    simp only [ConcurrentMap.index, hlen]
  have hlt : ∀ key : Int, (key % 2 ^ 64).toNat % S < m.maps_.length := by
    intro key
    rw [hlen]
    exact Nat.mod_lt _ hpos
  refine ⟨hlen, fun key => ⟨hidx key, by rw [hidx key]; exact Nat.mod_lt _ hpos⟩, ?_, ?_, ?_, ?_⟩
  · intro key update j
    simp only [ConcurrentMap.modify, ConcurrentMap.getD_set, hidx key]
    by_cases hj : j = (key % 2 ^ 64).toNat % S
    · subst hj
      rw [if_pos ⟨rfl, hlt key⟩, if_pos rfl]
    · have hj2 : ¬ ((key % 2 ^ 64).toNat % S = j ∧ (key % 2 ^ 64).toNat % S < m.maps_.length) :=
        fun hc => hj hc.1.symm
      rw [if_neg hj2, if_neg hj]
  · intro key j
    simp only [ConcurrentMap.erase, ConcurrentMap.getD_set, hidx key]
    by_cases hj : j = (key % 2 ^ 64).toNat % S
    · subst hj
      rw [if_pos ⟨rfl, hlt key⟩, if_pos rfl]
    · have hj2 : ¬ ((key % 2 ^ 64).toNat % S = j ∧ (key % 2 ^ 64).toNat % S < m.maps_.length) :=
        fun hc => hj hc.1.symm
      rw [if_neg hj2, if_neg hj]
  · intro i key hkey
    have := (ConcurrentMap.Disciplined.bucket _ 0 _ hdisc i).2 key hkey
    simp only [Nat.zero_add] at this
    exact this.symm
  · exact ConcurrentMap.Disciplined.keys_nodup _ 0 _ hdisc

/-- Witness of C31: three buckets and the keys 5, -1 and 8; the key -1 converts to
`2 ^ 64 - 1`, whose bucket is 0. -/
theorem C31_ConcurrentMap_shard_discipline_witness :
    (1 : Nat) ≤ 3 ∧
    ([ConcurrentMap.Op.accumulate 5 (fun x => x + 2), .accumulate (-1) (fun x => x + 1),
      .accumulate 8 (fun x => x + 4), .erase 5].foldl (ConcurrentMap.apply (0 : Int))
        (ConcurrentMap.ofBucketCount 3)).maps_ = [[(-1, 1)], [], [(8, 4)]] ∧
    (([ConcurrentMap.Op.accumulate 5 (fun x => x + 2), .accumulate (-1) (fun x => x + 1),
      .accumulate 8 (fun x => x + 4), .erase 5].foldl (ConcurrentMap.apply (0 : Int))
        (ConcurrentMap.ofBucketCount 3)).maps_.length = 3 ∧
    (∀ key : Int,
      ([ConcurrentMap.Op.accumulate 5 (fun x => x + 2), .accumulate (-1) (fun x => x + 1),
        .accumulate 8 (fun x => x + 4), .erase 5].foldl (ConcurrentMap.apply (0 : Int))
          (ConcurrentMap.ofBucketCount 3)).index key = (key % 2 ^ 64).toNat % 3 ∧
      ([ConcurrentMap.Op.accumulate 5 (fun x => x + 2), .accumulate (-1) (fun x => x + 1),
        .accumulate 8 (fun x => x + 4), .erase 5].foldl (ConcurrentMap.apply (0 : Int))
          (ConcurrentMap.ofBucketCount 3)).index key < 3) ∧
    (∀ (key : Int) (update : Int → Int) (j : Nat),
      (([ConcurrentMap.Op.accumulate 5 (fun x => x + 2), .accumulate (-1) (fun x => x + 1),
        .accumulate 8 (fun x => x + 4), .erase 5].foldl (ConcurrentMap.apply (0 : Int))
          (ConcurrentMap.ofBucketCount 3)).modify key 0 update).maps_.getD j [] =
        if j = (key % 2 ^ 64).toNat % 3 then
          (([ConcurrentMap.Op.accumulate 5 (fun x => x + 2), .accumulate (-1) (fun x => x + 1),
            .accumulate 8 (fun x => x + 4), .erase 5].foldl (ConcurrentMap.apply (0 : Int))
              (ConcurrentMap.ofBucketCount 3)).maps_.getD j []).upsert key 0 update
        else
          ([ConcurrentMap.Op.accumulate 5 (fun x => x + 2), .accumulate (-1) (fun x => x + 1),
            .accumulate 8 (fun x => x + 4), .erase 5].foldl (ConcurrentMap.apply (0 : Int))
              (ConcurrentMap.ofBucketCount 3)).maps_.getD j []) ∧
    (∀ (key : Int) (j : Nat),
      (([ConcurrentMap.Op.accumulate 5 (fun x => x + 2), .accumulate (-1) (fun x => x + 1),
        .accumulate 8 (fun x => x + 4), .erase 5].foldl (ConcurrentMap.apply (0 : Int))
          (ConcurrentMap.ofBucketCount 3)).erase key).maps_.getD j [] =
        if j = (key % 2 ^ 64).toNat % 3 then
          OMap.erase key
            (([ConcurrentMap.Op.accumulate 5 (fun x => x + 2), .accumulate (-1) (fun x => x + 1),
              .accumulate 8 (fun x => x + 4), .erase 5].foldl (ConcurrentMap.apply (0 : Int))
                (ConcurrentMap.ofBucketCount 3)).maps_.getD j [])
        else
          ([ConcurrentMap.Op.accumulate 5 (fun x => x + 2), .accumulate (-1) (fun x => x + 1),
            .accumulate 8 (fun x => x + 4), .erase 5].foldl (ConcurrentMap.apply (0 : Int))
              (ConcurrentMap.ofBucketCount 3)).maps_.getD j []) ∧
    (∀ (i : Nat) (key : Int),
      key ∈ (([ConcurrentMap.Op.accumulate 5 (fun x => x + 2), .accumulate (-1) (fun x => x + 1),
        .accumulate 8 (fun x => x + 4), .erase 5].foldl (ConcurrentMap.apply (0 : Int))
          (ConcurrentMap.ofBucketCount 3)).maps_.getD i []).map Prod.fst →
      i = (key % 2 ^ 64).toNat % 3) ∧
    (([ConcurrentMap.Op.accumulate 5 (fun x => x + 2), .accumulate (-1) (fun x => x + 1),
      .accumulate 8 (fun x => x + 4), .erase 5].foldl (ConcurrentMap.apply (0 : Int))
        (ConcurrentMap.ofBucketCount 3)).maps_.flatten.map Prod.fst).Nodup) :=
  ⟨by decide, by decide,
    C31_ConcurrentMap_shard_discipline 3 (by decide) (0 : Int)
      [ConcurrentMap.Op.accumulate 5 (fun x => x + 2), .accumulate (-1) (fun x => x + 1),
        .accumulate 8 (fun x => x + 4), .erase 5]⟩

/-! ## What `AddDocument` leaves alone -/

namespace SearchServer

variable {K : Type}

/-- The loop of `AddDocument` leaves the forward entries of the other documents alone. -/
theorem AddDocument.loop_forward_other [LinearOrderedField K] (id : Int) (inv : K)
    (ws : List Word) (s : SearchServer K) (d : Int) (hd : d ≠ id) :
    (ws.foldl (AddDocument.step id inv) s).document_to_word_freqs_.find? d =
      s.document_to_word_freqs_.find? d := by
  induction ws generalizing s with
  | nil => rfl
  | cons w rest ih =>
    simp only [List.foldl_cons]
    rw [ih]
    simp only [AddDocument.step, OMap.find?_upsert, if_neg hd]

/-- The loop of `AddDocument` leaves the live id set alone. -/
theorem AddDocument.loop_ids [LinearOrderedField K] (id : Int) (inv : K)
    (ws : List Word) (s : SearchServer K) :
    (ws.foldl (AddDocument.step id inv) s).document_ids_ = s.document_ids_ := by
  induction ws generalizing s with
  | nil => rfl
  | cons w rest ih =>
    simp only [List.foldl_cons]
    rw [ih]
    rfl

/-- Lookup of another key after `emplace`. -/
theorem find?_emplace_other (m : OMap Int DocumentData) (k k' : Int) (v : DocumentData)
    (h : k' ≠ k) : (emplace m k v).find? k' = m.find? k' := by
  unfold emplace
  split
  · rfl
  · rw [OMap.find?_insert, if_neg h]

end SearchServer

/-- Claim C32, evaluated after a removal. After `AddDocument(7, "cat city", ACTUAL, {1})` and
`RemoveDocument(7)` on a new server, the removal having returned normally, "cat" is still a
key of the inverted index and its postings are empty; the test
`word_to_document_freqs_.count(word) == 0` of `FindAllDocuments` does not hold for it, so
`FindTopDocuments("cat")` evaluates `ComputeWordInverseDocumentFreq("cat")`, whose
denominator, the size of the postings, is 0. The same holds for "dog" after
`RemoveDocument(3)` on the sample server with the documents 7 and 3, where a document is
left. -/
theorem C32_index_key_with_empty_postings :
    Reachable Sample.one_removed ∧
    (SearchServer.RemoveDocument .seq Sample.one 7).1 = .ok () ∧
    Sample.one_removed.word_to_document_freqs_.find? "cat".toList = some [] ∧
    Sample.one_removed.word_to_document_freqs_.count "cat".toList = 1 ∧
    Sample.one_removed.document_freq "cat".toList = 0 ∧
    SearchServer.ComputeWordInverseDocumentFreq Sample.ln Sample.one_removed "cat".toList
      = .ok (Sample.ln ((Sample.one_removed.GetDocumentCount : ℚ) * 1 / ((0 : Nat) : ℚ))) ∧
    SearchServer.FindTopDocuments .seq Sample.ln Sample.one_removed "cat".toList Sample.all
      = .ok [] ∧
    Reachable Sample.two_removed ∧
    (SearchServer.RemoveDocument .par Sample.two 3).2 = Sample.two_removed ∧
    Sample.two_removed.GetDocumentCount = 1 ∧
    Sample.two_removed.word_to_document_freqs_.find? "dog".toList = some [] ∧
    SearchServer.ComputeWordInverseDocumentFreq Sample.ln Sample.two_removed "dog".toList
      = .ok (Sample.ln ((1 : ℚ) * 1 / ((0 : Nat) : ℚ))) :=
  ⟨Reachable.remove _ _ _ (Reachable.add _ _ _ _ _ (Reachable.init [] Sample.empty rfl)),
    by decide!, by decide!, by decide!, by decide!, by decide!, by decide!,
    Reachable.remove _ _ _ Sample.two_reachable, by decide!, by decide!, by decide!,
    by decide!⟩

/-! ## Results depend on the sets of query tokens -/

namespace SearchServer

variable {K : Type}

end SearchServer

namespace SearchServer

variable {K : Type}

/-- A sequence of calls of `AddDocument` leads from a reachable store to a reachable store. -/
theorem AddDocuments_reachable [LinearOrderedField K] (calls : List AddDocumentCall)
    (s : SearchServer K) (h : Reachable s) : Reachable (s.AddDocuments calls) := by
  induction calls generalizing s with
  | nil => exact h
  | cons call rest ih =>
    exact ih _ (Reachable.add s call.document_id call.document call.status call.ratings h)

/-- A sequence of calls of `AddDocument` leaves the stop words alone. -/
theorem AddDocuments_stop_words [LinearOrderedField K] (calls : List AddDocumentCall)
    (s : SearchServer K) : (s.AddDocuments calls).stop_words_ = s.stop_words_ := by
  induction calls generalizing s with
  | nil => rfl
  | cons call rest ih =>
    exact (ih _).trans (AddDocument_stop_words s _ _ _ _)

/-- A sequence of calls in two parts is the second part run on the store of the first. -/
theorem AddDocuments_append [LinearOrderedField K] (calls₁ calls₂ : List AddDocumentCall)
    (s : SearchServer K) :
    s.AddDocuments (calls₁ ++ calls₂) = (s.AddDocuments calls₁).AddDocuments calls₂ := by
  unfold AddDocuments
  rw [List.foldl_append]

/-- A call of `AddDocument` keeps every live document: it stays live and keeps its metadata
and its entry in the forward map. -/
theorem AddDocument_keeps [LinearOrderedField K] (s : SearchServer K) (id : Int)
    (text : List Char) (status : DocumentStatus) (ratings : List Int) (d : Int)
    (hd : d ∈ s.document_ids_) :
    d ∈ (s.AddDocument id text status ratings).2.document_ids_ ∧
    (s.AddDocument id text status ratings).2.documents_.find? d = s.documents_.find? d ∧
    (s.AddDocument id text status ratings).2.document_to_word_freqs_.find? d =
      s.document_to_word_freqs_.find? d := by
  by_cases hok : (s.AddDocument id text status ratings).1 = .ok ()
  · obtain ⟨-, hfresh, -, hstate⟩ := AddDocument_ok s id text status ratings hok
    have hne : d ≠ id := fun h => hfresh (h ▸ hd)
    rw [hstate]
    refine ⟨?_, ?_, ?_⟩
    · simp only [AddDocument.loop_ids]
      exact (OSet.mem_insert _ _ _).mpr (Or.inr hd)
    · simp only [AddDocument.loop_documents]
      exact find?_emplace_other _ _ _ _ hne
    · exact AddDocument.loop_forward_other id _ _ s d hne
  · rw [AddDocument_error_state s id text status ratings hok]
    exact ⟨hd, rfl, rfl⟩

/-- A sequence of calls of `AddDocument` keeps every live document. -/
theorem AddDocuments_keeps [LinearOrderedField K] (calls : List AddDocumentCall)
    (s : SearchServer K) (d : Int) (hd : d ∈ s.document_ids_) :
    d ∈ (s.AddDocuments calls).document_ids_ ∧
    (s.AddDocuments calls).documents_.find? d = s.documents_.find? d ∧
    (s.AddDocuments calls).document_to_word_freqs_.find? d =
      s.document_to_word_freqs_.find? d := by
  induction calls generalizing s with
  | nil => exact ⟨hd, rfl, rfl⟩
  | cons call rest ih =>
    obtain ⟨h1, h2, h3⟩ :=
      AddDocument_keeps s call.document_id call.document call.status call.ratings d hd
    obtain ⟨i1, i2, i3⟩ := ih _ h1
    exact ⟨i1, i2.trans h2, i3.trans h3⟩

/-- In a store without stop words every token of a text is a non-stop token. -/
theorem non_stop_tokens_of_no_stop_words (s : SearchServer K) (h : s.stop_words_ = [])
    (text : List Char) : s.non_stop_tokens text = SplitIntoWords text := by
  unfold non_stop_tokens
  rw [List.filter_eq_self]
  intro w _
  simp [IsStopWord, OSet.count, h]

/-- After a call of `AddDocument` that returns normally in a store that satisfies the
invariant and has no stop words, the new document is live, has the metadata of the call, and
every token of its text is a key of its entry in the forward map. -/
theorem AddDocument_plain [LinearOrderedField K] (s : SearchServer K) (hinv : Inv s)
    (hno : s.stop_words_ = []) (id : Int) (text : List Char) (status : DocumentStatus)
    (ratings : List Int) (h : (s.AddDocument id text status ratings).1 = .ok ()) :
    id ∈ (s.AddDocument id text status ratings).2.document_ids_ ∧
    (s.AddDocument id text status ratings).2.documents_.find? id =
      some ⟨ComputeAverageRating ratings, status⟩ ∧
    ∀ t ∈ SplitIntoWords text,
      ((s.AddDocument id text status ratings).2.forward_freq id t).isSome = true := by
  have hdata := AddDocument_stored s hinv id text status ratings h
  have hinv1 := AddDocument_inv s id text status ratings hinv
  refine ⟨hinv1.data_is_live id (by rw [hdata]; rfl), hdata, ?_⟩
  intro t ht
  rw [← GetWordFrequencies_find?, AddDocument_find? s hinv id text status ratings h t,
    non_stop_tokens_of_no_stop_words s hno, if_pos ht]
  rfl

/-- In a store without stop words, for a query text without a token that starts with `-`, a
document matches exactly when it satisfies the predicate and has one of the tokens. -/
theorem is_match_plain (s : SearchServer K) (hno : s.stop_words_ = []) (raw_query : List Char)
    (hplain : ∀ t ∈ SplitIntoWords raw_query, t.head? ≠ some '-') (pred : DocumentPredicate)
    (d : Int) :
    s.is_match raw_query pred d =
      (s.satisfies pred d && s.has_word_of (SplitIntoWords raw_query) d) := by
  have hplus : s.plus_terms raw_query = SplitIntoWords raw_query := by
    unfold plus_terms
    rw [List.filter_eq_self]
    intro w hw
    simp [IsStopWord, OSet.count, hno, hplain w hw]
  have hminus : s.minus_terms raw_query = [] := by
    unfold minus_terms
    have : (SplitIntoWords raw_query).filter (fun w => decide (w.head? = some '-')) = [] := by
      rw [List.filter_eq_nil_iff]
      intro w hw
      simp [hplain w hw]
    rw [this]
    rfl
  unfold is_match has_word_of contains
  rw [hplus, hminus]
  simp only [List.any_nil, Bool.not_false, Bool.and_true, GetWordFrequencies_find?]

end SearchServer

namespace SearchServer

variable {K : Type}

/-- The server that the constructor returns for an empty container has no stop words. -/
theorem ofContainer_nil [LinearOrderedField K] (b : SearchServer K)
    (hb : ofContainer [] = .ok b) : b.stop_words_ = [] := by
  unfold ofContainer at hb
  simp only [MakeUniqueNonEmptyStrings, List.foldl_nil, List.all_nil, Bool.not_true,
    Bool.false_eq_true, if_false, Except.ok.injEq] at hb
  rw [← hb]

/-- A call of a sequence that returns normally on a server without stop words leaves its
document in the final store: live, with the metadata of the call, and with every token of
its text as a key of its entry in the forward map. -/
theorem AddDocuments_plain [LinearOrderedField K] (b : SearchServer K) (hb : Reachable b)
    (hno : b.stop_words_ = []) (calls : List AddDocumentCall) (i : Nat)
    (call : AddDocumentCall) (hcall : calls[i]? = some call)
    (hok : ((b.AddDocuments (calls.take i)).AddDocument call.document_id call.document
      call.status call.ratings).1 = .ok ()) :
    call.document_id ∈ (b.AddDocuments calls).document_ids_ ∧
    (b.AddDocuments calls).documents_.find? call.document_id =
      some ⟨ComputeAverageRating call.ratings, call.status⟩ ∧
    ∀ t ∈ SplitIntoWords call.document,
      ((b.AddDocuments calls).forward_freq call.document_id t).isSome = true := by
  have hsplit : calls = calls.take i ++ call :: calls.drop (i + 1) := by
    obtain ⟨hi, hget⟩ := List.getElem?_eq_some_iff.mp hcall
    rw [← hget, ← List.drop_eq_getElem_cons hi, List.take_append_drop]
  have hpre := AddDocuments_reachable (calls.take i) b hb
  have hno' : (b.AddDocuments (calls.take i)).stop_words_ = [] := by
    rw [AddDocuments_stop_words, hno]
  obtain ⟨h1, h2, h3⟩ := AddDocument_plain _ hpre.inv hno' call.document_id call.document
    call.status call.ratings hok
  have hrun : b.AddDocuments calls =
      (((b.AddDocuments (calls.take i)).AddDocument call.document_id call.document
        call.status call.ratings).2).AddDocuments (calls.drop (i + 1)) := by
    conv_lhs => rw [hsplit]
    rw [AddDocuments_append]
    rfl
  obtain ⟨k1, k2, k3⟩ := AddDocuments_keeps (calls.drop (i + 1)) _ call.document_id h1
  rw [hrun]
  refine ⟨k1, k2.trans h2, ?_⟩
  intro t ht
  have := h3 t ht
  unfold forward_freq OMap.get2 at this ⊢
  rw [k3]
  exact this

end SearchServer

/-- Claim C30 as stated fails in its part on queries. With the stop word "-" the query "-",
made only of a stop word, does not return an empty result: it throws. With the stop word "-x"
and the document "-x y", the query "-x" finds nothing on the server without stop words. On
the server without stop words with the six sample documents, which all have the word "cat",
the query "cat" returns five of them and not document 6, and the query "emu" under the default
status `ACTUAL` does not return document 3, which has the word and is `BANNED`. -/
theorem C30_stop_word_query_not_always_empty :
    ((SearchServer.ofContainer ["-".toList] : Except Exception (SearchServer ℚ))
      = .ok Sample.hyphen ∧
    Sample.hyphen.IsStopWord "-".toList = true ∧
    SearchServer.FindTopDocuments .seq Sample.ln (Sample.hyphen.AddDocuments Sample.hyphen_calls)
      "-".toList Sample.all = .error (.invalid_argument "Query word  is invalid".toList)) ∧
    ((SearchServer.ofContainer ["-x".toList] : Except Exception (SearchServer ℚ))
      = .ok Sample.dash ∧
    Sample.dash.IsStopWord "-x".toList = true ∧
    (Sample.dash.AddDocuments Sample.dash_calls).document_to_word_freqs_.find? 1
      = some [("y".toList, 1)] ∧
    (Sample.empty.AddDocuments Sample.dash_calls).document_to_word_freqs_.find? 1
      = some [("-x".toList, 1 / 2), ("y".toList, 1 / 2)] ∧
    SearchServer.FindTopDocuments .seq Sample.ln (Sample.empty.AddDocuments Sample.dash_calls)
      "-x".toList Sample.all = .ok []) ∧
    (((Sample.empty.AddDocuments Sample.six_calls).forward_freq 6 "cat".toList).isSome = true ∧
    SearchServer.FindTopDocuments .seq Sample.ln (Sample.empty.AddDocuments Sample.six_calls)
      "cat".toList Sample.all
      = .ok [⟨2, 0, 9⟩, ⟨5, 0, 7⟩, ⟨4, 0, 4⟩, ⟨1, 0, 3⟩, ⟨3, 0, 2⟩]) ∧
    (((Sample.empty.AddDocuments Sample.six_calls).forward_freq 3 "emu".toList).isSome = true ∧
    SearchServer.FindTopDocuments_actual .seq Sample.ln
      (Sample.empty.AddDocuments Sample.six_calls) "emu".toList = .ok [⟨6, 1 / 2, 1⟩]) :=
  ⟨⟨by decide, by decide, by decide!⟩, ⟨by decide, by decide, by decide!, by decide!, by decide!⟩,
    ⟨by decide!, by decide!⟩, ⟨by decide!, by decide!⟩⟩

/-- Claim C30, amended. Take a server `a` built with the stop words `W` and a server `b`
built without stop words, and run the same sequence of calls of `AddDocument` on both. On
`a`, no stop word is a key of the inverted index or of the entry of any document in the
forward map, and a query text whose tokens are all stop words has an empty result whenever
it parses (always when no token starts with `-`). On `b`, for such a text without a token
that starts with `-` and for every predicate, `FindTopDocuments` returns `min 5 n` of the `n`
live documents that satisfy the predicate and have one of the tokens, each once, hence all
of them when `n ≤ 5`; and every call that returned normally left its document live, with
the metadata of the call and with every token of its text in its entry of the forward map. -/
theorem C30_stop_words_not_indexed {K : Type} [LinearOrderedField K] (W : List Word)
    (a b : SearchServer K) (ha : SearchServer.ofContainer W = .ok a)
    (hb : SearchServer.ofContainer [] = .ok b) (calls : List AddDocumentCall) :
    (∀ w, a.IsStopWord w = true →
      (a.AddDocuments calls).word_to_document_freqs_.find? w = none ∧
      ∀ d, (a.AddDocuments calls).forward_freq d w = none) ∧
    (∀ (policy : ExecutionPolicy) (ln : K → K) (raw_query : List Char)
      (pred : DocumentPredicate) (query : Query),
      (∀ t ∈ SplitIntoWords raw_query, a.IsStopWord t = true) →
      (a.AddDocuments calls).ParseQuery policy raw_query = .ok query →
      SearchServer.FindTopDocuments policy ln (a.AddDocuments calls) raw_query pred = .ok []) ∧
    (∀ (policy : ExecutionPolicy) (ln : K → K) (raw_query : List Char)
      (pred : DocumentPredicate),
      (∀ t ∈ SplitIntoWords raw_query, a.IsStopWord t = true ∧ t.head? ≠ some '-') →
      SearchServer.FindTopDocuments policy ln (a.AddDocuments calls) raw_query pred = .ok [] ∧
      ∃ docs, SearchServer.FindTopDocuments policy ln (b.AddDocuments calls) raw_query pred
          = .ok docs ∧
        docs.length = min 5 ((b.AddDocuments calls).document_ids_.filter (fun d =>
          (b.AddDocuments calls).satisfies pred d &&
            (b.AddDocuments calls).has_word_of (SplitIntoWords raw_query) d)).length ∧
        (∀ d, d ∈ docs.map (fun doc => doc.id) →
          d ∈ (b.AddDocuments calls).document_ids_ ∧
          (b.AddDocuments calls).satisfies pred d = true ∧
          (b.AddDocuments calls).has_word_of (SplitIntoWords raw_query) d = true) ∧
        (docs.map (fun doc => doc.id)).Nodup ∧
        (((b.AddDocuments calls).document_ids_.filter (fun d =>
          (b.AddDocuments calls).satisfies pred d &&
            (b.AddDocuments calls).has_word_of (SplitIntoWords raw_query) d)).length ≤ 5 →
          ∀ d, d ∈ (b.AddDocuments calls).document_ids_ →
            (b.AddDocuments calls).satisfies pred d = true →
            (b.AddDocuments calls).has_word_of (SplitIntoWords raw_query) d = true →
            d ∈ docs.map (fun doc => doc.id))) ∧
    (∀ (i : Nat) (call : AddDocumentCall), calls[i]? = some call →
      ((b.AddDocuments (calls.take i)).AddDocument call.document_id call.document
        call.status call.ratings).1 = .ok () →
      call.document_id ∈ (b.AddDocuments calls).document_ids_ ∧
      (b.AddDocuments calls).documents_.find? call.document_id =
        some ⟨SearchServer.ComputeAverageRating call.ratings, call.status⟩ ∧
      ∀ t ∈ SplitIntoWords call.document,
        ((b.AddDocuments calls).forward_freq call.document_id t).isSome = true) := by
  have hra : Reachable (a.AddDocuments calls) :=
    SearchServer.AddDocuments_reachable calls a (Reachable.init W a ha)
  have hrb0 : Reachable b := Reachable.init [] b hb
  have hrb : Reachable (b.AddDocuments calls) := SearchServer.AddDocuments_reachable calls b hrb0
  have hnob0 : b.stop_words_ = [] := SearchServer.ofContainer_nil b hb
  have hnob : (b.AddDocuments calls).stop_words_ = [] := by
    rw [SearchServer.AddDocuments_stop_words, hnob0]
  have hstop : ∀ w, (a.AddDocuments calls).IsStopWord w = a.IsStopWord w := by
    intro w
    simp only [SearchServer.IsStopWord, SearchServer.AddDocuments_stop_words]
  have hparse : ∀ (policy : ExecutionPolicy) (s : SearchServer K) (raw_query : List Char),
      (∀ t ∈ SplitIntoWords raw_query, a.IsStopWord t = true ∧ t.head? ≠ some '-') →
      ∃ query, s.ParseQuery policy raw_query = .ok query := by
    intro policy s raw_query hq
    have hwell : ∀ t ∈ SplitIntoWords raw_query, SearchServer.malformed t = false := by
      intro t ht
      exact SearchServer.malformed_of_plain t (hq t ht).2
        ((Reachable.init W a ha).stop_words_valid t
          ((SearchServer.IsStopWord_iff a t).mp (hq t ht).1))
    exact (SearchServer.ParseQuery_ok_iff_loop policy s raw_query).mpr
      ((SearchServer.ParseQuery.loop_ok_iff_wellformed s raw_query _).mpr hwell)
  refine ⟨?_, ?_, ?_, ?_⟩
  · intro w hw
    exact hra.no_stop_word_indexed w (by rw [hstop]; exact hw)
  · intro policy ln raw_query pred query hall hq
    exact SearchServer.FindTopDocuments_stop_query policy ln _ hra.inv raw_query pred query hq
      (fun t ht => by rw [hstop]; exact hall t ht)
  · intro policy ln raw_query pred hq
    constructor
    · obtain ⟨query, hpq⟩ := hparse policy (a.AddDocuments calls) raw_query hq
      exact SearchServer.FindTopDocuments_stop_query policy ln _ hra.inv raw_query pred query
        hpq (fun t ht => by rw [hstop]; exact (hq t ht).1)
    · obtain ⟨query, hpq⟩ := hparse policy (b.AddDocuments calls) raw_query hq
      obtain ⟨docs, hdocs, hlen, hmem, hnd, hfew⟩ :=
        SearchServer.FindTopDocuments_matches policy ln _ hrb.inv raw_query pred query hpq
      have hmatch : (b.AddDocuments calls).is_match raw_query pred = fun d =>
          (b.AddDocuments calls).satisfies pred d &&
            (b.AddDocuments calls).has_word_of (SplitIntoWords raw_query) d := by
        funext d
        exact SearchServer.is_match_plain _ hnob raw_query (fun t ht => (hq t ht).2) pred d
      rw [hmatch] at hlen hmem hfew
      refine ⟨docs, hdocs, hlen, ?_, hnd, ?_⟩
      · intro d hd
        obtain ⟨h1, h2⟩ := hmem d hd
        simp only [Bool.and_eq_true] at h2
        exact ⟨h1, h2.1, h2.2⟩
      · intro hle d hd hs hw
        rw [(hfew hle).mem_iff, List.mem_filter]
        exact ⟨hd, by simp [hs, hw]⟩
  · intro i call hcall hok
    exact SearchServer.AddDocuments_plain b hrb0 hnob0 calls i call hcall hok

/-- Witness of C30 (amended): the stop words "in" and "the", and the one call
`AddDocument(42, "cat in the city", ACTUAL, {1, 2, 3})`; the query "in the" finds nothing on
the server with the stop words and finds the document on the server without. -/
theorem C30_stop_words_not_indexed_witness :
    (SearchServer.ofContainer ["in".toList, "the".toList] : Except Exception (SearchServer ℚ))
      = .ok Sample.stop ∧
    (SearchServer.ofContainer [] : Except Exception (SearchServer ℚ)) = .ok Sample.empty ∧
    SearchServer.FindTopDocuments .seq Sample.ln (Sample.stop.AddDocuments Sample.city_calls)
      "in the".toList Sample.all = .ok [] ∧
    SearchServer.FindTopDocuments .seq Sample.ln (Sample.empty.AddDocuments Sample.city_calls)
      "in the".toList Sample.all = .ok [⟨42, 0, 2⟩] ∧
    ((∀ w, Sample.stop.IsStopWord w = true →
      (Sample.stop.AddDocuments Sample.city_calls).word_to_document_freqs_.find? w = none ∧
      ∀ d, (Sample.stop.AddDocuments Sample.city_calls).forward_freq d w = none) ∧
    (∀ (policy : ExecutionPolicy) (ln : ℚ → ℚ) (raw_query : List Char)
      (pred : DocumentPredicate) (query : Query),
      (∀ t ∈ SplitIntoWords raw_query, Sample.stop.IsStopWord t = true) →
      (Sample.stop.AddDocuments Sample.city_calls).ParseQuery policy raw_query = .ok query →
      SearchServer.FindTopDocuments policy ln (Sample.stop.AddDocuments Sample.city_calls)
        raw_query pred = .ok []) ∧
    (∀ (policy : ExecutionPolicy) (ln : ℚ → ℚ) (raw_query : List Char)
      (pred : DocumentPredicate),
      (∀ t ∈ SplitIntoWords raw_query, Sample.stop.IsStopWord t = true ∧ t.head? ≠ some '-') →
      SearchServer.FindTopDocuments policy ln (Sample.stop.AddDocuments Sample.city_calls)
        raw_query pred = .ok [] ∧
      ∃ docs, SearchServer.FindTopDocuments policy ln
          (Sample.empty.AddDocuments Sample.city_calls) raw_query pred = .ok docs ∧
        docs.length = min 5 ((Sample.empty.AddDocuments Sample.city_calls).document_ids_.filter
          (fun d => (Sample.empty.AddDocuments Sample.city_calls).satisfies pred d &&
            (Sample.empty.AddDocuments Sample.city_calls).has_word_of
              (SplitIntoWords raw_query) d)).length ∧
        (∀ d, d ∈ docs.map (fun doc => doc.id) →
          d ∈ (Sample.empty.AddDocuments Sample.city_calls).document_ids_ ∧
          (Sample.empty.AddDocuments Sample.city_calls).satisfies pred d = true ∧
          (Sample.empty.AddDocuments Sample.city_calls).has_word_of
            (SplitIntoWords raw_query) d = true) ∧
        (docs.map (fun doc => doc.id)).Nodup ∧
        (((Sample.empty.AddDocuments Sample.city_calls).document_ids_.filter (fun d =>
          (Sample.empty.AddDocuments Sample.city_calls).satisfies pred d &&
            (Sample.empty.AddDocuments Sample.city_calls).has_word_of
              (SplitIntoWords raw_query) d)).length ≤ 5 →
          ∀ d, d ∈ (Sample.empty.AddDocuments Sample.city_calls).document_ids_ →
            (Sample.empty.AddDocuments Sample.city_calls).satisfies pred d = true →
            (Sample.empty.AddDocuments Sample.city_calls).has_word_of
              (SplitIntoWords raw_query) d = true →
            d ∈ docs.map (fun doc => doc.id))) ∧
    (∀ (i : Nat) (call : AddDocumentCall), Sample.city_calls[i]? = some call →
      ((Sample.empty.AddDocuments (Sample.city_calls.take i)).AddDocument call.document_id
        call.document call.status call.ratings).1 = .ok () →
      call.document_id ∈ (Sample.empty.AddDocuments Sample.city_calls).document_ids_ ∧
      (Sample.empty.AddDocuments Sample.city_calls).documents_.find? call.document_id =
        some ⟨SearchServer.ComputeAverageRating call.ratings, call.status⟩ ∧
      ∀ t ∈ SplitIntoWords call.document,
        ((Sample.empty.AddDocuments Sample.city_calls).forward_freq call.document_id
          t).isSome = true)) :=
  ⟨by decide, by decide, by decide!, by decide!,
    C30_stop_words_not_indexed ["in".toList, "the".toList] Sample.stop Sample.empty
      (by decide) (by decide) Sample.city_calls⟩
